import Mathlib

/-!
# POD basis construction and Galerkin projection (`source/pod/pod.cc`)

A shallow embedding of `POD::method_of_snapshots`, `POD::BlockPODBasis` and the two
`POD::create_reduced_matrix` overloads, and of the class `PODBasis` of the earlier file
`pod/pod.cc` with its two projection members.

* Scalars (`double`) are elements of a field `K`: arithmetic is exact.  The two `<cmath>`
  functions the code calls, `std::sqrt` and `std::isnan`, are parameters (`CMath`).
* The one division by a computed number is `1.0/singular_value` in line 138.  For a singular
  value `0` the quotient is infinite, and `operator*=` of `BlockVector` asserts that its factor
  is finite: the pass fails with `ExcNumberNotFinite`.  The field's own `1 / 0` is never used
  as a factor.
* The `std::map<int, Vector<double>>` of `PODBasis` is given by the value stored under each
  key, if any.
* `Vector<double>` is a list of scalars, `BlockVector<double>` a list of blocks.
* `SparseMatrix<double>`, `FullMatrix<double>` and `LAPACKFullMatrix<double>` are given by
  their sizes `m`, `n` and their entry function `el`.
* The LAPACK eigensolver is a parameter (`EigenSolver`).
* `Assert` and the range/dimension assertions inside the deal.II containers abort the
  computation: every operation that can do so returns `Except Exc`.  Of the assertions inside
  deal.II the index-range checks, the dimension checks and the check of `operator*=` that its
  factor is finite are modelled; `pod_vectors[0]` on an empty `std::vector` is treated like a
  failed range check.
* The tasks of `linear_combination_tasks` write to disjoint slots and are run one after the
  other.
* Snapshot files are taken as already loaded: the list of file names is the list of the
  block vectors `H5::load_block_vector` reads from them.
-/

set_option autoImplicit false
set_option linter.unusedSectionVars false

namespace POD

/-- Exceptions raised by `Assert` in `pod.cc`, by the deal.II containers and by `std::vector`. -/
inductive Exc where
  | ExcInternalError
  | ExcIO
  | ExcDimensionMismatch
  | ExcIndexRange
  | ExcNotImplemented
  | ExcNumberNotFinite
  | out_of_range
  deriving DecidableEq, Repr

/-- The functions of `<cmath>` used by `method_of_snapshots`. -/
structure CMath (K : Type) where
  sqrt : K → K
  isnan : K → Bool

/-- The class `dealii::Vector<double>`. -/
abbrev Vector (K : Type) := List K

/-- The class `dealii::BlockVector<double>`: the list of its blocks. -/
abbrev BlockVector (K : Type) := List (Vector K)

/-- The class `dealii::SparseMatrix<double>`: `m()` rows, `n()` columns, entries `el(i, j)`. -/
structure SparseMatrix (K : Type) where
  m : Nat
  n : Nat
  el : Nat → Nat → K

/-- The class `dealii::FullMatrix<double>` (and `LAPACKFullMatrix<double>`): `m()` rows,
`n()` columns, entries `operator()(i, j)`. -/
@[ext]
structure FullMatrix (K : Type) where
  m : Nat
  n : Nat
  el : Nat → Nat → K

/-- The class `dealii::LAPACKFullMatrix<double>`. -/
abbrev LAPACKFullMatrix (K : Type) := FullMatrix K

/-- What `compute_generalized_eigenvalues_symmetric` leaves behind: the eigenvalues read back
through `eigenvalue(i)` as `std::complex<double>` (real part, imaginary part) and the
eigenvectors written to its output argument. -/
structure EigenSolution (K : Type) where
  eigenvalues : List (K × K)
  eigenvectors : List (Vector K)

/-- The call `LAPACKFullMatrix::compute_generalized_eigenvalues_symmetric(B, eigenvectors)` on
the matrix `A`: the first argument is `A`, the second `B`. -/
abbrev EigenSolver (K : Type) := LAPACKFullMatrix K → LAPACKFullMatrix K → EigenSolution K

/-- The class `BlockPODBasis`. -/
structure BlockPODBasis (K : Type) where
  n_blocks : Nat
  n_dofs_per_block : Nat
  mean_vector : BlockVector K
  singular_values : List K
  vectors : List (BlockVector K)

/-- The accessor `std::vector::at(i)`. -/
def vector_at {α : Type} (v : List α) (i : Nat) : Except Exc α :=
  match v[i]? with
  | some x => .ok x
  | none => .error .out_of_range

/-- The accessor `operator[]` of `dealii::Vector` and of `std::vector`, with the range assertion. -/
def index {α : Type} (v : List α) (i : Nat) : Except Exc α :=
  match v[i]? with
  | some x => .ok x
  | none => .error .ExcIndexRange

section Scalar

variable {K : Type} [Field K]

namespace Vector

/-- The entries of `this + a * V`. -/
def axpy (this : Vector K) (a : K) (V : Vector K) : Vector K :=
  List.zipWith (fun x v => x + a * v) this V

/-- The sum of the products of corresponding entries. -/
def inner (this : Vector K) (V : Vector K) : K :=
  (List.zipWith (fun x v => x * v) this V).sum

/-- Member `Vector::add(a, V)`: `this += a * V`. -/
def add (this : Vector K) (a : K) (V : Vector K) : Except Exc (Vector K) :=
  if this.length = V.length then .ok (axpy this a V)
  else .error .ExcDimensionMismatch

/-- Member `Vector::operator*(V)`: the scalar product. -/
def dot (this : Vector K) (V : Vector K) : Except Exc K :=
  if this.length = V.length then .ok (inner this V)
  else .error .ExcDimensionMismatch

/-- Member `Vector::operator*=(factor)`. -/
def scale (this : Vector K) (factor : K) : Vector K :=
  this.map (fun x => x * factor)

end Vector

namespace BlockVector

/-- Constructor `BlockVector(n_blocks, block_size)`: all entries zero. -/
def zero (n_blocks block_size : Nat) : BlockVector K :=
  List.replicate n_blocks (List.replicate block_size 0)

/-- Member `BlockVector::block(i)`. -/
def block (this : BlockVector K) (i : Nat) : Except Exc (Vector K) :=
  index this i

/-- Member `BlockVector::add(a, V)`: `this += a * V`, block by block. -/
def add (this : BlockVector K) (a : K) (V : BlockVector K) : Except Exc (BlockVector K) :=
  if this.length = V.length then
    (List.zip this V).mapM (fun p => Vector.add p.1 a p.2)
  else .error .ExcDimensionMismatch

/-- Member `BlockVector::operator*(V)`: the sum of the scalar products of the blocks. -/
def dot (this : BlockVector K) (V : BlockVector K) : Except Exc K :=
  if this.length = V.length then do
    let products ← (List.zip this V).mapM (fun p => Vector.dot p.1 p.2)
    pure products.sum
  else .error .ExcDimensionMismatch

/-- Member `BlockVector::operator*=(factor)`. -/
def scale (this : BlockVector K) (factor : K) : BlockVector K :=
  this.map (fun b => Vector.scale b factor)

/-- Member `BlockVector::operator=(0.0)`: every entry is set to zero, the sizes stay. -/
def set_zero (this : BlockVector K) : BlockVector K :=
  this.map (fun b => b.map (fun _ => 0))

end BlockVector

namespace SparseMatrix

/-- The entries of `A * src`. -/
def apply (A : SparseMatrix K) (src : Vector K) : Vector K :=
  (List.range A.m).map (fun i => ((List.range A.n).map (fun j => A.el i j * src.getD j 0)).sum)

/-- Member `SparseMatrix::vmult(dst, src)`: `dst = A * src`. -/
def vmult (A : SparseMatrix K) (dst src : Vector K) : Except Exc (Vector K) :=
  if A.m = dst.length ∧ A.n = src.length then .ok (A.apply src)
  else .error .ExcDimensionMismatch

end SparseMatrix

namespace FullMatrix

/-- Constructor `FullMatrix(n)` and `reinit(m, n)` followed by `= 0.0`: the zero matrix. -/
def zero (m n : Nat) : FullMatrix K :=
  { m := m, n := n, el := fun _ _ => 0 }

/-- The assignment `A(i, j) = value`. -/
def set (A : FullMatrix K) (i j : Nat) (value : K) : FullMatrix K :=
  { A with el := fun a b => if a = i ∧ b = j then value else A.el a b }

end FullMatrix

namespace BlockPODBasis

/-- Member `BlockPODBasis::reinit`. -/
def reinit (this : BlockPODBasis K) (n_blocks n_dofs_per_block : Nat) : BlockPODBasis K :=
  { this with
    n_blocks := n_blocks
    n_dofs_per_block := n_dofs_per_block
    mean_vector := BlockVector.zero n_blocks n_dofs_per_block }

/-- Member `BlockPODBasis::project_load_vector`. -/
def project_load_vector (_this : BlockPODBasis K) (_load_vector _pod_load_vector : BlockVector K) :
    Except Exc (BlockVector K) :=
  .error .ExcNotImplemented

/-- Member `BlockPODBasis::project_to_fe`. -/
def project_to_fe (_this : BlockPODBasis K) (_pod_vector _fe_vector : BlockVector K) :
    Except Exc (BlockVector K) :=
  .error .ExcNotImplemented

end BlockPODBasis

/-- The local variables of `method_of_snapshots` that its first loop (lines 42-57) changes. -/
structure LoadState (K : Type) where
  pod_basis : BlockPODBasis K
  snapshots : List (BlockVector K)
  pod_basis_initialized : Bool
  n_dofs_per_block : Nat
  n_blocks : Nat

/-- One pass through the loop over the snapshot files (lines 42-57): `block_vector` is what
`H5::load_block_vector` read. -/
def load_snapshot (mean_weight : K) (st : LoadState K) (block_vector : BlockVector K) :
    Except Exc (LoadState K) := do
  let st ←
    if !st.pod_basis_initialized then
      if 0 < block_vector.length then do
        let block0 ← BlockVector.block block_vector 0
        pure { st with
               n_blocks := block_vector.length
               n_dofs_per_block := block0.length
               pod_basis := st.pod_basis.reinit block_vector.length block0.length
               pod_basis_initialized := true }
      else .error .ExcInternalError
    else pure st
  if block_vector.length = st.n_blocks then do
    let mean_vector ← BlockVector.add st.pod_basis.mean_vector mean_weight block_vector
    pure { st with
           pod_basis := { st.pod_basis with mean_vector := mean_vector }
           snapshots := st.snapshots ++ [block_vector] }
  else .error Exc.ExcIO

/-- The centring of the trajectory (lines 59-69): the snapshots and the mean vector afterwards. -/
def center (center_trajectory : Bool) (snapshots : List (BlockVector K))
    (mean_vector : BlockVector K) : Except Exc (List (BlockVector K) × BlockVector K) :=
  if center_trajectory then do
    let snapshots ← snapshots.mapM (fun snapshot => BlockVector.add snapshot (-1) mean_vector)
    pure (snapshots, mean_vector)
  else pure (snapshots, BlockVector.set_zero mean_vector)

/-- The matrices and the work vector changed by the loop over `row` (lines 75-88). -/
structure CorrelationState (K : Type) where
  correlation_matrix : LAPACKFullMatrix K
  identity : LAPACKFullMatrix K
  temp : BlockVector K

/-- Line 79: block `block_n` of `temp` becomes the mass matrix times block `block_n` of
snapshot `row`. -/
def mass_times_block (mass_matrix : SparseMatrix K) (snapshots : List (BlockVector K))
    (row : Nat) (temp : BlockVector K) (block_n : Nat) : Except Exc (BlockVector K) := do
  let dst ← BlockVector.block temp block_n
  let snapshot ← vector_at snapshots row
  let src ← BlockVector.block snapshot block_n
  let product ← mass_matrix.vmult dst src
  pure (temp.set block_n product)

/-- Lines 83-85: the entries `(row, column)` and `(column, row)` of the correlation matrix. -/
def correlation_entry (snapshots : List (BlockVector K)) (temp : BlockVector K) (row : Nat)
    (correlation_matrix : LAPACKFullMatrix K) (column : Nat) :
    Except Exc (LAPACKFullMatrix K) := do
  let snapshot ← index snapshots column
  let value ← BlockVector.dot temp snapshot
  pure ((correlation_matrix.set row column value).set column row value)

/-- One pass through the loop over `row` (lines 75-88). -/
def correlation_row (mass_matrix : SparseMatrix K) (snapshots : List (BlockVector K))
    (n_blocks : Nat) (st : CorrelationState K) (row : Nat) : Except Exc (CorrelationState K) := do
  let temp ← (List.range n_blocks).foldlM (mass_times_block mass_matrix snapshots row) st.temp
  let correlation_matrix ← (List.range (row + 1)).foldlM (correlation_entry snapshots temp row)
    st.correlation_matrix
  pure { correlation_matrix := correlation_matrix
         identity := st.identity.set row row 1
         temp := temp }

/-- The correlation matrix and the identity matrix (lines 71-88). -/
def correlation (mass_matrix : SparseMatrix K) (snapshots : List (BlockVector K))
    (n_snapshots n_blocks n_dofs_per_block : Nat) : Except Exc (CorrelationState K) :=
  (List.range n_snapshots).foldlM (correlation_row mass_matrix snapshots n_blocks)
    { correlation_matrix := FullMatrix.zero n_snapshots n_snapshots
      identity := FullMatrix.zero n_snapshots n_snapshots
      temp := BlockVector.zero n_blocks n_dofs_per_block }

/-- The singular values before they are reversed (lines 93-100). -/
def compute_singular_values [DecidableEq K] (cmath : CMath K) (eigenvalues : List (K × K))
    (n_snapshots : Nat) : Except Exc (List K) :=
  (List.range n_snapshots).mapM (fun i => do
    let eigenvalue ← index eigenvalues i
    if eigenvalue.2 = 0 then pure (cmath.sqrt eigenvalue.1)
    else .error .ExcInternalError)

/-- One pass through the loop over the snapshots inside a task (lines 120-127): `acc` holds
`pod_vector` and `snapshot_n`. -/
def add_snapshot (cmath : CMath K) (eigenvector : Vector K) (singular_value : K)
    (acc : BlockVector K × Nat) (snapshot : BlockVector K) :
    Except Exc (BlockVector K × Nat) := do
  let coefficient ← index eigenvector acc.2
  let pod_vector ←
    if !cmath.isnan coefficient && !cmath.isnan singular_value then
      BlockVector.add acc.1 coefficient snapshot
    else pure acc.1
  pure (pod_vector, acc.2 + 1)

/-- The body of one task of `linear_combination_tasks` (lines 113-129): the POD vector stored
in `pod_basis.vectors[eigenvector_n]`. -/
def linear_combination_task (cmath : CMath K) (eigenvectors : List (Vector K))
    (singular_values : List K) (snapshots : List (BlockVector K))
    (n_blocks n_dofs_per_block : Nat) (eigenvector_n : Nat) : Except Exc (BlockVector K) := do
  let eigenvector ← index eigenvectors eigenvector_n
  let singular_value ← index singular_values eigenvector_n
  let result ← snapshots.foldlM (add_snapshot cmath eigenvector singular_value)
    (BlockVector.zero n_blocks n_dofs_per_block, 0)
  pure result.1

/-- One pass through the normalisation loop (lines 135-139).  The factor `1.0/singular_value`
is infinite when the singular value is `0`, and `operator*=` then fails its assertion that the
factor is finite. -/
def normalize_vector [DecidableEq K] (cmath : CMath K) (singular_values : List K)
    (vectors : List (BlockVector K)) (pod_vector_n : Nat) : Except Exc (List (BlockVector K)) := do
  let singular_value ← vector_at singular_values pod_vector_n
  if !cmath.isnan singular_value then do
    let pod_vector ← vector_at vectors pod_vector_n
    if singular_value = 0 then .error .ExcNumberNotFinite
    else pure (vectors.set pod_vector_n (BlockVector.scale pod_vector (1 / singular_value)))
  else pure vectors

/-- The normalisation loop (lines 133-140). -/
def normalize [DecidableEq K] (cmath : CMath K) (singular_values : List K)
    (vectors : List (BlockVector K))
    (n_actual_pod_vectors : Nat) : Except Exc (List (BlockVector K)) :=
  (List.range n_actual_pod_vectors).foldlM (normalize_vector cmath singular_values) vectors

/-- The local variables of `method_of_snapshots` once the correlation matrix is built
(after line 88). -/
structure Correlated (K : Type) where
  pod_basis : BlockPODBasis K
  snapshots : List (BlockVector K)
  n_dofs_per_block : Nat
  n_blocks : Nat
  correlation_matrix : LAPACKFullMatrix K
  identity : LAPACKFullMatrix K

/-- Lines 33-88 of `method_of_snapshots`: the snapshots are loaded, the mean is accumulated, the
trajectory is centred and the correlation matrix is built. -/
def build_correlation_matrix (mass_matrix : SparseMatrix K)
    (snapshot_file_names : List (BlockVector K)) (center_trajectory : Bool)
    (pod_basis : BlockPODBasis K) : Except Exc (Correlated K) := do
  let mean_weight : K := 1 / (snapshot_file_names.length : K)
  let n_snapshots := snapshot_file_names.length
  let loaded ← snapshot_file_names.foldlM (load_snapshot mean_weight)
    { pod_basis := pod_basis
      snapshots := []
      pod_basis_initialized := false
      n_dofs_per_block := 0
      n_blocks := 0 }
  let centered ← center center_trajectory loaded.snapshots loaded.pod_basis.mean_vector
  let matrices ← correlation mass_matrix centered.1 n_snapshots loaded.n_blocks
    loaded.n_dofs_per_block
  pure { pod_basis := { loaded.pod_basis with mean_vector := centered.2 }
         snapshots := centered.1
         n_dofs_per_block := loaded.n_dofs_per_block
         n_blocks := loaded.n_blocks
         correlation_matrix := matrices.correlation_matrix
         identity := matrices.identity }

/-- Lines 90-141 of `method_of_snapshots`: the eigenproblem is solved, the singular values are
stored, and the POD vectors are assembled and normalised. -/
def build_pod_vectors [DecidableEq K] (cmath : CMath K) (solver : EigenSolver K)
    (n_snapshots n_pod_vectors : Nat) (c : Correlated K) : Except Exc (BlockPODBasis K) := do
  let solution := solver c.correlation_matrix c.identity
  let singular_values ← compute_singular_values cmath solution.eigenvalues n_snapshots
  let eigenvectors := solution.eigenvectors.reverse
  let singular_values := singular_values.reverse
  let n_actual_pod_vectors := min n_snapshots n_pod_vectors
  let vectors ← (List.range n_actual_pod_vectors).mapM
    (linear_combination_task cmath eigenvectors singular_values c.snapshots c.n_blocks
      c.n_dofs_per_block)
  let vectors ← normalize cmath singular_values vectors n_actual_pod_vectors
  pure { c.pod_basis with
         singular_values := singular_values
         vectors := vectors }

/-- The function `POD::method_of_snapshots`: `pod_basis` is the basis passed in, the result is the
basis left behind. -/
def method_of_snapshots [DecidableEq K] (cmath : CMath K) (solver : EigenSolver K)
    (mass_matrix : SparseMatrix K) (snapshot_file_names : List (BlockVector K))
    (n_pod_vectors : Nat) (center_trajectory : Bool) (pod_basis : BlockPODBasis K) :
    Except Exc (BlockPODBasis K) := do
  let c ← build_correlation_matrix mass_matrix snapshot_file_names center_trajectory pod_basis
  build_pod_vectors cmath solver snapshot_file_names.length n_pod_vectors c

/-- Line 214: `rom_matrix(row, column) += pod_vectors.at(row).block(dim_n) * temp`. -/
def reduced_entry (pod_vectors : List (BlockVector K)) (dim_n column : Nat) (temp : Vector K)
    (rom_matrix : FullMatrix K) (row : Nat) : Except Exc (FullMatrix K) := do
  let pod_vector ← vector_at pod_vectors row
  let block ← BlockVector.block pod_vector dim_n
  let value ← Vector.dot block temp
  pure (rom_matrix.set row column (rom_matrix.el row column + value))

/-- One pass through the loop over `column` (lines 209-216): `st` holds `rom_matrix` and
`temp`. -/
def reduced_column (pod_vectors : List (BlockVector K)) (full_matrix : SparseMatrix K)
    (dim_n : Nat) (st : FullMatrix K × Vector K) (column : Nat) :
    Except Exc (FullMatrix K × Vector K) := do
  let pod_vector ← vector_at pod_vectors column
  let src ← BlockVector.block pod_vector dim_n
  let temp ← full_matrix.vmult st.2 src
  let rom_matrix ← (List.range pod_vectors.length).foldlM
    (reduced_entry pod_vectors dim_n column temp) st.1
  pure (rom_matrix, temp)

/-- One pass through the loop over `dims` (lines 207-217). -/
def reduced_dim (pod_vectors : List (BlockVector K)) (full_matrix : SparseMatrix K)
    (st : FullMatrix K × Vector K) (dim_n : Nat) : Except Exc (FullMatrix K × Vector K) :=
  (List.range pod_vectors.length).foldlM (reduced_column pod_vectors full_matrix dim_n) st

/-- The four-argument overload of `POD::create_reduced_matrix`: the result is `rom_matrix`. -/
def create_reduced_matrix (pod_vectors : List (BlockVector K)) (full_matrix : SparseMatrix K)
    (dims : List Nat) : Except Exc (FullMatrix K) := do
  let first ← index pod_vectors 0
  let block0 ← BlockVector.block first 0
  let n_dofs := block0.length
  let n_pod_dofs := pod_vectors.length
  let rom_matrix : FullMatrix K := FullMatrix.zero n_pod_dofs n_pod_dofs
  let temp : Vector K := List.replicate n_dofs 0
  let result ← dims.foldlM (reduced_dim pod_vectors full_matrix) (rom_matrix, temp)
  pure result.1

/-- The three-argument overload of `POD::create_reduced_matrix`. -/
def create_reduced_matrix_all_blocks (pod_vectors : List (BlockVector K))
    (full_matrix : SparseMatrix K) : Except Exc (FullMatrix K) := do
  let first ← vector_at pod_vectors 0
  let dims := (List.range first.length).foldl (fun (dims : List Nat) i => dims ++ [i]) []
  create_reduced_matrix pod_vectors full_matrix dims

/-! ## Notions used to state the results -/

/-- A block vector with `n_blocks` blocks of `n_dofs_per_block` entries each. -/
def Shaped (n_blocks n_dofs_per_block : Nat) (v : BlockVector K) : Prop :=
  v.length = n_blocks ∧ ∀ b ∈ v, b.length = n_dofs_per_block

/-- Entry `d` of block `b` of a block vector (zero outside its range). -/
def entry (v : BlockVector K) (b d : Nat) : K :=
  (v.getD b []).getD d 0

namespace BlockVector

/-- The blocks of `this + a * V`. -/
def axpy (this : BlockVector K) (a : K) (V : BlockVector K) : BlockVector K :=
  List.zipWith (fun t v => Vector.axpy t a v) this V

/-- The sum over the blocks of the products of corresponding entries. -/
def inner (this : BlockVector K) (V : BlockVector K) : K :=
  (List.zipWith Vector.inner this V).sum

end BlockVector

/-- The mean vector after the snapshots `snapshots` were added to `mean_vector` with weight
`mean_weight` each. -/
def accumulate (mean_weight : K) (mean_vector : BlockVector K)
    (snapshots : List (BlockVector K)) : BlockVector K :=
  snapshots.foldl (fun m s => BlockVector.axpy m mean_weight s) mean_vector

/-- The snapshots the correlation matrix is built from: the mean is subtracted from each when
the trajectory is centred. -/
def working_snapshots (center_trajectory : Bool) (snapshots : List (BlockVector K))
    (mean_vector : BlockVector K) : List (BlockVector K) :=
  if center_trajectory then snapshots.map (fun s => BlockVector.axpy s (-1) mean_vector)
  else snapshots

/-- The value line 83 computes for `row` and `column`: the mass matrix is applied to every
block of snapshot `row`, and the result is multiplied with snapshot `column`. -/
def gram (mass_matrix : SparseMatrix K) (snapshots : List (BlockVector K))
    (row column : Nat) : K :=
  BlockVector.inner ((snapshots.getD row []).map mass_matrix.apply) (snapshots.getD column [])

/-- The entries of the correlation matrix once the rows below `n` are done. -/
def correlation_entries (mass_matrix : SparseMatrix K) (snapshots : List (BlockVector K))
    (n : Nat) (a b : Nat) : K :=
  if a < n ∧ b < n then
    if b ≤ a then gram mass_matrix snapshots a b else gram mass_matrix snapshots b a
  else 0

/-- The entries of `identity` once the rows below `n` are done. -/
def identity_entries (n : Nat) (a b : Nat) : K :=
  if a = b ∧ a < n then 1 else 0

/-- The mean vector line 55 accumulates over snapshots with `n_blocks` blocks of
`n_dofs_per_block` entries. -/
def mean_of (snapshots : List (BlockVector K)) (n_blocks n_dofs_per_block : Nat) :
    BlockVector K :=
  accumulate (1 / (snapshots.length : K)) (BlockVector.zero n_blocks n_dofs_per_block) snapshots

/-- The vector a task leaves in `pod_vector`: the snapshots are added one after the other,
each with its coefficient, unless the coefficient or the singular value is NaN. -/
def combination (cmath : CMath K) (eigenvector : Vector K) (singular_value : K)
    (snapshots : List (BlockVector K)) (start : BlockVector K) : BlockVector K :=
  (List.zip eigenvector snapshots).foldl
    (fun acc p =>
      if !cmath.isnan p.1 && !cmath.isnan singular_value then BlockVector.axpy acc p.1 p.2
      else acc)
    start

/-- The POD vector after the normalisation loop, for a singular value that is NaN or not zero;
for the singular value `0` the loop fails (`normalize_vector`) and leaves no POD vector. -/
def pod_vector (cmath : CMath K) (eigenvector : Vector K) (singular_value : K)
    (snapshots : List (BlockVector K)) (n_blocks n_dofs_per_block : Nat) : BlockVector K :=
  if !cmath.isnan singular_value then
    BlockVector.scale
      (combination cmath eigenvector singular_value snapshots
        (BlockVector.zero n_blocks n_dofs_per_block))
      (1 / singular_value)
  else
    combination cmath eigenvector singular_value snapshots
      (BlockVector.zero n_blocks n_dofs_per_block)

/-- None of the first `n` singular values that are not NaN is zero: the factors
`1.0/singular_value` of line 138 are finite. -/
def FiniteFactors (cmath : CMath K) (singular_values : List K) (n : Nat) : Prop :=
  ∀ k, k < n → cmath.isnan (singular_values.getD k 0) = false → singular_values.getD k 0 ≠ 0

/-- The solver returned `n` eigenvalues and `n` eigenvectors of `n` entries each. -/
def EigenSolution.Sized (solution : EigenSolution K) (n : Nat) : Prop :=
  solution.eigenvalues.length = n ∧ solution.eigenvectors.length = n
    ∧ ∀ v ∈ solution.eigenvectors, v.length = n

/-- Every eigenvalue the solver returned has imaginary part zero. -/
def EigenSolution.IsReal (solution : EigenSolution K) : Prop :=
  ∀ ev ∈ solution.eigenvalues, ev.2 = 0

/-- The singular values after line 102: the square roots of the eigenvalues, reversed. -/
def singular_values_of (cmath : CMath K) (solution : EigenSolution K) : List K :=
  (solution.eigenvalues.map (fun ev => cmath.sqrt ev.1)).reverse

/-- The POD vectors after line 140, when no retained singular value is zero. -/
def pod_vectors_of (cmath : CMath K) (solution : EigenSolution K)
    (snapshots : List (BlockVector K)) (n_blocks n_dofs_per_block n : Nat) :
    List (BlockVector K) :=
  (List.range n).map (fun k =>
    pod_vector cmath (solution.eigenvectors.reverse.getD k [])
      ((singular_values_of cmath solution).getD k 0) snapshots n_blocks n_dofs_per_block)

/-- The term the pass for block `dim_n` adds to `rom_matrix(row, column)` (line 214). -/
def projected_entry (pod_vectors : List (BlockVector K)) (full_matrix : SparseMatrix K)
    (dim_n row column : Nat) : K :=
  Vector.inner ((pod_vectors.getD row []).getD dim_n [])
    (full_matrix.apply ((pod_vectors.getD column []).getD dim_n []))

/-- The entries of `rom_matrix` after the passes for the blocks in `dims`. -/
def reduced_entries (pod_vectors : List (BlockVector K)) (full_matrix : SparseMatrix K)
    (dims : List Nat) (row column : Nat) : K :=
  if row < pod_vectors.length ∧ column < pod_vectors.length then
    (dims.map (fun dim_n => projected_entry pod_vectors full_matrix dim_n row column)).sum
  else 0

/-- The sum of two sparse matrices of one size. -/
def SparseMatrix.sum (A B : SparseMatrix K) : SparseMatrix K :=
  { m := A.m, n := A.n, el := fun i j => A.el i j + B.el i j }

/-- A square sparse matrix whose entries `(i, j)` and `(j, i)` agree. -/
def SparseMatrix.Symmetric (A : SparseMatrix K) : Prop :=
  A.m = A.n ∧ ∀ i j, i < A.m → j < A.m → A.el i j = A.el j i

/-! ## Test data -/

/-- The `n × n` identity as a sparse matrix. -/
def identity_matrix (n : Nat) : SparseMatrix K :=
  { m := n, n := n, el := fun i j => if i = j then 1 else 0 }

/-- An eigensolver that is exact on diagonal matrices: the diagonal entries are the
eigenvalues, the unit vectors the eigenvectors. -/
def diagonal_solver : EigenSolver K :=
  fun A _ =>
    { eigenvalues := (List.range A.m).map (fun i => (A.el i i, 0))
      eigenvectors := (List.range A.m).map (fun i =>
        (List.range A.m).map (fun j => if i = j then 1 else 0)) }

/-- A basis before `method_of_snapshots` has run. -/
def empty_basis : BlockPODBasis K :=
  { n_blocks := 0, n_dofs_per_block := 0, mean_vector := [], singular_values := [], vectors := [] }

/-- Rational arithmetic with the square roots of `0`, `1` and `4`, and no NaN. -/
def cmath_exact : CMath ℚ :=
  { sqrt := fun x => if x = 4 then 2 else if x = 1 then 1 else 0
    isnan := fun _ => false }

/-- The state `method_of_snapshots` reaches after line 88 on the un-centred snapshots `[1, 0]`
and `[0, 2]` with the identity as mass matrix. -/
def diagonal_example : Correlated ℚ :=
  { pod_basis := { n_blocks := 1, n_dofs_per_block := 2, mean_vector := [[0, 0]],
                   singular_values := [], vectors := [] }
    snapshots := [[[1, 0]], [[0, 2]]]
    n_dofs_per_block := 2
    n_blocks := 1
    correlation_matrix := ⟨2, 2, correlation_entries (identity_matrix 2) [[[1, 0]], [[0, 2]]] 2⟩
    identity := ⟨2, 2, identity_entries 2⟩ }

end Scalar

/-! ## Further notions and test data -/

section Scalar2
variable {K : Type} [Field K]

/-- An eigensolver that reports a complex eigenvalue: it answers every problem with the
eigenvalues `1 + i` and `4` and the unit vectors. -/
def complex_solver : EigenSolver ℚ :=
  fun _ _ => { eigenvalues := [(1, 1), (4, 0)], eigenvectors := [[1, 0], [0, 1]] }

/-- The sum over the blocks of `u.block(b) * (M * v.block(b))`, written with entries. -/
def weighted (M : SparseMatrix K) (n_blocks : Nat) (u v : BlockVector K) : K :=
  ∑ blk in Finset.range n_blocks, ∑ d in Finset.range M.m, ∑ e in Finset.range M.n,
    entry u blk d * (M.el d e * entry v blk e)

end Scalar2

section Ordered2
variable {K : Type} [LinearOrderedField K]

/-- A sparse matrix `A` with `y * (A * y) ≥ 0` for every vector `y` of its size. -/
def SparseMatrix.PositiveSemidefinite (A : SparseMatrix K) : Prop :=
  ∀ y : Vector K, y.length = A.n → 0 ≤ Vector.inner y (A.apply y)

end Ordered2

section Scalar3

/-- An eigensolver that is exact on the `4 × 4` matrices `c * u * uᵀ` with
`u = (1, 1, -1, -1)`: the eigenvalues are `0`, `0`, `0` and `4 * c`, read off the first entry
`c` of the matrix, the eigenvectors are the rows of the normalised Hadamard matrix of order
four, the last of them being `u / 2`. -/
def hadamard_solver : EigenSolver ℚ :=
  fun A _ =>
    { eigenvalues := [(0, 0), (0, 0), (0, 0), (4 * A.el 0 0, 0)]
      eigenvectors := [[1 / 2, 1 / 2, 1 / 2, 1 / 2], [1 / 2, -1 / 2, 1 / 2, -1 / 2],
        [1 / 2, -1 / 2, -1 / 2, 1 / 2], [1 / 2, 1 / 2, -1 / 2, -1 / 2]] }

end Scalar3

section Scalar5

/-- A mass matrix that is invertible and not the identity: the `1 × 1` matrix `(1/4)`. -/
def quarter_matrix : SparseMatrix ℚ :=
  { m := 1, n := 1, el := fun _ _ => 1 / 4 }

end Scalar5

/-- The class `PODBasis` of `pod/pod.cc`: `vectors` is a `std::map<int, Vector<double>>`, given
by the value stored under each key, if any. -/
structure PODBasis (K : Type) where
  vectors : Int → Option (Vector K)
  singular_values : List K

/-- The accessor `std::map::at(key)`. -/
def map_at {α : Type} (m : Int → Option α) (key : Int) : Except Exc α :=
  match m key with
  | some x => .ok x
  | none => .error .out_of_range

/-- The accessor `std::map::operator[](key)`: a key that is missing is inserted with the value
`value`, a default-constructed one in the code.  The result is the map afterwards and the value
stored under `key`. -/
def map_subscript {α : Type} (m : Int → Option α) (key : Int) (value : α) :
    (Int → Option α) × α :=
  match m key with
  | some x => (m, x)
  | none => (fun k => if k = key then some value else m k, value)

section Scalar6

variable {K : Type} [Field K]

namespace PODBasis

/-- Member `PODBasis::get_num_pod_vectors` (`pod/pod.cc`, lines 227-230). -/
def get_num_pod_vectors (this : PODBasis K) : Nat :=
  this.singular_values.length

/-- One pass through the loop of `PODBasis::project_load_vector` (line 238):
`pod_load_vector[j] = vectors[j] * load_vector`; `st` holds the basis and `pod_load_vector`. -/
def project_load_entry (load_vector : Vector K) (st : PODBasis K × Vector K) (j : Nat) :
    Except Exc (PODBasis K × Vector K) := do
  let found := map_subscript st.1.vectors (j : Int) []
  let value ← Vector.dot found.2 load_vector
  let _ ← index st.2 j
  pure ({ st.1 with vectors := found.1 }, st.2.set j value)

/-- Member `PODBasis::project_load_vector` (`pod/pod.cc`, lines 232-240): the result is the
basis afterwards and `pod_load_vector`. -/
def project_load_vector (this : PODBasis K) (load_vector _pod_load_vector : Vector K) :
    Except Exc (PODBasis K × Vector K) :=
  (List.range this.get_num_pod_vectors).foldlM (project_load_entry load_vector)
    (this, List.replicate this.get_num_pod_vectors 0)

/-- One pass through the loop of `PODBasis::project_to_fe` (line 248):
`fe_vector.add(pod_vector[j], vectors.at(j))`. -/
def add_pod_vector (this : PODBasis K) (pod_vector : Vector K) (fe_vector : Vector K)
    (j : Nat) : Except Exc (Vector K) := do
  let coefficient ← index pod_vector j
  let vector ← map_at this.vectors (j : Int)
  Vector.add fe_vector coefficient vector

/-- Member `PODBasis::project_to_fe` (`pod/pod.cc`, lines 242-250): the result is
`fe_vector`. -/
def project_to_fe (this : PODBasis K) (pod_vector _fe_vector : Vector K) :
    Except Exc (Vector K) := do
  let first ← map_at this.vectors 0
  (List.range this.get_num_pod_vectors).foldlM (this.add_pod_vector pod_vector)
    (List.replicate first.length 0)

/-- The vector stored under the key `j` (empty if there is none). -/
def vector (this : PODBasis K) (j : Nat) : Vector K :=
  (this.vectors (j : Int)).getD []

/-- Every key below the number of POD vectors holds a vector of `n` entries. -/
def Sized (this : PODBasis K) (n : Nat) : Prop :=
  ∀ j, j < this.get_num_pod_vectors → ∃ v, this.vectors (j : Int) = some v ∧ v.length = n

end PODBasis

/-- The basis of the first two unit vectors of a space of dimension three. -/
def unit_basis : PODBasis ℚ :=
  { vectors := fun k => if k = 0 then some [1, 0, 0] else if k = 1 then some [0, 1, 0] else none
    singular_values := [1, 1] }

end Scalar6

/-! ## Results of the container operations -/

section Lemmas

variable {K : Type} [Field K]

theorem mapM_ok {α β : Type} (f : α → Except Exc β) (g : α → β) (l : List α)
    (h : ∀ x ∈ l, f x = .ok (g x)) : l.mapM f = .ok (l.map g) := by
  induction l with
  | nil => rfl
  | cons a l ih =>
    have ha : f a = .ok (g a) := h a (List.mem_cons_self a l)
    have hl : l.mapM f = .ok (l.map g) := ih (fun x hx => h x (List.mem_cons_of_mem a hx))
    rw [List.mapM_cons, ha, hl]
    rfl

theorem foldlM_ok {α β : Type} (f : β → α → Except Exc β) (g : β → α → β) (P : β → Prop)
    (l : List α) (b : β) (hb : P b)
    (hstep : ∀ b a, P b → a ∈ l → f b a = .ok (g b a) ∧ P (g b a)) :
    l.foldlM f b = .ok (l.foldl g b) ∧ P (l.foldl g b) := by
  induction l generalizing b with
  | nil => exact ⟨rfl, hb⟩
  | cons a l ih =>
    obtain ⟨h1, h2⟩ := hstep b a hb (List.mem_cons_self a l)
    have := ih (g b a) h2 (fun b' a' hb' ha' => hstep b' a' hb' (List.mem_cons_of_mem a ha'))
    simpa [List.foldlM_cons, h1, bind, Except.bind] using this

theorem foldlM_list_inv {α β : Type} (f : β → α → Except Exc β) (P : Nat → β → Prop)
    (l : List α) (b0 : β) (h0 : P 0 b0)
    (hstep : ∀ (i : Nat) (hi : i < l.length) (b : β), P i b →
      ∃ b', f b (l.get ⟨i, hi⟩) = .ok b' ∧ P (i + 1) b') :
    ∃ b', l.foldlM f b0 = .ok b' ∧ P l.length b' := by
  induction l generalizing P b0 with
  | nil => exact ⟨b0, rfl, h0⟩
  | cons a l ih =>
    obtain ⟨b1, hb1, hP1⟩ := hstep 0 (Nat.succ_pos _) b0 h0
    obtain ⟨b', hb', hP'⟩ := ih (fun i b => P (i + 1) b) b1 hP1
      (fun i hi b hb => hstep (i + 1) (Nat.succ_lt_succ hi) b hb)
    refine ⟨b', ?_, hP'⟩
    have hb1' : f b0 a = .ok b1 := hb1
    rw [List.foldlM_cons, hb1']
    exact hb'

theorem foldlM_range_inv {β : Type} (f : β → Nat → Except Exc β) (P : Nat → β → Prop)
    (n : Nat) (b0 : β) (h0 : P 0 b0)
    (hstep : ∀ (i : Nat) (b : β), i < n → P i b → ∃ b', f b i = .ok b' ∧ P (i + 1) b') :
    ∃ b', (List.range n).foldlM f b0 = .ok b' ∧ P n b' := by
  have h := foldlM_list_inv f P (List.range n) b0 h0 (by
    intro i hi b hb
    have hi' : i < n := by simpa using hi
    simpa using hstep i b hi' hb)
  simpa using h

theorem set_getElem_same {α : Type} (l : List α) (i : Nat) (h : i < l.length) :
    l.set i (l.get ⟨i, h⟩) = l := by
  apply List.ext_getElem
  · simp
  · intro j h1 h2
    by_cases hij : i = j
    · subst hij; simp
    · simp [List.getElem_set_ne hij]

theorem index_ok {α : Type} (v : List α) (i : Nat) (h : i < v.length) :
    index v i = .ok (v.get ⟨i, h⟩) := by
  simp [index, List.getElem?_eq_getElem h]

theorem vector_at_ok {α : Type} (v : List α) (i : Nat) (h : i < v.length) :
    vector_at v i = .ok (v.get ⟨i, h⟩) := by
  simp [vector_at, List.getElem?_eq_getElem h]

theorem Vector.add_ok (this : Vector K) (a : K) (V : Vector K) (h : this.length = V.length) :
    Vector.add this a V = .ok (Vector.axpy this a V) := by
  simp [Vector.add, h]

theorem Vector.dot_ok (this V : Vector K) (h : this.length = V.length) :
    Vector.dot this V = .ok (Vector.inner this V) := by
  simp [Vector.dot, h]

theorem Vector.length_axpy (this : Vector K) (a : K) (V : Vector K)
    (h : this.length = V.length) : (Vector.axpy this a V).length = this.length := by
  simp [Vector.axpy, h]

theorem Shaped.zero (B D : Nat) : Shaped B D (BlockVector.zero B D : BlockVector K) := by
  constructor
  · simp [BlockVector.zero]
  · intro b hb
    simp only [BlockVector.zero] at hb
    rw [List.eq_of_mem_replicate hb]
    simp

theorem Shaped.axpy {B D : Nat} {this V : BlockVector K} (a : K) (h1 : Shaped B D this)
    (h2 : Shaped B D V) : Shaped B D (BlockVector.axpy this a V) := by
  constructor
  · simp [BlockVector.axpy, h1.1, h2.1]
  · intro b hb
    simp only [BlockVector.axpy] at hb
    obtain ⟨i, hi, rfl⟩ := List.getElem_of_mem hb
    simp only [List.getElem_zipWith]
    simp only [List.length_zipWith] at hi
    rw [Vector.length_axpy]
    · exact h1.2 _ (List.getElem_mem _)
    · rw [h1.2 _ (List.getElem_mem _), h2.2 _ (List.getElem_mem _)]

theorem BlockVector.add_shaped {B D : Nat} (this : BlockVector K) (a : K) (V : BlockVector K)
    (h1 : Shaped B D this) (h2 : Shaped B D V) :
    BlockVector.add this a V = .ok (BlockVector.axpy this a V) := by
  unfold BlockVector.add
  rw [if_pos (by rw [h1.1, h2.1])]
  rw [mapM_ok _ (fun p => Vector.axpy p.1 a p.2)]
  · simp [BlockVector.axpy, List.zip_eq_zipWith, List.map_zipWith]
  · intro p hp
    apply Vector.add_ok
    rw [h1.2 _ (List.of_mem_zip hp).1, h2.2 _ (List.of_mem_zip hp).2]

theorem BlockVector.dot_shaped {B D : Nat} (this V : BlockVector K)
    (h1 : Shaped B D this) (h2 : Shaped B D V) :
    BlockVector.dot this V = .ok (BlockVector.inner this V) := by
  unfold BlockVector.dot
  rw [if_pos (by rw [h1.1, h2.1])]
  rw [mapM_ok _ (fun p => Vector.inner p.1 p.2)]
  · simp [BlockVector.inner, List.zip_eq_zipWith, List.map_zipWith, bind, Except.bind, pure,
      Except.pure]
  · intro p hp
    apply Vector.dot_ok
    rw [h1.2 _ (List.of_mem_zip hp).1, h2.2 _ (List.of_mem_zip hp).2]

/-! ## The loop over the snapshot files -/

theorem Shaped.accumulate {B D : Nat} (w : K) (snapshots : List (BlockVector K))
    (mean_vector : BlockVector K) (hm : Shaped B D mean_vector)
    (hs : ∀ s ∈ snapshots, Shaped B D s) : Shaped B D (accumulate w mean_vector snapshots) := by
  induction snapshots generalizing mean_vector with
  | nil => exact hm
  | cons s l ih =>
    exact ih _ (hm.axpy w (hs s (List.mem_cons_self s l)))
      (fun x hx => hs x (List.mem_cons_of_mem s hx))

theorem load_snapshot_initialized {B D : Nat} (w : K) (st : LoadState K)
    (block_vector : BlockVector K) (hinit : st.pod_basis_initialized = true)
    (hnb : st.n_blocks = B) (hmean : Shaped B D st.pod_basis.mean_vector)
    (hs : Shaped B D block_vector) :
    load_snapshot w st block_vector = .ok
      { st with
        pod_basis := { st.pod_basis with
                       mean_vector := BlockVector.axpy st.pod_basis.mean_vector w block_vector }
        snapshots := st.snapshots ++ [block_vector] } := by
  unfold load_snapshot
  simp [hinit, bind, Except.bind, pure, Except.pure, hnb, hs.1, BlockVector.add_shaped _ w _ hmean hs]

theorem foldlM_load_snapshot {B D : Nat} (w : K) (snapshots : List (BlockVector K))
    (st : LoadState K) (hinit : st.pod_basis_initialized = true)
    (hnb : st.n_blocks = B) (hmean : Shaped B D st.pod_basis.mean_vector)
    (hs : ∀ s ∈ snapshots, Shaped B D s) :
    snapshots.foldlM (load_snapshot w) st = .ok
      { st with
        pod_basis := { st.pod_basis with
                       mean_vector := accumulate w st.pod_basis.mean_vector snapshots }
        snapshots := st.snapshots ++ snapshots } := by
  induction snapshots generalizing st with
  | nil => simp [accumulate, pure, Except.pure]
  | cons s l ih =>
    have hsh : Shaped B D s := hs s (List.mem_cons_self s l)
    rw [List.foldlM_cons, load_snapshot_initialized w st s hinit hnb hmean hsh]
    simp only [bind, Except.bind]
    rw [ih { st with
             pod_basis := { st.pod_basis with
                            mean_vector := BlockVector.axpy st.pod_basis.mean_vector w s }
             snapshots := st.snapshots ++ [s] } hinit hnb (hmean.axpy w hsh)
      (fun x hx => hs x (List.mem_cons_of_mem s hx))]
    simp [accumulate]

theorem load_snapshot_first {B D : Nat} (w : K) (st : LoadState K)
    (block_vector : BlockVector K) (hinit : st.pod_basis_initialized = false)
    (hB : 0 < B) (hs : Shaped B D block_vector) :
    load_snapshot w st block_vector = .ok
      { pod_basis := { st.pod_basis with
                       n_blocks := B
                       n_dofs_per_block := D
                       mean_vector := BlockVector.axpy (BlockVector.zero B D) w block_vector }
        snapshots := st.snapshots ++ [block_vector]
        pod_basis_initialized := true
        n_dofs_per_block := D
        n_blocks := B } := by
  have h0 : 0 < block_vector.length := by rw [hs.1]; exact hB
  have hb0 : (block_vector.get ⟨0, h0⟩).length = D := hs.2 _ (List.get_mem _ _ _)
  unfold load_snapshot
  simp only [hinit, Bool.not_false, if_true, h0, BlockVector.block, index_ok _ 0 h0, bind,
    Except.bind, pure, Except.pure, hb0, hs.1, BlockPODBasis.reinit]
  simp [BlockVector.add_shaped _ w _ (Shaped.zero B D) hs, Nat.pos_iff_ne_zero.mp hB]

/-- The loop over the snapshot files on snapshots of one shape. -/
theorem foldlM_load_snapshot_first {B D : Nat} (w : K) (snapshots : List (BlockVector K))
    (pod_basis : BlockPODBasis K) (hne : snapshots ≠ []) (hB : 0 < B)
    (hs : ∀ s ∈ snapshots, Shaped B D s) :
    snapshots.foldlM (load_snapshot w)
      { pod_basis := pod_basis, snapshots := [], pod_basis_initialized := false,
        n_dofs_per_block := 0, n_blocks := 0 } = .ok
      { pod_basis := { pod_basis with
                       n_blocks := B
                       n_dofs_per_block := D
                       mean_vector := accumulate w (BlockVector.zero B D) snapshots }
        snapshots := snapshots
        pod_basis_initialized := true
        n_dofs_per_block := D
        n_blocks := B } := by
  cases snapshots with
  | nil => exact absurd rfl hne
  | cons s l =>
    have hsh : Shaped B D s := hs s (List.mem_cons_self s l)
    rw [List.foldlM_cons, load_snapshot_first w _ s rfl hB hsh]
    simp only [bind, Except.bind]
    rw [foldlM_load_snapshot w l _ rfl rfl ((Shaped.zero B D).axpy w hsh)
      (fun x hx => hs x (List.mem_cons_of_mem s hx))]
    simp [accumulate]

/-! ## Centring and the correlation matrix -/

theorem center_ok {B D : Nat} (center_trajectory : Bool) (snapshots : List (BlockVector K))
    (mean_vector : BlockVector K) (hm : Shaped B D mean_vector)
    (hs : ∀ s ∈ snapshots, Shaped B D s) :
    center center_trajectory snapshots mean_vector = .ok
      (working_snapshots center_trajectory snapshots mean_vector,
        if center_trajectory then mean_vector else BlockVector.set_zero mean_vector) := by
  cases center_trajectory with
  | false => simp [center, working_snapshots, pure, Except.pure]
  | true =>
    simp only [center, working_snapshots, if_true]
    rw [mapM_ok _ (fun s => BlockVector.axpy s (-1) mean_vector) _
      (fun s hx => BlockVector.add_shaped s (-1) mean_vector (hs s hx) hm)]
    rfl

theorem Shaped.working_snapshots {B D : Nat} (center_trajectory : Bool)
    (snapshots : List (BlockVector K)) (mean_vector : BlockVector K)
    (hm : Shaped B D mean_vector) (hs : ∀ s ∈ snapshots, Shaped B D s) :
    ∀ s ∈ POD.working_snapshots center_trajectory snapshots mean_vector, Shaped B D s := by
  cases center_trajectory with
  | false => simpa [POD.working_snapshots] using hs
  | true =>
    intro s hx
    simp only [POD.working_snapshots, if_true, List.mem_map] at hx
    obtain ⟨t, ht, rfl⟩ := hx
    exact (hs t ht).axpy (-1) hm

theorem length_working_snapshots (center_trajectory : Bool)
    (snapshots : List (BlockVector K)) (mean_vector : BlockVector K) :
    (working_snapshots center_trajectory snapshots mean_vector).length = snapshots.length := by
  cases center_trajectory <;> simp [working_snapshots]

theorem SparseMatrix.length_apply (A : SparseMatrix K) (src : Vector K) :
    (A.apply src).length = A.m := by
  simp [SparseMatrix.apply]

theorem foldlM_mass_times_block {B D : Nat} (mass_matrix : SparseMatrix K)
    (hm : mass_matrix.m = D) (hn : mass_matrix.n = D) (snapshots : List (BlockVector K))
    (row : Nat) (hrow : row < snapshots.length) (hs : Shaped B D (snapshots.get ⟨row, hrow⟩))
    (temp : BlockVector K) (ht : Shaped B D temp) :
    (List.range B).foldlM (mass_times_block mass_matrix snapshots row) temp
      = .ok ((snapshots.get ⟨row, hrow⟩).map mass_matrix.apply) := by
  obtain ⟨t, ht1, hlen, hP⟩ := foldlM_range_inv (mass_times_block mass_matrix snapshots row)
    (fun i (t : BlockVector K) => t.length = B ∧ ∀ (j : Nat) (hj : j < t.length),
      (j < i → ∀ hj' : j < (snapshots.get ⟨row, hrow⟩).length,
        t.get ⟨j, hj⟩ = mass_matrix.apply ((snapshots.get ⟨row, hrow⟩).get ⟨j, hj'⟩))
      ∧ (i ≤ j → (t.get ⟨j, hj⟩).length = D))
    B temp ⟨ht.1, fun j hj => ⟨fun h => absurd h (Nat.not_lt_zero j),
      fun _ => ht.2 _ (List.get_mem _ _ _)⟩⟩ (by
    intro i t hi ⟨hlen, hP⟩
    have hit : i < t.length := by rw [hlen]; exact hi
    have his : i < (snapshots.get ⟨row, hrow⟩).length := by rw [hs.1]; exact hi
    have hsrc : ((snapshots.get ⟨row, hrow⟩).get ⟨i, his⟩).length = D :=
      hs.2 _ (List.get_mem _ _ _)
    refine ⟨t.set i (mass_matrix.apply ((snapshots.get ⟨row, hrow⟩).get ⟨i, his⟩)), ?_, ?_, ?_⟩
    · simp only [mass_times_block, BlockVector.block, index_ok _ i hit, vector_at_ok _ row hrow,
        index_ok _ i his, bind, Except.bind, SparseMatrix.vmult, pure, Except.pure]
      rw [if_pos ⟨by rw [hm, (hP i hit).2 (le_refl i)], by rw [hn, hsrc]⟩]
    · simp [hlen]
    · intro j hj
      have hj' : j < t.length := by simpa using hj
      constructor
      · intro hji hjs
        by_cases hij : i = j
        · subst hij
          simp [List.getElem_set]
        · have := (hP j hj').1 (by omega) hjs
          simp only [List.get_eq_getElem] at this ⊢
          rw [List.getElem_set_ne hij]
          exact this
      · intro hji
        have hij : i ≠ j := by omega
        have := (hP j hj').2 (by omega)
        simp only [List.get_eq_getElem] at this ⊢
        rw [List.getElem_set_ne hij]
        exact this)
  rw [ht1]
  congr 1
  apply List.ext_getElem
  · have := hs.1
    simp only [List.get_eq_getElem] at this
    simp [hlen, this]
  · intro j h1 h2
    have h3 : j < (snapshots.get ⟨row, hrow⟩).length := by simpa using h2
    have := (hP j h1).1 (by rw [← hlen]; exact h1) h3
    simp only [List.get_eq_getElem] at this
    simp [this]

theorem foldlM_correlation_entry {B D : Nat} (snapshots : List (BlockVector K))
    (hs : ∀ s ∈ snapshots, Shaped B D s) (temp : BlockVector K) (ht : Shaped B D temp)
    (row : Nat) (hrow : row < snapshots.length) (cm : LAPACKFullMatrix K) :
    ∃ cm' : LAPACKFullMatrix K,
      (List.range (row + 1)).foldlM (correlation_entry snapshots temp row) cm = .ok cm'
      ∧ cm'.m = cm.m ∧ cm'.n = cm.n
      ∧ ∀ a b, cm'.el a b =
          if a = row ∧ b < row + 1 then BlockVector.inner temp (snapshots.getD b [])
          else if b = row ∧ a < row + 1 then BlockVector.inner temp (snapshots.getD a [])
          else cm.el a b := by
  refine foldlM_range_inv (correlation_entry snapshots temp row)
    (fun i (c : LAPACKFullMatrix K) => c.m = cm.m ∧ c.n = cm.n ∧ ∀ a b, c.el a b =
      if a = row ∧ b < i then BlockVector.inner temp (snapshots.getD b [])
      else if b = row ∧ a < i then BlockVector.inner temp (snapshots.getD a [])
      else cm.el a b)
    (row + 1) cm ⟨rfl, rfl, fun a b => by simp⟩ ?_
  intro i c hi ⟨hm, hn, hel⟩
  have his : i < snapshots.length := by omega
  have hsi : Shaped B D (snapshots.get ⟨i, his⟩) := hs _ (List.get_mem _ _ _)
  have hgetD : snapshots.getD i [] = snapshots.get ⟨i, his⟩ := by
    simp [List.getD_eq_getElem?_getD, List.getElem?_eq_getElem his]
  refine ⟨(c.set row i (BlockVector.inner temp (snapshots.get ⟨i, his⟩))).set i row
    (BlockVector.inner temp (snapshots.get ⟨i, his⟩)), ?_, hm, hn, ?_⟩
  · simp only [correlation_entry, index_ok _ i his, BlockVector.dot_shaped _ _ ht hsi, bind,
      Except.bind, pure, Except.pure]
  · intro a b
    simp only [FullMatrix.set, hel a b, ← hgetD]
    by_cases h1 : a = i ∧ b = row
    · obtain ⟨rfl, rfl⟩ := h1
      by_cases h2 : a = b
      · subst h2; simp
      · have h3 : ¬ (a = b ∧ b < a + 1) := fun h => h2 h.1
        simp [h3]
    · rw [if_neg h1]
      by_cases h2 : a = row ∧ b = i
      · obtain ⟨rfl, rfl⟩ := h2
        simp
      · rw [if_neg h2]
        by_cases h4 : a = row ∧ b < i
        · have : a = row ∧ b < i + 1 := ⟨h4.1, by omega⟩
          rw [if_pos h4, if_pos this]
        · have : ¬ (a = row ∧ b < i + 1) := by
            intro h; apply h4; refine ⟨h.1, ?_⟩
            have : b ≠ i := fun hb => h2 ⟨h.1, hb⟩
            omega
          rw [if_neg h4, if_neg this]
          by_cases h5 : b = row ∧ a < i
          · have : b = row ∧ a < i + 1 := ⟨h5.1, by omega⟩
            rw [if_pos h5, if_pos this]
          · have : ¬ (b = row ∧ a < i + 1) := by
              intro h; apply h5; refine ⟨h.1, ?_⟩
              have : a ≠ i := fun ha => h1 ⟨ha, h.1⟩
              omega
            rw [if_neg h5, if_neg this]

/-- The loop over `row` on snapshots of one shape: the correlation matrix and the identity. -/
theorem correlation_ok {B D : Nat} (mass_matrix : SparseMatrix K)
    (hm : mass_matrix.m = D) (hn : mass_matrix.n = D) (snapshots : List (BlockVector K))
    (hs : ∀ s ∈ snapshots, Shaped B D s) :
    ∃ st : CorrelationState K,
      correlation mass_matrix snapshots snapshots.length B D = .ok st
      ∧ st.correlation_matrix = ⟨snapshots.length, snapshots.length,
          correlation_entries mass_matrix snapshots snapshots.length⟩
      ∧ st.identity = ⟨snapshots.length, snapshots.length, identity_entries snapshots.length⟩ := by
  obtain ⟨st, h1, h2, h3, _⟩ := foldlM_range_inv (correlation_row mass_matrix snapshots B)
    (fun i (st : CorrelationState K) =>
      st.correlation_matrix = ⟨snapshots.length, snapshots.length,
          correlation_entries mass_matrix snapshots i⟩
      ∧ st.identity = ⟨snapshots.length, snapshots.length, identity_entries i⟩
      ∧ Shaped B D st.temp)
    snapshots.length
    { correlation_matrix := FullMatrix.zero snapshots.length snapshots.length
      identity := FullMatrix.zero snapshots.length snapshots.length
      temp := BlockVector.zero B D }
    ⟨by ext <;> simp [FullMatrix.zero, correlation_entries], by
      ext <;> simp [FullMatrix.zero, identity_entries], Shaped.zero B D⟩ (by
    intro row st hrow ⟨hcm, hid, htemp⟩
    have hsr : Shaped B D (snapshots.get ⟨row, hrow⟩) := hs _ (List.get_mem _ _ _)
    have htemp' : Shaped B D ((snapshots.get ⟨row, hrow⟩).map mass_matrix.apply) := by
      constructor
      · simpa using hsr.1
      · intro b hb
        obtain ⟨x, _, rfl⟩ := List.mem_map.mp hb
        rw [SparseMatrix.length_apply, hm]
    obtain ⟨cm', hcm1, hcm2, hcm3, hcm4⟩ := foldlM_correlation_entry snapshots hs
      ((snapshots.get ⟨row, hrow⟩).map mass_matrix.apply) htemp' row hrow st.correlation_matrix
    have hgetD : snapshots.getD row [] = snapshots.get ⟨row, hrow⟩ := by
      simp [List.getD_eq_getElem?_getD, List.getElem?_eq_getElem hrow]
    refine ⟨{ correlation_matrix := cm', identity := st.identity.set row row 1,
              temp := (snapshots.get ⟨row, hrow⟩).map mass_matrix.apply }, ?_, ?_, ?_, htemp'⟩
    · simp only [correlation_row, bind, Except.bind, pure, Except.pure,
        foldlM_mass_times_block mass_matrix hm hn snapshots row hrow hsr st.temp htemp, hcm1]
    · ext a b
      · simp [hcm2, hcm]
      · simp [hcm3, hcm]
      · simp only [hcm4 a b, hcm, correlation_entries, gram, hgetD]
        by_cases h1 : a = row ∧ b < row + 1
        · obtain ⟨rfl, h1⟩ := h1
          have h2 : b ≤ a := by omega
          have h3 : snapshots[a]? = some snapshots[a] := List.getElem?_eq_getElem hrow
          simp [h1, h2, h3]
        · rw [if_neg h1]
          by_cases h2 : b = row ∧ a < row + 1
          · obtain ⟨rfl, h2⟩ := h2
            have h3 : ¬ (b ≤ a) := by
              intro h; apply h1; constructor <;> omega
            have h4 : snapshots[b]? = some snapshots[b] := List.getElem?_eq_getElem hrow
            simp [h2, h3, h4]
          · rw [if_neg h2]
            by_cases h3 : a < row ∧ b < row
            · have : a < row + 1 ∧ b < row + 1 := by omega
              rw [if_pos h3, if_pos this]
            · have : ¬ (a < row + 1 ∧ b < row + 1) := by
                intro h; apply h3
                by_cases ha : a = row
                · exact absurd ⟨ha, h.2⟩ h1
                · by_cases hb : b = row
                  · exact absurd ⟨hb, h.1⟩ h2
                  · omega
              rw [if_neg h3, if_neg this]
    · rw [hid]
      ext a b
      · rfl
      · rfl
      · simp only [FullMatrix.set, identity_entries]
        by_cases h1 : a = row ∧ b = row
        · obtain ⟨rfl, rfl⟩ := h1
          simp
        · rw [if_neg h1]
          by_cases h2 : a = b ∧ a < row
          · have : a = b ∧ a < row + 1 := ⟨h2.1, by omega⟩
            rw [if_pos h2, if_pos this]
          · have : ¬ (a = b ∧ a < row + 1) := by
              intro h; apply h2; refine ⟨h.1, ?_⟩
              have : a ≠ row := fun ha => h1 ⟨ha, h.1 ▸ ha⟩
              omega
            rw [if_neg h2, if_neg this])
  exact ⟨st, h1, h2, h3⟩

/-- Lines 33-88 on snapshots of one shape. -/
theorem build_correlation_matrix_ok {B D : Nat} (mass_matrix : SparseMatrix K)
    (hm : mass_matrix.m = D) (hn : mass_matrix.n = D) (snapshots : List (BlockVector K))
    (hne : snapshots ≠ []) (hB : 0 < B) (hs : ∀ s ∈ snapshots, Shaped B D s)
    (center_trajectory : Bool) (pod_basis : BlockPODBasis K) :
    build_correlation_matrix mass_matrix snapshots center_trajectory pod_basis = .ok
      { pod_basis := { pod_basis with
                       n_blocks := B
                       n_dofs_per_block := D
                       mean_vector := if center_trajectory then mean_of snapshots B D
                                      else BlockVector.set_zero (mean_of snapshots B D) }
        snapshots := working_snapshots center_trajectory snapshots (mean_of snapshots B D)
        n_dofs_per_block := D
        n_blocks := B
        correlation_matrix := ⟨snapshots.length, snapshots.length,
          correlation_entries mass_matrix
            (working_snapshots center_trajectory snapshots (mean_of snapshots B D))
            snapshots.length⟩
        identity := ⟨snapshots.length, snapshots.length, identity_entries snapshots.length⟩ } := by
  have hmean : Shaped B D (mean_of snapshots B D) :=
    Shaped.accumulate _ snapshots _ (Shaped.zero B D) hs
  have hw := Shaped.working_snapshots center_trajectory snapshots _ hmean hs
  have hlen := length_working_snapshots center_trajectory snapshots (mean_of snapshots B D)
  obtain ⟨st, h1, h2, h3⟩ := correlation_ok mass_matrix hm hn _ hw
  rw [hlen] at h1 h2 h3
  unfold build_correlation_matrix
  simp only [foldlM_load_snapshot_first _ snapshots pod_basis hne hB hs, bind, Except.bind]
  rw [show accumulate (1 / (snapshots.length : K)) (BlockVector.zero B D) snapshots
    = mean_of snapshots B D from rfl]
  simp only [center_ok center_trajectory snapshots _ hmean hs, h1, h2, h3, pure, Except.pure]

/-! ## Singular values, linear combinations and normalisation -/

theorem compute_singular_values_ok [DecidableEq K] (cmath : CMath K)
    (eigenvalues : List (K × K)) (himag : ∀ ev ∈ eigenvalues, ev.2 = 0) :
    compute_singular_values cmath eigenvalues eigenvalues.length
      = .ok (eigenvalues.map (fun ev => cmath.sqrt ev.1)) := by
  unfold compute_singular_values
  rw [mapM_ok _ (fun i => cmath.sqrt (eigenvalues.getD i (0, 0)).1)]
  · congr 1
    apply List.ext_getElem
    · simp
    · intro i h1 h2
      have h3 : i < eigenvalues.length := by simpa using h2
      simp [List.getElem?_eq_getElem h3]
  · intro i hi
    have h3 : i < eigenvalues.length := by simpa using hi
    have h4 : (eigenvalues.get ⟨i, h3⟩).2 = 0 := himag _ (List.get_mem _ _ _)
    simp only [List.get_eq_getElem] at h4
    simp [index_ok _ i h3, bind, Except.bind, h4, pure, Except.pure,
      List.getElem?_eq_getElem h3]

theorem Shaped.combination {B D : Nat} (cmath : CMath K) (singular_value : K)
    (snapshots : List (BlockVector K)) (hs : ∀ s ∈ snapshots, Shaped B D s)
    (eigenvector : Vector K) (start : BlockVector K) (h0 : Shaped B D start) :
    Shaped B D (combination cmath eigenvector singular_value snapshots start) := by
  induction snapshots generalizing eigenvector start with
  | nil => simpa [POD.combination] using h0
  | cons s l ih =>
    cases eigenvector with
    | nil => simpa [POD.combination] using h0
    | cons c e =>
      have hsh : Shaped B D s := hs s (List.mem_cons_self s l)
      have := ih (fun x hx => hs x (List.mem_cons_of_mem s hx)) e
        (if !cmath.isnan c && !cmath.isnan singular_value then BlockVector.axpy start c s
          else start) (by split_ifs; exact h0.axpy c hsh; exact h0)
      simpa [POD.combination] using this

theorem foldlM_add_snapshot {B D : Nat} (cmath : CMath K) (eigenvector : Vector K)
    (singular_value : K) (snapshots : List (BlockVector K))
    (hs : ∀ s ∈ snapshots, Shaped B D s) (acc : BlockVector K) (hacc : Shaped B D acc)
    (snapshot_n : Nat) (hlen : snapshot_n + snapshots.length ≤ eigenvector.length) :
    snapshots.foldlM (add_snapshot cmath eigenvector singular_value) (acc, snapshot_n)
      = .ok (combination cmath (eigenvector.drop snapshot_n) singular_value snapshots acc,
          snapshot_n + snapshots.length) := by
  induction snapshots generalizing acc snapshot_n with
  | nil => simp [combination, pure, Except.pure]
  | cons s l ih =>
    have hsh : Shaped B D s := hs s (List.mem_cons_self s l)
    have hl : snapshot_n < eigenvector.length := by
      simp only [List.length_cons] at hlen; omega
    have hstep : add_snapshot cmath eigenvector singular_value (acc, snapshot_n) s = .ok
        (if !cmath.isnan (eigenvector.get ⟨snapshot_n, hl⟩) && !cmath.isnan singular_value then
          BlockVector.axpy acc (eigenvector.get ⟨snapshot_n, hl⟩) s else acc,
          snapshot_n + 1) := by
      simp only [add_snapshot, index_ok _ _ hl, bind, Except.bind, pure, Except.pure]
      split_ifs
      · rw [BlockVector.add_shaped _ _ _ hacc hsh]
      · rfl
    rw [List.foldlM_cons, hstep]
    simp only [bind, Except.bind]
    rw [ih (fun x hx => hs x (List.mem_cons_of_mem s hx)) _
      (by split_ifs; exact hacc.axpy _ hsh; exact hacc) (snapshot_n + 1)
      (by simp only [List.length_cons] at hlen; omega)]
    rw [List.drop_eq_getElem_cons hl]
    simp only [combination, List.zip_cons_cons, List.foldl_cons, List.get_eq_getElem,
      List.length_cons]
    congr 2
    omega

theorem linear_combination_task_ok {B D : Nat} (cmath : CMath K)
    (eigenvectors : List (Vector K)) (singular_values : List K)
    (snapshots : List (BlockVector K)) (hs : ∀ s ∈ snapshots, Shaped B D s)
    (eigenvector_n : Nat) (h1 : eigenvector_n < eigenvectors.length)
    (h2 : eigenvector_n < singular_values.length)
    (h3 : snapshots.length ≤ (eigenvectors.get ⟨eigenvector_n, h1⟩).length) :
    linear_combination_task cmath eigenvectors singular_values snapshots B D eigenvector_n
      = .ok (combination cmath (eigenvectors.getD eigenvector_n [])
          (singular_values.getD eigenvector_n 0) snapshots (BlockVector.zero B D)) := by
  unfold linear_combination_task
  simp only [index_ok _ _ h1, index_ok _ _ h2, bind, Except.bind]
  rw [foldlM_add_snapshot cmath _ _ snapshots hs _ (Shaped.zero B D) 0 (by simpa using h3)]
  simp [pure, Except.pure, List.getElem?_eq_getElem h1, List.getElem?_eq_getElem h2]

theorem normalize_ok [DecidableEq K] (cmath : CMath K) (singular_values : List K)
    (vectors : List (BlockVector K)) (h : vectors.length ≤ singular_values.length)
    (hfinite : FiniteFactors cmath singular_values vectors.length) :
    normalize cmath singular_values vectors vectors.length
      = .ok (vectors.mapIdx (fun k v =>
          if !cmath.isnan (singular_values.getD k 0) then
            BlockVector.scale v (1 / singular_values.getD k 0) else v)) := by
  obtain ⟨vs, hvs, hlen, hP⟩ := foldlM_range_inv (normalize_vector cmath singular_values)
    (fun i (vs : List (BlockVector K)) => vs.length = vectors.length ∧
      ∀ (j : Nat) (hj : j < vs.length) (hj' : j < vectors.length),
        vs.get ⟨j, hj⟩ = if j < i then
          (if !cmath.isnan (singular_values.getD j 0) then
            BlockVector.scale (vectors.get ⟨j, hj'⟩) (1 / singular_values.getD j 0)
           else vectors.get ⟨j, hj'⟩)
        else vectors.get ⟨j, hj'⟩)
    vectors.length vectors ⟨rfl, fun j hj hj' => by simp⟩ (by
    intro i vs hi ⟨hlen, hP⟩
    have hiv : i < vs.length := by rw [hlen]; exact hi
    have his : i < singular_values.length := by omega
    have hgetD : singular_values.getD i 0 = singular_values.get ⟨i, his⟩ := by
      simp [List.getElem?_eq_getElem his]
    have hvi := hP i hiv hi
    rw [if_neg (Nat.lt_irrefl i)] at hvi
    refine ⟨vs.set i (if !cmath.isnan (singular_values.get ⟨i, his⟩) then
        BlockVector.scale (vs.get ⟨i, hiv⟩) (1 / singular_values.get ⟨i, his⟩)
      else vs.get ⟨i, hiv⟩), ?_, ?_, ?_⟩
    · simp only [normalize_vector, vector_at_ok _ i his, bind, Except.bind]
      by_cases hnan : cmath.isnan (singular_values.get ⟨i, his⟩) = true
      · simp only [hnan, Bool.not_true, Bool.false_eq_true, if_false]
        rw [set_getElem_same]
        rfl
      · have hnan' : cmath.isnan (singular_values.get ⟨i, his⟩) = false := by
          simpa using hnan
        have hne0 : singular_values.get ⟨i, his⟩ ≠ 0 := by
          rw [← hgetD]
          exact hfinite i hi (by rw [hgetD]; exact hnan')
        simp only [hnan', Bool.not_false, if_true, vector_at_ok _ i hiv, if_neg hne0, pure,
          Except.pure]
    · simp [hlen]
    · intro j hj hj'
      have hjv : j < vs.length := by rw [hlen]; exact hj'
      simp only [List.get_eq_getElem] at hvi ⊢
      by_cases hij : i = j
      · subst hij
        rw [if_pos (Nat.lt_succ_self i), hgetD, List.getElem_set_self, hvi]
        rfl
      · have hPj := hP j hjv hj'
        simp only [List.get_eq_getElem] at hPj
        rw [List.getElem_set_ne hij, hPj]
        by_cases hji : j < i
        · have hji' : j < i + 1 := by omega
          rw [if_pos hji, if_pos hji']
        · have hji' : ¬ j < i + 1 := by omega
          rw [if_neg hji, if_neg hji'])
  unfold normalize
  rw [hvs]
  congr 1
  apply List.ext_getElem
  · simpa using hlen
  · intro j h1 h2
    have h3 : j < vectors.length := by simpa using h2
    have := hP j h1 h3
    simp only [List.get_eq_getElem, if_pos h3] at this
    simp only [List.getElem_mapIdx]
    exact this

/-- Lines 90-141 on a well-formed answer of the eigensolver. -/
theorem build_pod_vectors_ok [DecidableEq K] (cmath : CMath K) (solver : EigenSolver K)
    (n_pod_vectors : Nat) (c : Correlated K)
    (hs : ∀ s ∈ c.snapshots, Shaped c.n_blocks c.n_dofs_per_block s)
    (hsized : (solver c.correlation_matrix c.identity).Sized c.snapshots.length)
    (hreal : (solver c.correlation_matrix c.identity).IsReal)
    (hfinite : FiniteFactors cmath
      (singular_values_of cmath (solver c.correlation_matrix c.identity))
      (min c.snapshots.length n_pod_vectors)) :
    build_pod_vectors cmath solver c.snapshots.length n_pod_vectors c = .ok
      { c.pod_basis with
        singular_values := singular_values_of cmath (solver c.correlation_matrix c.identity)
        vectors := pod_vectors_of cmath (solver c.correlation_matrix c.identity) c.snapshots
          c.n_blocks c.n_dofs_per_block (min c.snapshots.length n_pod_vectors) } := by
  obtain ⟨h1, h2, h3⟩ := hsized
  have hsv := compute_singular_values_ok cmath _ hreal
  rw [h1] at hsv
  have hsvlen : (singular_values_of cmath (solver c.correlation_matrix c.identity)).length
      = c.snapshots.length := by simp [singular_values_of, h1]
  have htasks := mapM_ok
    (linear_combination_task cmath (solver c.correlation_matrix c.identity).eigenvectors.reverse
      (singular_values_of cmath (solver c.correlation_matrix c.identity)) c.snapshots
      c.n_blocks c.n_dofs_per_block)
    (fun k => combination cmath
      ((solver c.correlation_matrix c.identity).eigenvectors.reverse.getD k [])
      ((singular_values_of cmath (solver c.correlation_matrix c.identity)).getD k 0)
      c.snapshots (BlockVector.zero c.n_blocks c.n_dofs_per_block))
    (List.range (min c.snapshots.length n_pod_vectors)) (by
      intro k hk
      have hk' : k < min c.snapshots.length n_pod_vectors := by simpa using hk
      have hk1 : k < (solver c.correlation_matrix c.identity).eigenvectors.reverse.length := by
        rw [List.length_reverse, h2]; omega
      apply linear_combination_task_ok cmath _ _ _ hs k hk1 (by rw [hsvlen]; omega)
      rw [h3 _ (List.mem_reverse.mp (List.get_mem _ _ _))])
  have hnorm := normalize_ok cmath
    (singular_values_of cmath (solver c.correlation_matrix c.identity))
    ((List.range (min c.snapshots.length n_pod_vectors)).map (fun k => combination cmath
      ((solver c.correlation_matrix c.identity).eigenvectors.reverse.getD k [])
      ((singular_values_of cmath (solver c.correlation_matrix c.identity)).getD k 0)
      c.snapshots (BlockVector.zero c.n_blocks c.n_dofs_per_block)))
    (by rw [hsvlen]; simp) (by simpa using hfinite)
  simp only [List.length_map, List.length_range] at hnorm
  unfold build_pod_vectors
  simp only [hsv, bind, Except.bind]
  rw [show (List.map (fun ev => cmath.sqrt ev.1)
      (solver c.correlation_matrix c.identity).eigenvalues).reverse
    = singular_values_of cmath (solver c.correlation_matrix c.identity) from rfl]
  simp only [htasks, hnorm, pure, Except.pure]
  congr 2
  apply List.ext_getElem
  · simp [pod_vectors_of]
  · intro k hk1 hk2
    simp [pod_vectors_of, pod_vector]

/-- Well-shaped input: `method_of_snapshots` returns this basis. -/
theorem method_of_snapshots_ok [DecidableEq K] {B D : Nat} (cmath : CMath K)
    (solver : EigenSolver K) (mass_matrix : SparseMatrix K)
    (hm : mass_matrix.m = D) (hn : mass_matrix.n = D) (snapshots : List (BlockVector K))
    (hne : snapshots ≠ []) (hB : 0 < B) (hs : ∀ s ∈ snapshots, Shaped B D s)
    (n_pod_vectors : Nat) (center_trajectory : Bool) (pod_basis : BlockPODBasis K)
    (c : Correlated K)
    (hc : build_correlation_matrix mass_matrix snapshots center_trajectory pod_basis = .ok c)
    (hsized : (solver c.correlation_matrix c.identity).Sized snapshots.length)
    (hreal : (solver c.correlation_matrix c.identity).IsReal)
    (hfinite : FiniteFactors cmath
      (singular_values_of cmath (solver c.correlation_matrix c.identity))
      (min snapshots.length n_pod_vectors)) :
    method_of_snapshots cmath solver mass_matrix snapshots n_pod_vectors center_trajectory
        pod_basis = .ok
      { n_blocks := B
        n_dofs_per_block := D
        mean_vector := if center_trajectory then mean_of snapshots B D
                       else BlockVector.set_zero (mean_of snapshots B D)
        singular_values := singular_values_of cmath (solver c.correlation_matrix c.identity)
        vectors := pod_vectors_of cmath (solver c.correlation_matrix c.identity)
          (working_snapshots center_trajectory snapshots (mean_of snapshots B D)) B D
          (min snapshots.length n_pod_vectors) } := by
  have hc' := build_correlation_matrix_ok mass_matrix hm hn snapshots hne hB hs
    center_trajectory pod_basis
  rw [hc] at hc'
  have hc'' := Except.ok.inj hc'
  have hmean : Shaped B D (mean_of snapshots B D) :=
    Shaped.accumulate _ snapshots _ (Shaped.zero B D) hs
  have hw := Shaped.working_snapshots center_trajectory snapshots _ hmean hs
  have hlen := length_working_snapshots center_trajectory snapshots (mean_of snapshots B D)
  have hcs : c.snapshots = working_snapshots center_trajectory snapshots
      (mean_of snapshots B D) := by rw [hc'']
  have hcb : c.n_blocks = B := by rw [hc'']
  have hcd : c.n_dofs_per_block = D := by rw [hc'']
  have hlen' : c.snapshots.length = snapshots.length := by rw [hcs, hlen]
  have h2 := build_pod_vectors_ok cmath solver n_pod_vectors c
    (by rw [hcs, hcb, hcd]; exact hw) (by rw [hlen']; exact hsized) hreal
    (by rw [hlen']; exact hfinite)
  rw [hlen'] at h2
  unfold method_of_snapshots
  simp only [hc, bind, Except.bind, h2]
  rw [hcs, hcb, hcd]
  congr 1
  rw [hc'']

theorem foldlM_list_fails {α β : Type} (f : β → α → Except Exc β) (P : β → Prop) (e : Exc)
    (l : List α) (b0 : β) (h0 : P b0)
    (hstep : ∀ a ∈ l, ∀ b, P b → (∃ b', f b a = .ok b' ∧ P b') ∨ f b a = .error e)
    (hfail : ∃ a ∈ l, ∀ b, P b → f b a = .error e) :
    l.foldlM f b0 = .error e := by
  induction l generalizing b0 with
  | nil =>
    obtain ⟨a, ha, _⟩ := hfail
    simp at ha
  | cons a l ih =>
    rw [List.foldlM_cons]
    rcases hstep a (List.mem_cons_self a l) b0 h0 with ⟨b', hb', hP'⟩ | herr
    · obtain ⟨x, hx, hxf⟩ := hfail
      rcases List.mem_cons.mp hx with rfl | hxl
      · rw [hxf b0 h0] at hb'
        cases hb'
      · rw [hb']
        exact ih b' hP' (fun a ha => hstep a (List.mem_cons_of_mem _ ha)) ⟨x, hxl, hxf⟩
    · rw [herr]
      rfl

/-- The normalisation loop fails when one of the singular values it reaches is zero. -/
theorem normalize_not_finite [DecidableEq K] (cmath : CMath K) (singular_values : List K)
    (vectors : List (BlockVector K)) (n : Nat) (hn : n ≤ vectors.length)
    (hs : n ≤ singular_values.length) (k : Nat) (hk : k < n)
    (hnan : cmath.isnan (singular_values.getD k 0) = false)
    (hzero : singular_values.getD k 0 = 0) :
    normalize cmath singular_values vectors n = .error .ExcNumberNotFinite := by
  unfold normalize
  apply foldlM_list_fails (normalize_vector cmath singular_values)
    (fun vs => vs.length = vectors.length) _ _ _ rfl
  · intro i hi vs hvs
    have hi' : i < n := List.mem_range.mp hi
    have his : i < singular_values.length := by omega
    have hiv : i < vs.length := by omega
    simp only [normalize_vector, vector_at_ok _ i his, vector_at_ok _ i hiv, bind, Except.bind]
    by_cases h1 : cmath.isnan (singular_values.get ⟨i, his⟩) = true
    · left
      simp only [h1, Bool.not_true, Bool.false_eq_true, if_false]
      exact ⟨vs, rfl, hvs⟩
    · have h1' : cmath.isnan (singular_values.get ⟨i, his⟩) = false := by simpa using h1
      simp only [h1', Bool.not_false, if_true]
      by_cases h2 : singular_values.get ⟨i, his⟩ = 0
      · right
        rw [if_pos h2]
      · left
        rw [if_neg h2]
        exact ⟨_, rfl, by simpa using hvs⟩
  · refine ⟨k, List.mem_range.mpr hk, ?_⟩
    intro vs hvs
    have hks : k < singular_values.length := by omega
    have hkv : k < vs.length := by omega
    have hget : singular_values.get ⟨k, hks⟩ = singular_values.getD k 0 := by
      simp [List.getElem?_eq_getElem hks]
    have hnan0 : cmath.isnan (0 : K) = false := by
      rw [← hzero]
      exact hnan
    simp only [normalize_vector, vector_at_ok _ k hks, vector_at_ok _ k hkv, bind, Except.bind,
      hget, hzero, hnan0, Bool.not_false, if_true]

/-- Lines 90-141 fail when a singular value that is retained and not NaN is zero. -/
theorem build_pod_vectors_not_finite [DecidableEq K] (cmath : CMath K) (solver : EigenSolver K)
    (n_pod_vectors : Nat) (c : Correlated K)
    (hs : ∀ s ∈ c.snapshots, Shaped c.n_blocks c.n_dofs_per_block s)
    (hsized : (solver c.correlation_matrix c.identity).Sized c.snapshots.length)
    (hreal : (solver c.correlation_matrix c.identity).IsReal)
    (k : Nat) (hk : k < min c.snapshots.length n_pod_vectors)
    (hnan : cmath.isnan
      ((singular_values_of cmath (solver c.correlation_matrix c.identity)).getD k 0) = false)
    (hzero : (singular_values_of cmath (solver c.correlation_matrix c.identity)).getD k 0 = 0) :
    build_pod_vectors cmath solver c.snapshots.length n_pod_vectors c
      = .error .ExcNumberNotFinite := by
  obtain ⟨h1, h2, h3⟩ := hsized
  have hsv := compute_singular_values_ok cmath _ hreal
  rw [h1] at hsv
  have hsvlen : (singular_values_of cmath (solver c.correlation_matrix c.identity)).length
      = c.snapshots.length := by simp [singular_values_of, h1]
  have htasks := mapM_ok
    (linear_combination_task cmath (solver c.correlation_matrix c.identity).eigenvectors.reverse
      (singular_values_of cmath (solver c.correlation_matrix c.identity)) c.snapshots
      c.n_blocks c.n_dofs_per_block)
    (fun k => combination cmath
      ((solver c.correlation_matrix c.identity).eigenvectors.reverse.getD k [])
      ((singular_values_of cmath (solver c.correlation_matrix c.identity)).getD k 0)
      c.snapshots (BlockVector.zero c.n_blocks c.n_dofs_per_block))
    (List.range (min c.snapshots.length n_pod_vectors)) (by
      intro k hk
      have hk' : k < min c.snapshots.length n_pod_vectors := by simpa using hk
      have hk1 : k < (solver c.correlation_matrix c.identity).eigenvectors.reverse.length := by
        rw [List.length_reverse, h2]; omega
      apply linear_combination_task_ok cmath _ _ _ hs k hk1 (by rw [hsvlen]; omega)
      rw [h3 _ (List.mem_reverse.mp (List.get_mem _ _ _))])
  have hnorm := normalize_not_finite cmath
    (singular_values_of cmath (solver c.correlation_matrix c.identity))
    ((List.range (min c.snapshots.length n_pod_vectors)).map (fun k => combination cmath
      ((solver c.correlation_matrix c.identity).eigenvectors.reverse.getD k [])
      ((singular_values_of cmath (solver c.correlation_matrix c.identity)).getD k 0)
      c.snapshots (BlockVector.zero c.n_blocks c.n_dofs_per_block)))
    (min c.snapshots.length n_pod_vectors) (by simp)
    (by rw [hsvlen]; exact min_le_left _ _) k hk hnan hzero
  unfold build_pod_vectors
  simp only [hsv, bind, Except.bind]
  rw [show (List.map (fun ev => cmath.sqrt ev.1)
      (solver c.correlation_matrix c.identity).eigenvalues).reverse
    = singular_values_of cmath (solver c.correlation_matrix c.identity) from rfl]
  simp only [htasks, hnorm]

/-- Well-shaped input: `method_of_snapshots` fails when a singular value that is retained and
not NaN is zero. -/
theorem method_of_snapshots_not_finite [DecidableEq K] {B D : Nat} (cmath : CMath K)
    (solver : EigenSolver K) (mass_matrix : SparseMatrix K)
    (hm : mass_matrix.m = D) (hn : mass_matrix.n = D) (snapshots : List (BlockVector K))
    (hne : snapshots ≠ []) (hB : 0 < B) (hs : ∀ s ∈ snapshots, Shaped B D s)
    (n_pod_vectors : Nat) (center_trajectory : Bool) (pod_basis : BlockPODBasis K)
    (c : Correlated K)
    (hc : build_correlation_matrix mass_matrix snapshots center_trajectory pod_basis = .ok c)
    (hsized : (solver c.correlation_matrix c.identity).Sized snapshots.length)
    (hreal : (solver c.correlation_matrix c.identity).IsReal)
    (k : Nat) (hk : k < min snapshots.length n_pod_vectors)
    (hnan : cmath.isnan
      ((singular_values_of cmath (solver c.correlation_matrix c.identity)).getD k 0) = false)
    (hzero : (singular_values_of cmath (solver c.correlation_matrix c.identity)).getD k 0 = 0) :
    method_of_snapshots cmath solver mass_matrix snapshots n_pod_vectors center_trajectory
        pod_basis = .error .ExcNumberNotFinite := by
  have hc' := build_correlation_matrix_ok mass_matrix hm hn snapshots hne hB hs
    center_trajectory pod_basis
  rw [hc] at hc'
  have hc'' := Except.ok.inj hc'
  have hmean : Shaped B D (mean_of snapshots B D) :=
    Shaped.accumulate _ snapshots _ (Shaped.zero B D) hs
  have hw := Shaped.working_snapshots center_trajectory snapshots _ hmean hs
  have hlen := length_working_snapshots center_trajectory snapshots (mean_of snapshots B D)
  have hcs : c.snapshots = working_snapshots center_trajectory snapshots
      (mean_of snapshots B D) := by rw [hc'']
  have hcb : c.n_blocks = B := by rw [hc'']
  have hcd : c.n_dofs_per_block = D := by rw [hc'']
  have hlen' : c.snapshots.length = snapshots.length := by rw [hcs, hlen]
  have h2 := build_pod_vectors_not_finite cmath solver n_pod_vectors c
    (by rw [hcs, hcb, hcd]; exact hw) (by rw [hlen']; exact hsized) hreal k
    (by rw [hlen']; exact hk) hnan hzero
  rw [hlen'] at h2
  unfold method_of_snapshots
  simp only [hc, bind, Except.bind, h2]

/-! ## Entries and sums -/

theorem sum_map_range (f : Nat → K) (n : Nat) :
    ((List.range n).map f).sum = ∑ i in Finset.range n, f i := by
  induction n with
  | zero => simp
  | succ n ih => rw [List.sum_range_succ, Finset.sum_range_succ, ih]

theorem sum_zipWith_range {α β : Type} (f : α → β → K) (a0 : α) (b0 : β) (l1 : List α)
    (l2 : List β) (n : Nat) (h1 : l1.length = n) (h2 : l2.length = n) :
    (List.zipWith f l1 l2).sum = ∑ i in Finset.range n, f (l1.getD i a0) (l2.getD i b0) := by
  induction l1 generalizing l2 n with
  | nil =>
    subst h1
    simp
  | cons a l1 ih =>
    cases l2 with
    | nil => subst h2; simp at h1
    | cons b l2 =>
      cases n with
      | zero => simp at h1
      | succ n =>
        have h1' : l1.length = n := by simpa using h1
        have h2' : l2.length = n := by simpa using h2
        rw [Finset.sum_range_succ', List.zipWith_cons_cons, List.sum_cons, ih l2 n h1' h2']
        simp [add_comm]

theorem sum_map_getD {α : Type} (f : α → K) (a0 : α) (l : List α) :
    (l.map f).sum = ∑ i in Finset.range l.length, f (l.getD i a0) := by
  induction l with
  | nil => simp
  | cons a l ih =>
    rw [List.map_cons, List.sum_cons, List.length_cons, Finset.sum_range_succ', ih]
    simp [add_comm]

theorem getD_of_lt {α : Type} (l : List α) (i : Nat) (a0 : α) (h : i < l.length) :
    l.getD i a0 = l.get ⟨i, h⟩ := by
  simp [List.getElem?_eq_getElem h]

theorem Shaped.length_getD {B D : Nat} {v : BlockVector K} (h : Shaped B D v) (b : Nat)
    (hb : b < B) : (v.getD b []).length = D := by
  have hb' : b < v.length := by rw [h.1]; exact hb
  rw [getD_of_lt v b [] hb']
  exact h.2 _ (List.get_mem _ _ _)

theorem Vector.getD_axpy (this : Vector K) (a : K) (V : Vector K)
    (h : this.length = V.length) (d : Nat) :
    (Vector.axpy this a V).getD d 0 = this.getD d 0 + a * V.getD d 0 := by
  by_cases hd : d < this.length
  · have hd' : d < V.length := by rw [← h]; exact hd
    simp [Vector.axpy, List.getElem?_zipWith, List.getElem?_eq_getElem hd,
      List.getElem?_eq_getElem hd']
  · have hd1 : this.length ≤ d := Nat.le_of_not_lt hd
    have hd2 : V.length ≤ d := by rw [← h]; exact hd1
    simp [Vector.axpy, List.getElem?_zipWith, List.getElem?_eq_none hd1,
      List.getElem?_eq_none hd2]

theorem entry_axpy {B D : Nat} (this : BlockVector K) (a : K) (V : BlockVector K)
    (h1 : Shaped B D this) (h2 : Shaped B D V) (b d : Nat) :
    entry (BlockVector.axpy this a V) b d = entry this b d + a * entry V b d := by
  unfold entry
  by_cases hb : b < B
  · have hb1 : b < this.length := by rw [h1.1]; exact hb
    have hb2 : b < V.length := by rw [h2.1]; exact hb
    have hl : (this.get ⟨b, hb1⟩).length = (V.get ⟨b, hb2⟩).length := by
      rw [h1.2 _ (List.get_mem _ _ _), h2.2 _ (List.get_mem _ _ _)]
    have := Vector.getD_axpy (this.get ⟨b, hb1⟩) a (V.get ⟨b, hb2⟩) hl d
    simpa [BlockVector.axpy, List.getElem?_zipWith, List.getElem?_eq_getElem hb1,
      List.getElem?_eq_getElem hb2] using this
  · have hb1 : this.length ≤ b := by rw [h1.1]; exact Nat.le_of_not_lt hb
    have hb2 : V.length ≤ b := by rw [h2.1]; exact Nat.le_of_not_lt hb
    simp [BlockVector.axpy, List.getElem?_zipWith, List.getElem?_eq_none hb1,
      List.getElem?_eq_none hb2]

theorem entry_zero (B D b d : Nat) : entry (BlockVector.zero B D : BlockVector K) b d = 0 := by
  unfold entry BlockVector.zero
  by_cases hb : b < B
  · by_cases hd : d < D
    · simp [List.getElem?_replicate, hb, hd]
    · simp [List.getElem?_replicate, hb, hd]
  · simp [List.getElem?_replicate, hb]

theorem entry_scale (v : BlockVector K) (factor : K) (b d : Nat) :
    entry (BlockVector.scale v factor) b d = entry v b d * factor := by
  unfold entry BlockVector.scale Vector.scale
  by_cases hb : b < v.length
  · by_cases hd : d < (v.get ⟨b, hb⟩).length
    · have hd' : d < v[b].length := hd
      simp [List.getElem?_eq_getElem hb, List.getElem?_eq_getElem hd']
    · have hd' : v[b].length ≤ d := Nat.le_of_not_lt hd
      simp [List.getElem?_eq_getElem hb, List.getElem?_eq_none hd']
  · simp [List.getElem?_eq_none (Nat.le_of_not_lt hb)]

theorem Shaped.scale {B D : Nat} {v : BlockVector K} (h : Shaped B D v) (factor : K) :
    Shaped B D (BlockVector.scale v factor) := by
  constructor
  · simpa [BlockVector.scale] using h.1
  · intro b hb
    simp only [BlockVector.scale, List.mem_map] at hb
    obtain ⟨x, hx, rfl⟩ := hb
    simpa [Vector.scale] using h.2 x hx

theorem Shaped.ext {B D : Nat} {u v : BlockVector K} (hu : Shaped B D u) (hv : Shaped B D v)
    (h : ∀ b d, b < B → d < D → entry u b d = entry v b d) : u = v := by
  apply List.ext_getElem
  · rw [hu.1, hv.1]
  · intro b h1 h2
    have hb : b < B := by rw [← hu.1]; exact h1
    have hlu : u[b].length = D := hu.2 _ (List.getElem_mem _)
    have hlv : v[b].length = D := hv.2 _ (List.getElem_mem _)
    apply List.ext_getElem
    · rw [hlu, hlv]
    · intro d h3 h4
      have hd : d < D := by rw [← hlu]; exact h3
      have := h b d hb hd
      simpa [entry, List.getElem?_eq_getElem h1, List.getElem?_eq_getElem h2,
        List.getElem?_eq_getElem h3, List.getElem?_eq_getElem h4] using this

theorem Vector.inner_eq_sum (u v : Vector K) (n : Nat) (h1 : u.length = n) (h2 : v.length = n) :
    Vector.inner u v = ∑ d in Finset.range n, u.getD d 0 * v.getD d 0 :=
  sum_zipWith_range (fun x y => x * y) 0 0 u v n h1 h2

theorem BlockVector.inner_eq_sum_entries {B D : Nat} (u v : BlockVector K) (hu : Shaped B D u)
    (hv : Shaped B D v) :
    BlockVector.inner u v
      = ∑ b in Finset.range B, ∑ d in Finset.range D, entry u b d * entry v b d := by
  unfold BlockVector.inner
  rw [sum_zipWith_range Vector.inner [] [] u v B hu.1 hv.1]
  apply Finset.sum_congr rfl
  intro b hb
  have hb' : b < B := Finset.mem_range.mp hb
  exact Vector.inner_eq_sum _ _ D (hu.length_getD b hb') (hv.length_getD b hb')

theorem entry_accumulate {B D : Nat} (w : K) (snapshots : List (BlockVector K))
    (mean_vector : BlockVector K) (hm : Shaped B D mean_vector)
    (hs : ∀ s ∈ snapshots, Shaped B D s) (b d : Nat) :
    entry (accumulate w mean_vector snapshots) b d
      = entry mean_vector b d
        + w * ∑ i in Finset.range snapshots.length, entry (snapshots.getD i []) b d := by
  induction snapshots generalizing mean_vector with
  | nil => simp [accumulate]
  | cons s l ih =>
    have hsh : Shaped B D s := hs s (List.mem_cons_self s l)
    have := ih (BlockVector.axpy mean_vector w s) (hm.axpy w hsh)
      (fun x hx => hs x (List.mem_cons_of_mem s hx))
    have hacc : accumulate w mean_vector (s :: l)
        = accumulate w (BlockVector.axpy mean_vector w s) l := rfl
    rw [hacc, this, entry_axpy _ _ _ hm hsh, List.length_cons, Finset.sum_range_succ']
    simp only [List.getD_cons_succ, List.getD_cons_zero]
    ring

theorem Shaped.set_zero {B D : Nat} {v : BlockVector K} (h : Shaped B D v) :
    BlockVector.set_zero v = BlockVector.zero B D := by
  have h1 : Shaped B D (BlockVector.set_zero v) := by
    constructor
    · simpa [BlockVector.set_zero] using h.1
    · intro b hb
      simp only [BlockVector.set_zero, List.mem_map] at hb
      obtain ⟨x, hx, rfl⟩ := hb
      simpa using h.2 x hx
  apply h1.ext (Shaped.zero B D)
  intro b d hb hd
  rw [entry_zero]
  have hb' : b < v.length := by rw [h.1]; exact hb
  have hd' : d < v[b].length := by rw [h.2 _ (List.getElem_mem _)]; exact hd
  simp [entry, BlockVector.set_zero, List.getElem?_eq_getElem hb', List.getElem?_eq_getElem hd']

theorem diagonal_solver_sized (A B : LAPACKFullMatrix K) :
    (diagonal_solver A B).Sized A.m := by
  refine ⟨by simp [diagonal_solver], by simp [diagonal_solver], ?_⟩
  intro v hv
  simp only [diagonal_solver, List.mem_map] at hv
  obtain ⟨i, _, rfl⟩ := hv
  simp

theorem diagonal_solver_isReal (A B : LAPACKFullMatrix K) :
    (diagonal_solver A B).IsReal := by
  intro ev hev
  simp only [diagonal_solver, List.mem_map] at hev
  obtain ⟨i, _, rfl⟩ := hev
  rfl

theorem entry_combination {B D : Nat} (cmath : CMath K) (singular_value : K)
    (snapshots : List (BlockVector K)) (hs : ∀ s ∈ snapshots, Shaped B D s)
    (eigenvector : Vector K) (start : BlockVector K) (h0 : Shaped B D start)
    (hlen : snapshots.length ≤ eigenvector.length) (b d : Nat) :
    entry (combination cmath eigenvector singular_value snapshots start) b d
      = entry start b d + ∑ i in Finset.range snapshots.length,
          (if !cmath.isnan (eigenvector.getD i 0) && !cmath.isnan singular_value then
            eigenvector.getD i 0 * entry (snapshots.getD i []) b d else 0) := by
  induction snapshots generalizing eigenvector start with
  | nil => simp [combination]
  | cons s l ih =>
    cases eigenvector with
    | nil => simp at hlen
    | cons c e =>
      have hsh : Shaped B D s := hs s (List.mem_cons_self s l)
      have hstart : Shaped B D (if !cmath.isnan c && !cmath.isnan singular_value then
          BlockVector.axpy start c s else start) := by
        split_ifs
        · exact h0.axpy c hsh
        · exact h0
      have := ih (fun x hx => hs x (List.mem_cons_of_mem s hx)) e _ hstart
        (by simpa using hlen)
      have hcomb : combination cmath (c :: e) singular_value (s :: l) start
          = combination cmath e singular_value l
            (if !cmath.isnan c && !cmath.isnan singular_value then
              BlockVector.axpy start c s else start) := rfl
      rw [hcomb, this, List.length_cons, Finset.sum_range_succ']
      simp only [List.getD_cons_succ, List.getD_cons_zero]
      split_ifs
      · rw [entry_axpy _ _ _ h0 hsh]; ring
      · ring

theorem getD_reverse {α : Type} (l : List α) (k : Nat) (a0 : α) (h : k < l.length) :
    l.reverse.getD k a0 = l.getD (l.length - 1 - k) a0 := by
  simp [List.getElem?_reverse h]

theorem length_singular_values_of (cmath : CMath K) (solution : EigenSolution K) :
    (singular_values_of cmath solution).length = solution.eigenvalues.length := by
  simp [singular_values_of]

theorem getD_singular_values_of (cmath : CMath K) (solution : EigenSolution K) (k : Nat)
    (h : k < solution.eigenvalues.length) :
    (singular_values_of cmath solution).getD k 0
      = cmath.sqrt (solution.eigenvalues.getD (solution.eigenvalues.length - 1 - k) (0, 0)).1 := by
  unfold singular_values_of
  rw [getD_reverse _ _ _ (by simpa using h)]
  have h' : solution.eigenvalues.length - 1 - k < solution.eigenvalues.length := by omega
  simp [List.getElem?_eq_getElem h']

theorem getD_pod_vectors_of (cmath : CMath K) (solution : EigenSolution K)
    (snapshots : List (BlockVector K)) (B D n k : Nat) (h : k < n) :
    (pod_vectors_of cmath solution snapshots B D n).getD k []
      = pod_vector cmath (solution.eigenvectors.reverse.getD k [])
          ((singular_values_of cmath solution).getD k 0) snapshots B D := by
  simp [pod_vectors_of, h]

theorem Shaped.pod_vector {B D : Nat} (cmath : CMath K) (eigenvector : Vector K)
    (singular_value : K) (snapshots : List (BlockVector K))
    (hs : ∀ s ∈ snapshots, Shaped B D s) :
    Shaped B D (pod_vector cmath eigenvector singular_value snapshots B D) := by
  have h := Shaped.combination cmath singular_value snapshots hs eigenvector _ (Shaped.zero B D)
  unfold POD.pod_vector
  split_ifs
  · exact h.scale _
  · exact h

theorem entry_pod_vector {B D : Nat} (cmath : CMath K) (eigenvector : Vector K)
    (singular_value : K) (snapshots : List (BlockVector K))
    (hs : ∀ s ∈ snapshots, Shaped B D s) (hlen : snapshots.length ≤ eigenvector.length)
    (hnan : cmath.isnan singular_value = false) (b d : Nat) :
    entry (pod_vector cmath eigenvector singular_value snapshots B D) b d
      = (1 / singular_value) * ∑ i in Finset.range snapshots.length,
          (if cmath.isnan (eigenvector.getD i 0) then 0
            else eigenvector.getD i 0 * entry (snapshots.getD i []) b d) := by
  simp only [pod_vector, hnan, Bool.not_false, if_true]
  rw [entry_scale, entry_combination cmath _ _ hs _ _ (Shaped.zero B D) hlen, entry_zero,
    zero_add, mul_comm]
  congr 1
  apply Finset.sum_congr rfl
  intro i _
  cases h : cmath.isnan (eigenvector.getD i 0) <;> simp [h, hnan]

theorem length_pod_vectors_of (cmath : CMath K) (solution : EigenSolution K)
    (snapshots : List (BlockVector K)) (B D n : Nat) :
    (pod_vectors_of cmath solution snapshots B D n).length = n := by
  simp [pod_vectors_of]

/-! ## The reduced matrix -/

theorem foldlM_reduced_entry {B D : Nat} (pod_vectors : List (BlockVector K))
    (hs : ∀ v ∈ pod_vectors, Shaped B D v) (dim_n : Nat) (hdim : dim_n < B) (column : Nat)
    (temp : Vector K) (htemp : temp.length = D) (rom : FullMatrix K) :
    ∃ rom' : FullMatrix K,
      (List.range pod_vectors.length).foldlM (reduced_entry pod_vectors dim_n column temp) rom
        = .ok rom'
      ∧ rom'.m = rom.m ∧ rom'.n = rom.n
      ∧ ∀ a b, rom'.el a b =
          if b = column ∧ a < pod_vectors.length then
            rom.el a b + Vector.inner ((pod_vectors.getD a []).getD dim_n []) temp
          else rom.el a b := by
  refine foldlM_range_inv (reduced_entry pod_vectors dim_n column temp)
    (fun i (r : FullMatrix K) => r.m = rom.m ∧ r.n = rom.n ∧ ∀ a b, r.el a b =
      if b = column ∧ a < i then
        rom.el a b + Vector.inner ((pod_vectors.getD a []).getD dim_n []) temp
      else rom.el a b)
    pod_vectors.length rom ⟨rfl, rfl, fun a b => by simp⟩ ?_
  intro i r hi ⟨hm, hn, hel⟩
  have hsi : Shaped B D (pod_vectors.get ⟨i, hi⟩) := hs _ (List.get_mem _ _ _)
  have hb : dim_n < (pod_vectors.get ⟨i, hi⟩).length := by rw [hsi.1]; exact hdim
  have hbl : ((pod_vectors.get ⟨i, hi⟩).get ⟨dim_n, hb⟩).length = D :=
    hsi.2 _ (List.get_mem _ _ _)
  have hgetD : (pod_vectors.getD i []).getD dim_n []
      = (pod_vectors.get ⟨i, hi⟩).get ⟨dim_n, hb⟩ := by
    rw [getD_of_lt pod_vectors i [] hi, getD_of_lt _ dim_n [] hb]
  refine ⟨r.set i column (r.el i column
    + Vector.inner ((pod_vectors.get ⟨i, hi⟩).get ⟨dim_n, hb⟩) temp), ?_, hm, hn, ?_⟩
  · simp only [reduced_entry, vector_at_ok _ i hi, BlockVector.block, index_ok _ dim_n hb,
      Vector.dot_ok _ _ (hbl.trans htemp.symm), bind, Except.bind, pure, Except.pure]
  · intro a b
    simp only [FullMatrix.set, hel, ← hgetD]
    by_cases h1 : a = i ∧ b = column
    · obtain ⟨rfl, rfl⟩ := h1
      simp
    · rw [if_neg h1]
      by_cases h2 : b = column ∧ a < i
      · have h3 : b = column ∧ a < i + 1 := ⟨h2.1, by omega⟩
        rw [if_pos h2, if_pos h3]
      · have h3 : ¬ (b = column ∧ a < i + 1) := by
          intro h; apply h2; refine ⟨h.1, ?_⟩
          have : a ≠ i := fun ha => h1 ⟨ha, h.1⟩
          omega
        rw [if_neg h2, if_neg h3]

theorem foldlM_reduced_column {B D : Nat} (pod_vectors : List (BlockVector K))
    (hs : ∀ v ∈ pod_vectors, Shaped B D v) (full_matrix : SparseMatrix K)
    (hm : full_matrix.m = D) (hn : full_matrix.n = D) (dim_n : Nat) (hdim : dim_n < B)
    (st : FullMatrix K × Vector K) (htemp : st.2.length = D) :
    ∃ st' : FullMatrix K × Vector K,
      reduced_dim pod_vectors full_matrix st dim_n = .ok st'
      ∧ st'.2.length = D ∧ st'.1.m = st.1.m ∧ st'.1.n = st.1.n
      ∧ ∀ a b, st'.1.el a b =
          if a < pod_vectors.length ∧ b < pod_vectors.length then
            st.1.el a b + projected_entry pod_vectors full_matrix dim_n a b
          else st.1.el a b := by
  unfold reduced_dim
  refine foldlM_range_inv (reduced_column pod_vectors full_matrix dim_n)
    (fun i (s : FullMatrix K × Vector K) => s.2.length = D ∧ s.1.m = st.1.m ∧ s.1.n = st.1.n
      ∧ ∀ a b, s.1.el a b =
        if a < pod_vectors.length ∧ b < i then
          st.1.el a b + projected_entry pod_vectors full_matrix dim_n a b
        else st.1.el a b)
    pod_vectors.length st ⟨htemp, rfl, rfl, fun a b => by simp⟩ ?_
  intro i s hi ⟨hlen, hsm, hsn, hel⟩
  have hsi : Shaped B D (pod_vectors.get ⟨i, hi⟩) := hs _ (List.get_mem _ _ _)
  have hb : dim_n < (pod_vectors.get ⟨i, hi⟩).length := by rw [hsi.1]; exact hdim
  have hbl : ((pod_vectors.get ⟨i, hi⟩).get ⟨dim_n, hb⟩).length = D :=
    hsi.2 _ (List.get_mem _ _ _)
  have hgetD : (pod_vectors.getD i []).getD dim_n []
      = (pod_vectors.get ⟨i, hi⟩).get ⟨dim_n, hb⟩ := by
    rw [getD_of_lt pod_vectors i [] hi, getD_of_lt _ dim_n [] hb]
  obtain ⟨rom', h1, h2, h3, h4⟩ := foldlM_reduced_entry pod_vectors hs dim_n hdim i
    (full_matrix.apply ((pod_vectors.get ⟨i, hi⟩).get ⟨dim_n, hb⟩))
    (by rw [SparseMatrix.length_apply, hm]) s.1
  refine ⟨(rom', full_matrix.apply ((pod_vectors.get ⟨i, hi⟩).get ⟨dim_n, hb⟩)), ?_, ?_,
    h2.trans hsm, h3.trans hsn, ?_⟩
  · simp only [reduced_column, vector_at_ok _ i hi, BlockVector.block, index_ok _ dim_n hb,
      SparseMatrix.vmult, bind, Except.bind, pure, Except.pure]
    rw [if_pos ⟨by rw [hm, hlen], by rw [hn, hbl]⟩]
    simp only [h1]
  · rw [SparseMatrix.length_apply, hm]
  · intro a b
    simp only [h4, hel, projected_entry, ← hgetD]
    by_cases h5 : b = i ∧ a < pod_vectors.length
    · obtain ⟨rfl, h5⟩ := h5
      have h6 : ¬ (a < pod_vectors.length ∧ b < b) := fun h => Nat.lt_irrefl b h.2
      have h7 : a < pod_vectors.length ∧ b < b + 1 := ⟨h5, Nat.lt_succ_self b⟩
      rw [if_pos ⟨rfl, h5⟩, if_neg h6, if_pos h7]
    · rw [if_neg h5]
      by_cases h6 : a < pod_vectors.length ∧ b < i
      · have h7 : a < pod_vectors.length ∧ b < i + 1 := ⟨h6.1, by omega⟩
        rw [if_pos h6, if_pos h7]
      · have h7 : ¬ (a < pod_vectors.length ∧ b < i + 1) := by
          intro h; apply h6; refine ⟨h.1, ?_⟩
          have : b ≠ i := fun hb' => h5 ⟨hb', h.1⟩
          omega
        rw [if_neg h6, if_neg h7]

theorem foldlM_reduced_dim {B D : Nat} (pod_vectors : List (BlockVector K))
    (hs : ∀ v ∈ pod_vectors, Shaped B D v) (full_matrix : SparseMatrix K)
    (hm : full_matrix.m = D) (hn : full_matrix.n = D) (dims : List Nat)
    (hdims : ∀ dim_n ∈ dims, dim_n < B) (st : FullMatrix K × Vector K)
    (htemp : st.2.length = D) :
    ∃ st' : FullMatrix K × Vector K,
      dims.foldlM (reduced_dim pod_vectors full_matrix) st = .ok st'
      ∧ st'.1.m = st.1.m ∧ st'.1.n = st.1.n
      ∧ ∀ a b, st'.1.el a b
          = st.1.el a b + reduced_entries pod_vectors full_matrix dims a b := by
  induction dims generalizing st with
  | nil => exact ⟨st, rfl, rfl, rfl, fun a b => by simp [reduced_entries]⟩
  | cons dim_n dims ih =>
    obtain ⟨st1, h1, h2, h3, h4, h5⟩ := foldlM_reduced_column pod_vectors hs full_matrix hm hn
      dim_n (hdims dim_n (List.mem_cons_self _ _)) st htemp
    obtain ⟨st2, k1, k2, k3, k4⟩ := ih (fun d hd => hdims d (List.mem_cons_of_mem _ hd)) st1 h2
    refine ⟨st2, ?_, k2.trans h3, k3.trans h4, ?_⟩
    · rw [List.foldlM_cons, h1]
      exact k1
    · intro a b
      rw [k4, h5]
      unfold reduced_entries
      by_cases hab : a < pod_vectors.length ∧ b < pod_vectors.length
      · simp only [if_pos hab, List.map_cons, List.sum_cons]
        ring
      · simp only [if_neg hab, add_zero]

/-- The four-argument overload on POD vectors of one shape. -/
theorem create_reduced_matrix_ok {B D : Nat} (pod_vectors : List (BlockVector K))
    (hne : pod_vectors ≠ []) (hB : 0 < B) (hs : ∀ v ∈ pod_vectors, Shaped B D v)
    (full_matrix : SparseMatrix K) (hm : full_matrix.m = D) (hn : full_matrix.n = D)
    (dims : List Nat) (hdims : ∀ dim_n ∈ dims, dim_n < B) :
    create_reduced_matrix pod_vectors full_matrix dims = .ok
      ⟨pod_vectors.length, pod_vectors.length, reduced_entries pod_vectors full_matrix dims⟩ := by
  have h0 : 0 < pod_vectors.length := List.length_pos.mpr hne
  have hs0 : Shaped B D (pod_vectors.get ⟨0, h0⟩) := hs _ (List.get_mem _ _ _)
  have hb0 : 0 < (pod_vectors.get ⟨0, h0⟩).length := by rw [hs0.1]; exact hB
  have hbl : ((pod_vectors.get ⟨0, h0⟩).get ⟨0, hb0⟩).length = D :=
    hs0.2 _ (List.get_mem _ _ _)
  obtain ⟨st, h1, h2, h3, h4⟩ := foldlM_reduced_dim pod_vectors hs full_matrix hm hn dims hdims
    (FullMatrix.zero pod_vectors.length pod_vectors.length, List.replicate D 0) (by simp)
  unfold create_reduced_matrix
  simp only [index_ok _ 0 h0, BlockVector.block, index_ok _ 0 hb0, hbl, bind, Except.bind, h1,
    pure, Except.pure]
  congr 1
  ext a b
  · exact h2
  · exact h3
  · rw [h4]
    simp [FullMatrix.zero]

theorem SparseMatrix.getD_apply (A : SparseMatrix K) (x : Vector K) (i : Nat) (hi : i < A.m) :
    (A.apply x).getD i 0 = ∑ j in Finset.range A.n, A.el i j * x.getD j 0 := by
  rw [getD_of_lt _ i 0 (by rw [SparseMatrix.length_apply]; exact hi)]
  simp only [SparseMatrix.apply, List.get_eq_getElem, List.getElem_map, List.getElem_range]
  exact sum_map_range _ _

theorem Vector.inner_apply (u x : Vector K) (A : SparseMatrix K) (hu : u.length = A.m) :
    Vector.inner u (A.apply x)
      = ∑ i in Finset.range A.m, ∑ j in Finset.range A.n,
          u.getD i 0 * (A.el i j * x.getD j 0) := by
  rw [Vector.inner_eq_sum u (A.apply x) A.m hu (SparseMatrix.length_apply A x)]
  apply Finset.sum_congr rfl
  intro i hi
  rw [SparseMatrix.getD_apply A x i (Finset.mem_range.mp hi), Finset.mul_sum]

theorem Shaped.length_block {B D : Nat} (pod_vectors : List (BlockVector K))
    (hs : ∀ v ∈ pod_vectors, Shaped B D v) (row dim_n : Nat) (hrow : row < pod_vectors.length)
    (hdim : dim_n < B) : ((pod_vectors.getD row []).getD dim_n []).length = D := by
  rw [getD_of_lt pod_vectors row [] hrow]
  exact (hs _ (List.get_mem _ _ _)).length_getD dim_n hdim

theorem projected_entry_sum {B D : Nat} (pod_vectors : List (BlockVector K))
    (hs : ∀ v ∈ pod_vectors, Shaped B D v) (A₁ A₂ : SparseMatrix K)
    (hm₁ : A₁.m = D) (hm₂ : A₂.m = D) (hn : A₁.n = A₂.n) (dim_n row column : Nat)
    (hrow : row < pod_vectors.length) (hdim : dim_n < B) :
    projected_entry pod_vectors (A₁.sum A₂) dim_n row column
      = projected_entry pod_vectors A₁ dim_n row column
        + projected_entry pod_vectors A₂ dim_n row column := by
  have hl := Shaped.length_block pod_vectors hs row dim_n hrow hdim
  unfold projected_entry
  rw [Vector.inner_apply _ _ (A₁.sum A₂) (by rw [hl]; exact hm₁.symm),
    Vector.inner_apply _ _ A₁ (by rw [hl, hm₁]), Vector.inner_apply _ _ A₂ (by rw [hl, hm₂])]
  simp only [SparseMatrix.sum, hm₁, hm₂, ← hn]
  rw [← Finset.sum_add_distrib]
  apply Finset.sum_congr rfl
  intro i _
  rw [← Finset.sum_add_distrib]
  apply Finset.sum_congr rfl
  intro j _
  ring

theorem projected_entry_symm {B D : Nat} (pod_vectors : List (BlockVector K))
    (hs : ∀ v ∈ pod_vectors, Shaped B D v) (A : SparseMatrix K) (hm : A.m = D)
    (hsymm : A.Symmetric) (dim_n row column : Nat) (hrow : row < pod_vectors.length)
    (hcol : column < pod_vectors.length) (hdim : dim_n < B) :
    projected_entry pod_vectors A dim_n row column
      = projected_entry pod_vectors A dim_n column row := by
  have hl₁ := Shaped.length_block pod_vectors hs row dim_n hrow hdim
  have hl₂ := Shaped.length_block pod_vectors hs column dim_n hcol hdim
  unfold projected_entry
  rw [Vector.inner_apply _ _ A (by rw [hl₁, hm]), Vector.inner_apply _ _ A (by rw [hl₂, hm]),
    ← hsymm.1, Finset.sum_comm]
  apply Finset.sum_congr rfl
  intro i hi
  apply Finset.sum_congr rfl
  intro j hj
  rw [hsymm.2 j i (Finset.mem_range.mp hj) (Finset.mem_range.mp hi)]
  ring

theorem foldl_push_back (n : Nat) :
    (List.range n).foldl (fun (dims : List Nat) i => dims ++ [i]) [] = List.range n := by
  induction n with
  | zero => rfl
  | succ n ih => rw [List.range_succ, List.foldl_append, ih]; rfl

/-! ## Orthonormality -/

theorem gram_expansion (B D N : Nat) (W : Nat → Nat → Nat → K)
    (e f : Nat → K) (s t : K) :
    ∑ blk in Finset.range B, ∑ d in Finset.range D,
        (s * ∑ a in Finset.range N, e a * W a blk d) * (t * ∑ b in Finset.range N, f b * W b blk d)
      = s * t * ∑ a in Finset.range N, e a * ∑ b in Finset.range N,
          (∑ blk in Finset.range B, ∑ d in Finset.range D, W a blk d * W b blk d) * f b := by
  have h1 : ∀ blk d, (s * ∑ a in Finset.range N, e a * W a blk d)
      * (t * ∑ b in Finset.range N, f b * W b blk d)
      = ∑ a in Finset.range N, ∑ b in Finset.range N,
          s * t * (e a * f b * (W a blk d * W b blk d)) := by
    intro blk d
    rw [mul_mul_mul_comm, Finset.sum_mul_sum, Finset.mul_sum]
    apply Finset.sum_congr rfl
    intro a _
    rw [Finset.mul_sum]
    apply Finset.sum_congr rfl
    intro b _
    ring
  have h2 : ∀ a, e a * ∑ b in Finset.range N,
      (∑ blk in Finset.range B, ∑ d in Finset.range D, W a blk d * W b blk d) * f b
      = ∑ b in Finset.range N, ∑ blk in Finset.range B, ∑ d in Finset.range D,
          e a * f b * (W a blk d * W b blk d) := by
    intro a
    rw [Finset.mul_sum]
    apply Finset.sum_congr rfl
    intro b _
    rw [Finset.sum_mul, Finset.mul_sum]
    apply Finset.sum_congr rfl
    intro blk _
    rw [Finset.sum_mul, Finset.mul_sum]
    apply Finset.sum_congr rfl
    intro d _
    ring
  simp only [h1]
  simp only [h2, Finset.mul_sum]
  calc ∑ blk in Finset.range B, ∑ d in Finset.range D, ∑ a in Finset.range N,
        ∑ b in Finset.range N, s * t * (e a * f b * (W a blk d * W b blk d))
      = ∑ blk in Finset.range B, ∑ a in Finset.range N, ∑ d in Finset.range D,
        ∑ b in Finset.range N, s * t * (e a * f b * (W a blk d * W b blk d)) :=
        Finset.sum_congr rfl (fun _ _ => Finset.sum_comm)
    _ = ∑ a in Finset.range N, ∑ blk in Finset.range B, ∑ d in Finset.range D,
        ∑ b in Finset.range N, s * t * (e a * f b * (W a blk d * W b blk d)) := Finset.sum_comm
    _ = ∑ a in Finset.range N, ∑ blk in Finset.range B, ∑ b in Finset.range N,
        ∑ d in Finset.range D, s * t * (e a * f b * (W a blk d * W b blk d)) :=
        Finset.sum_congr rfl (fun _ _ => Finset.sum_congr rfl (fun _ _ => Finset.sum_comm))
    _ = ∑ a in Finset.range N, ∑ b in Finset.range N, ∑ blk in Finset.range B,
        ∑ d in Finset.range D, s * t * (e a * f b * (W a blk d * W b blk d)) :=
        Finset.sum_congr rfl (fun _ _ => Finset.sum_comm)

theorem apply_identity_matrix (D : Nat) (x : Vector K) (hx : x.length = D) :
    (identity_matrix D : SparseMatrix K).apply x = x := by
  apply List.ext_getElem
  · rw [SparseMatrix.length_apply, hx]; rfl
  · intro i h1 h2
    simp only [SparseMatrix.apply, identity_matrix, List.getElem_map, List.getElem_range]
    rw [sum_map_range]
    simp only [ite_mul, one_mul, zero_mul]
    rw [Finset.sum_ite_eq, if_pos (Finset.mem_range.mpr (by rw [← hx]; exact h2))]
    exact getD_of_lt x i 0 h2

theorem gram_identity_matrix {B D : Nat} (snapshots : List (BlockVector K))
    (hs : ∀ s ∈ snapshots, Shaped B D s) (a b : Nat) (ha : a < snapshots.length) :
    gram (identity_matrix D) snapshots a b
      = BlockVector.inner (snapshots.getD a []) (snapshots.getD b []) := by
  unfold gram
  congr 1
  have hsa : Shaped B D (snapshots.getD a []) := by
    rw [getD_of_lt snapshots a [] ha]
    exact hs _ (List.get_mem _ _ _)
  conv_rhs => rw [← List.map_id (snapshots.getD a [])]
  apply List.map_congr_left
  intro x hx
  exact apply_identity_matrix D x (hsa.2 x hx)

theorem correlation_entries_identity_matrix {B D : Nat} (snapshots : List (BlockVector K))
    (hs : ∀ s ∈ snapshots, Shaped B D s) (a b : Nat) (ha : a < snapshots.length)
    (hb : b < snapshots.length) :
    correlation_entries (identity_matrix D) snapshots snapshots.length a b
      = ∑ blk in Finset.range B, ∑ d in Finset.range D,
          entry (snapshots.getD a []) blk d * entry (snapshots.getD b []) blk d := by
  have hsa : Shaped B D (snapshots.getD a []) := by
    rw [getD_of_lt snapshots a [] ha]
    exact hs _ (List.get_mem _ _ _)
  have hsb : Shaped B D (snapshots.getD b []) := by
    rw [getD_of_lt snapshots b [] hb]
    exact hs _ (List.get_mem _ _ _)
  unfold correlation_entries
  rw [if_pos ⟨ha, hb⟩]
  split_ifs
  · rw [gram_identity_matrix snapshots hs a b ha, BlockVector.inner_eq_sum_entries _ _ hsa hsb]
  · rw [gram_identity_matrix snapshots hs b a hb, BlockVector.inner_eq_sum_entries _ _ hsb hsa]
    apply Finset.sum_congr rfl
    intro blk _
    apply Finset.sum_congr rfl
    intro d _
    ring

theorem inner_pod_vector {B D : Nat} (cmath : CMath K) (hnan : ∀ x, cmath.isnan x = false)
    (snapshots : List (BlockVector K)) (hs : ∀ s ∈ snapshots, Shaped B D s)
    (e f : Vector K) (he : snapshots.length ≤ e.length) (hf : snapshots.length ≤ f.length)
    (σ τ : K) :
    BlockVector.inner (pod_vector cmath e σ snapshots B D) (pod_vector cmath f τ snapshots B D)
      = (1 / σ) * (1 / τ) * ∑ a in Finset.range snapshots.length, e.getD a 0
          * ∑ b in Finset.range snapshots.length,
            (∑ blk in Finset.range B, ∑ d in Finset.range D,
              entry (snapshots.getD a []) blk d * entry (snapshots.getD b []) blk d)
            * f.getD b 0 := by
  rw [BlockVector.inner_eq_sum_entries _ _ (Shaped.pod_vector cmath e σ snapshots hs)
    (Shaped.pod_vector cmath f τ snapshots hs)]
  simp only [entry_pod_vector cmath _ _ _ hs he (hnan σ),
    entry_pod_vector cmath _ _ _ hs hf (hnan τ), hnan, Bool.false_eq_true, if_false]
  exact gram_expansion B D snapshots.length (fun a blk d => entry (snapshots.getD a []) blk d)
    (fun a => e.getD a 0) (fun b => f.getD b 0) (1 / σ) (1 / τ)

/-! ## The test data -/

/-- The state after line 88 on the snapshots `[1, 0]` and `[0, 2]`. -/
theorem diagonal_example_built :
    build_correlation_matrix (identity_matrix 2) [[[1, 0]], [[0, 2]]] false empty_basis
      = .ok diagonal_example := by
  rw [build_correlation_matrix_ok (B := 1) (D := 2) (identity_matrix 2) rfl rfl _ (by simp)
    (by decide) (by simp [Shaped]) false empty_basis]
  simp [diagonal_example, working_snapshots, empty_basis, mean_of, accumulate,
    BlockVector.set_zero, BlockVector.axpy, Vector.axpy, BlockVector.zero]

/-- The eigenvalues `diagonal_solver` reads off the correlation matrix of the un-centred
snapshots `[1, 0]` and `[0, 2]`. -/
theorem diagonal_example_eigenvalues :
    (diagonal_solver diagonal_example.correlation_matrix diagonal_example.identity).eigenvalues
      = [(1, 0), (4, 0)] := by
  simp [diagonal_solver, diagonal_example, correlation_entries, gram, BlockVector.inner,
    Vector.inner, SparseMatrix.apply, identity_matrix, List.range_succ]
  norm_num

theorem diagonal_example_eigenvectors :
    (diagonal_solver diagonal_example.correlation_matrix diagonal_example.identity).eigenvectors
      = [[1, 0], [0, 1]] := by
  simp [diagonal_solver, diagonal_example, List.range_succ]

theorem diagonal_example_entries :
    diagonal_example.correlation_matrix.el 0 0 = 1
      ∧ diagonal_example.correlation_matrix.el 0 1 = 0
      ∧ diagonal_example.correlation_matrix.el 1 0 = 0
      ∧ diagonal_example.correlation_matrix.el 1 1 = 4 := by
  simp [diagonal_example, correlation_entries, gram, BlockVector.inner, Vector.inner,
    SparseMatrix.apply, identity_matrix, List.range_succ]
  norm_num

/-- The singular values of `diagonal_example` are `2` and `1`: none is zero. -/
theorem diagonal_example_finite (n : Nat) (hn : n ≤ 2) :
    FiniteFactors cmath_exact
      (singular_values_of cmath_exact
        (diagonal_solver diagonal_example.correlation_matrix diagonal_example.identity)) n := by
  intro k hk _
  have hk' : k < 2 := lt_of_lt_of_le hk hn
  unfold singular_values_of
  rw [diagonal_example_eigenvalues]
  interval_cases k <;> simp [cmath_exact]

end Lemmas

section OrderedBasics

variable {K : Type} [LinearOrderedField K]

/-- Retained eigenvalues that are positive, with square roots that square to them, have
singular values that are not zero. -/
theorem finiteFactors_of_pos (cmath : CMath K) (solution : EigenSolution K) (N r : Nat)
    (h1 : solution.eigenvalues.length = N)
    (hpos : ∀ m, N - min N r ≤ m → m < N → 0 < (solution.eigenvalues.getD m (0, 0)).1)
    (hsqrt : ∀ m, N - min N r ≤ m → m < N →
      cmath.sqrt (solution.eigenvalues.getD m (0, 0)).1
        * cmath.sqrt (solution.eigenvalues.getD m (0, 0)).1
        = (solution.eigenvalues.getD m (0, 0)).1) :
    FiniteFactors cmath (singular_values_of cmath solution) (min N r) := by
  intro k hk _ h0
  have hkN : k < N := lt_of_lt_of_le hk (min_le_left _ _)
  have hmin : min N r ≤ N := min_le_left _ _
  rw [getD_singular_values_of cmath solution k (by rw [h1]; exact hkN), h1] at h0
  have h := hsqrt (N - 1 - k) (by omega) (by omega)
  rw [h0, mul_zero] at h
  exact absurd h.symm (ne_of_gt (hpos (N - 1 - k) (by omega) (by omega)))

end OrderedBasics

/-! ## The claims -/

section Claims

variable {K : Type} [Field K] [DecidableEq K]

/-- Counterexample for C2: two snapshots and requested rank one leave two singular values next
to one vector. -/
theorem singular_values_not_truncated :
    ∃ b, method_of_snapshots cmath_exact diagonal_solver (identity_matrix 2)
        [[[1, 0]], [[0, 2]]] 1 false empty_basis = .ok b
      ∧ b.singular_values.length ≠ min 2 1
      ∧ b.vectors.length ≠ b.singular_values.length := by
  refine ⟨_, method_of_snapshots_ok (B := 1) (D := 2) cmath_exact diagonal_solver
    (identity_matrix 2) rfl rfl [[[1, 0]], [[0, 2]]] (by simp) (by decide)
    (by simp [Shaped]) 1 false empty_basis diagonal_example diagonal_example_built
    (diagonal_solver_sized _ _) (diagonal_solver_isReal _ _)
    (diagonal_example_finite _ (by decide)), ?_, ?_⟩
  · rw [length_singular_values_of, (diagonal_solver_sized _ _).1]
    decide
  · rw [length_singular_values_of, (diagonal_solver_sized _ _).1, length_pod_vectors_of]
    decide

/-- C2 (amended): under the preconditions of C1 (no retained singular value is zero) the
returned basis holds all `N` singular values and `min N r` vectors, so the two lengths agree
exactly when `N ≤ r`. -/
theorem method_of_snapshots_lengths {B D : Nat} (cmath : CMath K)
    (solver : EigenSolver K) (mass_matrix : SparseMatrix K)
    (hm : mass_matrix.m = D) (hn : mass_matrix.n = D) (snapshots : List (BlockVector K))
    (hne : snapshots ≠ []) (hB : 0 < B) (hs : ∀ s ∈ snapshots, Shaped B D s)
    (n_pod_vectors : Nat) (center_trajectory : Bool) (pod_basis : BlockPODBasis K)
    (c : Correlated K)
    (hc : build_correlation_matrix mass_matrix snapshots center_trajectory pod_basis = .ok c)
    (hsized : (solver c.correlation_matrix c.identity).Sized snapshots.length)
    (hreal : (solver c.correlation_matrix c.identity).IsReal)
    (hfinite : FiniteFactors cmath
      (singular_values_of cmath (solver c.correlation_matrix c.identity))
      (min snapshots.length n_pod_vectors)) :
    ∃ b, method_of_snapshots cmath solver mass_matrix snapshots n_pod_vectors center_trajectory
        pod_basis = .ok b
      ∧ b.singular_values.length = snapshots.length
      ∧ b.vectors.length = min snapshots.length n_pod_vectors
      ∧ (b.vectors.length = b.singular_values.length ↔ snapshots.length ≤ n_pod_vectors) := by
  refine ⟨_, method_of_snapshots_ok cmath solver mass_matrix hm hn snapshots hne hB hs
    n_pod_vectors center_trajectory pod_basis c hc hsized hreal hfinite, ?_, ?_, ?_⟩
  · rw [length_singular_values_of, hsized.1]
  · exact length_pod_vectors_of _ _ _ _ _ _
  · rw [length_singular_values_of, hsized.1, length_pod_vectors_of]
    exact min_eq_left_iff

/-- Witness for C2 (amended): three snapshots, requested rank two. -/
theorem method_of_snapshots_lengths_witness :
    ∃ b, method_of_snapshots cmath_exact diagonal_solver (identity_matrix 4)
        [[[1, 0, 0, 0]], [[0, 1, 0, 0]], [[0, 0, 1, 0]]] 2 false empty_basis = .ok b
      ∧ b.singular_values.length = 3
      ∧ b.vectors.length = 2
      ∧ (b.vectors.length = b.singular_values.length ↔ 3 ≤ 2) :=
  method_of_snapshots_lengths (B := 1) (D := 4) cmath_exact diagonal_solver
    (identity_matrix 4) rfl rfl [[[1, 0, 0, 0]], [[0, 1, 0, 0]], [[0, 0, 1, 0]]] (by simp)
    (by decide) (by simp [Shaped]) 2 false empty_basis _
    (build_correlation_matrix_ok (B := 1) (D := 4) (identity_matrix 4) rfl rfl _ (by simp)
      (by decide) (by simp [Shaped]) false empty_basis)
    (diagonal_solver_sized _ _) (diagonal_solver_isReal _ _)
    (by
      intro k hk _
      have hk' : k < 2 := lt_of_lt_of_le hk (min_le_right _ _)
      interval_cases k <;>
        simp [singular_values_of, diagonal_solver, cmath_exact, correlation_entries, gram,
          working_snapshots, BlockVector.inner, Vector.inner, SparseMatrix.apply,
          identity_matrix, List.range_succ])

/-- Counterexample for C4: without centring the mean vector of the single snapshot `[1]` is
returned as `[0]`, not as the average `[1]`. -/
theorem mean_vector_zero_without_centering :
    ∃ b, method_of_snapshots cmath_exact diagonal_solver (identity_matrix 1)
        [[[1]]] 1 false empty_basis = .ok b
      ∧ b.mean_vector = [[0]]
      ∧ entry b.mean_vector 0 0
          ≠ (1 / ((1 : Nat) : ℚ)) * ∑ i in Finset.range 1, entry ([[[1]]].getD i []) 0 0 := by
  refine ⟨_, method_of_snapshots_ok (B := 1) (D := 1) cmath_exact diagonal_solver
    (identity_matrix 1) rfl rfl [[[1]]] (by simp) (by decide)
    (by simp [Shaped]) 1 false empty_basis _
    (build_correlation_matrix_ok (B := 1) (D := 1) (identity_matrix 1) rfl rfl _ (by simp)
      (by decide) (by simp [Shaped]) false empty_basis)
    (diagonal_solver_sized _ _) (diagonal_solver_isReal _ _)
    (by
      intro k hk _
      have hk' : k < 1 := lt_of_lt_of_le hk (min_le_right _ _)
      interval_cases k
      simp [singular_values_of, diagonal_solver, cmath_exact, correlation_entries, gram,
        working_snapshots, BlockVector.inner, Vector.inner, SparseMatrix.apply,
        identity_matrix, List.range_succ]), ?_, ?_⟩
  · simp [BlockVector.set_zero, mean_of, accumulate, BlockVector.axpy, Vector.axpy,
      BlockVector.zero]
  · simp [BlockVector.set_zero, mean_of, accumulate, BlockVector.axpy, Vector.axpy,
      BlockVector.zero, entry]

/-- C4 (amended): under the preconditions of C1 (no retained singular value is zero) the
returned mean vector has the shape of the snapshots; with centring its entries are the
arithmetic averages `(1/N) * Σ_i snapshot_i` of the un-centred snapshots, without centring it
is the zero vector. -/
theorem method_of_snapshots_mean_vector {B D : Nat} (cmath : CMath K)
    (solver : EigenSolver K) (mass_matrix : SparseMatrix K)
    (hm : mass_matrix.m = D) (hn : mass_matrix.n = D) (snapshots : List (BlockVector K))
    (hne : snapshots ≠ []) (hB : 0 < B) (hs : ∀ s ∈ snapshots, Shaped B D s)
    (n_pod_vectors : Nat) (center_trajectory : Bool) (pod_basis : BlockPODBasis K)
    (c : Correlated K)
    (hc : build_correlation_matrix mass_matrix snapshots center_trajectory pod_basis = .ok c)
    (hsized : (solver c.correlation_matrix c.identity).Sized snapshots.length)
    (hreal : (solver c.correlation_matrix c.identity).IsReal)
    (hfinite : FiniteFactors cmath
      (singular_values_of cmath (solver c.correlation_matrix c.identity))
      (min snapshots.length n_pod_vectors)) :
    ∃ b, method_of_snapshots cmath solver mass_matrix snapshots n_pod_vectors center_trajectory
        pod_basis = .ok b
      ∧ Shaped B D b.mean_vector
      ∧ (center_trajectory = true → ∀ blk d, entry b.mean_vector blk d
          = (1 / (snapshots.length : K))
            * ∑ i in Finset.range snapshots.length, entry (snapshots.getD i []) blk d)
      ∧ (center_trajectory = false → b.mean_vector = BlockVector.zero B D) := by
  have hmean : Shaped B D (mean_of snapshots B D) :=
    Shaped.accumulate _ snapshots _ (Shaped.zero B D) hs
  refine ⟨_, method_of_snapshots_ok cmath solver mass_matrix hm hn snapshots hne hB hs
    n_pod_vectors center_trajectory pod_basis c hc hsized hreal hfinite, ?_, ?_, ?_⟩
  · cases center_trajectory with
    | true => exact hmean
    | false =>
      simp only [Bool.false_eq_true, if_false, hmean.set_zero]
      exact Shaped.zero B D
  · intro hcenter blk d
    simp only [hcenter, if_true]
    rw [mean_of, entry_accumulate _ _ _ (Shaped.zero B D) hs, entry_zero, zero_add]
  · intro hcenter
    simp only [hcenter, Bool.false_eq_true, if_false, hmean.set_zero]

/-- Witness for C4 (amended): the centred snapshots `[2]`, `[2]`, `[0]`, `[0]` with requested
rank one; the mean vector is `[1]`, and the retained singular value is `2`. -/
theorem method_of_snapshots_mean_vector_witness :
    ∃ b, method_of_snapshots cmath_exact hadamard_solver (identity_matrix 1)
        [[[2]], [[2]], [[0]], [[0]]] 1 true empty_basis = .ok b
      ∧ Shaped 1 1 b.mean_vector
      ∧ (true = true → ∀ blk d, entry b.mean_vector blk d
          = (1 / ((4 : Nat) : ℚ)) * ∑ i in Finset.range 4,
              entry ([[[2]], [[2]], [[0]], [[0]]].getD i []) blk d)
      ∧ (true = false → b.mean_vector = BlockVector.zero 1 1) :=
  method_of_snapshots_mean_vector (B := 1) (D := 1) cmath_exact hadamard_solver
    (identity_matrix 1) rfl rfl [[[2]], [[2]], [[0]], [[0]]] (by simp)
    (by decide) (by simp [Shaped]) 1 true empty_basis _
    (build_correlation_matrix_ok (B := 1) (D := 1) (identity_matrix 1) rfl rfl _ (by simp)
      (by decide) (by simp [Shaped]) true empty_basis)
    (by simp [EigenSolution.Sized, hadamard_solver])
    (by simp [EigenSolution.IsReal, hadamard_solver])
    (by
      intro k hk _
      have hk' : k < 1 := lt_of_lt_of_le hk (min_le_right _ _)
      interval_cases k
      simp [singular_values_of, hadamard_solver, cmath_exact, correlation_entries, gram,
        working_snapshots, mean_of, accumulate, BlockVector.axpy, Vector.axpy,
        BlockVector.zero, BlockVector.inner, Vector.inner, SparseMatrix.apply,
        identity_matrix, List.range_succ]
      norm_num)

/-- C7: for a non-empty list of `r` POD vectors of one shape, a full matrix of matching size and
block indices `dims` in range, `create_reduced_matrix` returns an `r × r` matrix whose entry
`(row, column)` is the sum over `b` in `dims` of
`pod_vector_row.block(b) * (full_matrix * pod_vector_column.block(b))`. -/
theorem create_reduced_matrix_entries {B D : Nat} (pod_vectors : List (BlockVector K))
    (hne : pod_vectors ≠ []) (hB : 0 < B) (hs : ∀ v ∈ pod_vectors, Shaped B D v)
    (full_matrix : SparseMatrix K) (hm : full_matrix.m = D) (hn : full_matrix.n = D)
    (dims : List Nat) (hdims : ∀ dim_n ∈ dims, dim_n < B) :
    ∃ rom_matrix, create_reduced_matrix pod_vectors full_matrix dims = .ok rom_matrix
      ∧ rom_matrix.m = pod_vectors.length ∧ rom_matrix.n = pod_vectors.length
      ∧ ∀ row column, row < pod_vectors.length → column < pod_vectors.length →
          rom_matrix.el row column = (dims.map (fun b =>
            Vector.inner ((pod_vectors.getD row []).getD b [])
              (full_matrix.apply ((pod_vectors.getD column []).getD b [])))).sum := by
  refine ⟨_, create_reduced_matrix_ok pod_vectors hne hB hs full_matrix hm hn dims hdims,
    rfl, rfl, ?_⟩
  intro row column hrow hcol
  simp [reduced_entries, hrow, hcol, projected_entry]

/-- Witness for C7: the unit vectors `[1, 0]` and `[0, 1]` and the matrix `diag(1, 1)`. -/
theorem create_reduced_matrix_entries_witness :
    ∃ rom_matrix, create_reduced_matrix [[[1, 0]], [[0, 1]]] (identity_matrix 2 : SparseMatrix ℚ)
        [0] = .ok rom_matrix
      ∧ rom_matrix.m = 2 ∧ rom_matrix.n = 2
      ∧ ∀ row column, row < 2 → column < 2 →
          rom_matrix.el row column = ([0].map (fun b =>
            Vector.inner (([[[1, 0]], [[0, 1]]].getD row []).getD b [])
              ((identity_matrix 2 : SparseMatrix ℚ).apply
                (([[[1, 0]], [[0, 1]]].getD column []).getD b [])))).sum :=
  create_reduced_matrix_entries (B := 1) (D := 2) [[[1, 0]], [[0, 1]]] (by simp) (by decide)
    (by simp [Shaped]) (identity_matrix 2) rfl rfl [0] (by simp)

/-- C8: for a non-empty basis `first :: rest` the three-argument overload returns what the
four-argument overload returns for `dims = [0, 1, ..., B-1]`, where `B` is the number of blocks of
the first POD vector. -/
theorem create_reduced_matrix_all_blocks_eq (first : BlockVector K)
    (rest : List (BlockVector K)) (full_matrix : SparseMatrix K) :
    create_reduced_matrix_all_blocks (first :: rest) full_matrix
      = create_reduced_matrix (first :: rest) full_matrix (List.range first.length) := by
  unfold create_reduced_matrix_all_blocks
  simp only [vector_at_ok (first :: rest) 0 (Nat.succ_pos _), bind, Except.bind,
    List.get_eq_getElem, List.getElem_cons_zero, foldl_push_back]

/-- C9: for POD vectors of one shape, block indices in range and two full matrices of the same
matching size, the three projections succeed and the projection of the sum is entry by entry the
sum of the projections. -/
theorem create_reduced_matrix_add {B D : Nat} (pod_vectors : List (BlockVector K))
    (hne : pod_vectors ≠ []) (hB : 0 < B) (hs : ∀ v ∈ pod_vectors, Shaped B D v)
    (A₁ A₂ : SparseMatrix K) (hm₁ : A₁.m = D) (hn₁ : A₁.n = D) (hm₂ : A₂.m = D)
    (hn₂ : A₂.n = D) (dims : List Nat) (hdims : ∀ dim_n ∈ dims, dim_n < B) :
    ∃ R₁ R₂ R, create_reduced_matrix pod_vectors A₁ dims = .ok R₁
      ∧ create_reduced_matrix pod_vectors A₂ dims = .ok R₂
      ∧ create_reduced_matrix pod_vectors (A₁.sum A₂) dims = .ok R
      ∧ R.m = R₁.m ∧ R.n = R₁.n ∧ R.m = R₂.m ∧ R.n = R₂.n
      ∧ ∀ row column, R₁.el row column + R₂.el row column = R.el row column := by
  refine ⟨_, _, _, create_reduced_matrix_ok pod_vectors hne hB hs A₁ hm₁ hn₁ dims hdims,
    create_reduced_matrix_ok pod_vectors hne hB hs A₂ hm₂ hn₂ dims hdims,
    create_reduced_matrix_ok pod_vectors hne hB hs (A₁.sum A₂) hm₁ hn₁ dims hdims,
    rfl, rfl, rfl, rfl, ?_⟩
  intro row column
  simp only [reduced_entries]
  by_cases h : row < pod_vectors.length ∧ column < pod_vectors.length
  · simp only [if_pos h]
    rw [← List.sum_map_add]
    congr 1
    apply List.map_congr_left
    intro dim_n hdim
    exact (projected_entry_sum pod_vectors hs A₁ A₂ hm₁ hm₂ (hn₁.trans hn₂.symm) dim_n row
      column h.1 (hdims dim_n hdim)).symm
  · simp only [if_neg h, add_zero]

/-- Witness for C9: the identity projected twice. -/
theorem create_reduced_matrix_add_witness :
    ∃ R₁ R₂ R, create_reduced_matrix [[[1, 0]], [[0, 1]]] (identity_matrix 2 : SparseMatrix ℚ)
        [0] = .ok R₁
      ∧ create_reduced_matrix [[[1, 0]], [[0, 1]]] (identity_matrix 2 : SparseMatrix ℚ)
        [0] = .ok R₂
      ∧ create_reduced_matrix [[[1, 0]], [[0, 1]]]
        ((identity_matrix 2 : SparseMatrix ℚ).sum (identity_matrix 2)) [0] = .ok R
      ∧ R.m = R₁.m ∧ R.n = R₁.n ∧ R.m = R₂.m ∧ R.n = R₂.n
      ∧ ∀ row column, R₁.el row column + R₂.el row column = R.el row column :=
  create_reduced_matrix_add (B := 1) (D := 2) [[[1, 0]], [[0, 1]]] (by simp) (by decide)
    (by simp [Shaped]) (identity_matrix 2) (identity_matrix 2) rfl rfl rfl rfl [0] (by simp)

/-- C10: for POD vectors of one shape, block indices in range and a symmetric full matrix of
matching size, the matrix `create_reduced_matrix` returns is symmetric. -/
theorem create_reduced_matrix_symmetric {B D : Nat} (pod_vectors : List (BlockVector K))
    (hne : pod_vectors ≠ []) (hB : 0 < B) (hs : ∀ v ∈ pod_vectors, Shaped B D v)
    (full_matrix : SparseMatrix K) (hm : full_matrix.m = D)
    (hsymm : full_matrix.Symmetric) (dims : List Nat) (hdims : ∀ dim_n ∈ dims, dim_n < B) :
    ∃ rom_matrix, create_reduced_matrix pod_vectors full_matrix dims = .ok rom_matrix
      ∧ rom_matrix.m = rom_matrix.n
      ∧ ∀ row column, rom_matrix.el row column = rom_matrix.el column row := by
  refine ⟨_, create_reduced_matrix_ok pod_vectors hne hB hs full_matrix hm
    (hsymm.1.symm.trans hm) dims hdims, rfl, ?_⟩
  intro row column
  simp only [reduced_entries]
  by_cases h : row < pod_vectors.length ∧ column < pod_vectors.length
  · rw [if_pos h, if_pos ⟨h.2, h.1⟩]
    congr 1
    apply List.map_congr_left
    intro dim_n hdim
    exact projected_entry_symm pod_vectors hs full_matrix hm hsymm dim_n row column h.1 h.2
      (hdims dim_n hdim)
  · have h' : ¬ (column < pod_vectors.length ∧ row < pod_vectors.length) :=
      fun hc => h ⟨hc.2, hc.1⟩
    rw [if_neg h, if_neg h']

/-- Witness for C10: the symmetric matrix with rows `(2, 1)` and `(1, 3)` projected onto two
vectors with two blocks each. -/
theorem create_reduced_matrix_symmetric_witness :
    ∃ rom_matrix, create_reduced_matrix [[[1, 2], [0, 1]], [[3, 1], [1, 1]]]
        (⟨2, 2, fun i j => if i = j then (if i = 0 then 2 else 3) else 1⟩ : SparseMatrix ℚ)
        [0, 1] = .ok rom_matrix
      ∧ rom_matrix.m = rom_matrix.n
      ∧ ∀ row column, rom_matrix.el row column = rom_matrix.el column row :=
  create_reduced_matrix_symmetric (B := 2) (D := 2) [[[1, 2], [0, 1]], [[3, 1], [1, 1]]]
    (by simp) (by decide) (by simp [Shaped])
    ⟨2, 2, fun i j => if i = j then (if i = 0 then 2 else 3) else 1⟩ rfl
    ⟨rfl, fun i j _ _ => by
      by_cases h : i = j
      · subst h; rfl
      · have h' : ¬ j = i := fun e => h e.symm
        simp [h, h']⟩
    [0, 1] (by simp)

end Claims

section OrderedClaims

variable {K : Type} [LinearOrderedField K] [DecidableEq K]

/-- C6: with the identity as mass matrix, no NaN, and an eigensolver whose retained eigenpairs
(solver indices `N - min N r ≤ m < N`) satisfy `C e_m = λ_m e_m` for the correlation matrix `C`
built by the code, are orthonormal, and have `λ_m > 0` with `sqrt(λ_m)² = λ_m`, the scalar
product of the returned POD vectors `i` and `j` is `1` if `i = j` and `0` otherwise. -/
theorem method_of_snapshots_orthonormal {B D : Nat} (cmath : CMath K)
    (solver : EigenSolver K) (snapshots : List (BlockVector K))
    (hne : snapshots ≠ []) (hB : 0 < B) (hs : ∀ s ∈ snapshots, Shaped B D s)
    (n_pod_vectors : Nat) (center_trajectory : Bool) (pod_basis : BlockPODBasis K)
    (c : Correlated K)
    (hc : build_correlation_matrix (identity_matrix D) snapshots center_trajectory pod_basis
      = .ok c)
    (hsized : (solver c.correlation_matrix c.identity).Sized snapshots.length)
    (hreal : (solver c.correlation_matrix c.identity).IsReal)
    (hnan : ∀ x, cmath.isnan x = false)
    (hpos : ∀ m, snapshots.length - min snapshots.length n_pod_vectors ≤ m →
      m < snapshots.length →
      0 < ((solver c.correlation_matrix c.identity).eigenvalues.getD m (0, 0)).1)
    (hsqrt : ∀ m, snapshots.length - min snapshots.length n_pod_vectors ≤ m →
      m < snapshots.length →
      cmath.sqrt ((solver c.correlation_matrix c.identity).eigenvalues.getD m (0, 0)).1
        * cmath.sqrt ((solver c.correlation_matrix c.identity).eigenvalues.getD m (0, 0)).1
        = ((solver c.correlation_matrix c.identity).eigenvalues.getD m (0, 0)).1)
    (heig : ∀ m, snapshots.length - min snapshots.length n_pod_vectors ≤ m →
      m < snapshots.length → ∀ i, i < snapshots.length →
      ∑ j in Finset.range snapshots.length, c.correlation_matrix.el i j
          * ((solver c.correlation_matrix c.identity).eigenvectors.getD m []).getD j 0
        = ((solver c.correlation_matrix c.identity).eigenvalues.getD m (0, 0)).1
          * ((solver c.correlation_matrix c.identity).eigenvectors.getD m []).getD i 0)
    (horth : ∀ m n, snapshots.length - min snapshots.length n_pod_vectors ≤ m →
      m < snapshots.length → snapshots.length - min snapshots.length n_pod_vectors ≤ n →
      n < snapshots.length →
      ∑ i in Finset.range snapshots.length,
          ((solver c.correlation_matrix c.identity).eigenvectors.getD m []).getD i 0
          * ((solver c.correlation_matrix c.identity).eigenvectors.getD n []).getD i 0
        = if m = n then 1 else 0) :
    ∃ b, method_of_snapshots cmath solver (identity_matrix D) snapshots n_pod_vectors
        center_trajectory pod_basis = .ok b
      ∧ ∀ i j, i < min snapshots.length n_pod_vectors → j < min snapshots.length n_pod_vectors →
          BlockVector.dot (b.vectors.getD i []) (b.vectors.getD j [])
            = .ok (if i = j then 1 else 0) := by
  obtain ⟨h1, h2, h3⟩ := hsized
  have hmean : Shaped B D (mean_of snapshots B D) :=
    Shaped.accumulate _ snapshots _ (Shaped.zero B D) hs
  have hw := Shaped.working_snapshots center_trajectory snapshots _ hmean hs
  have hlen := length_working_snapshots center_trajectory snapshots (mean_of snapshots B D)
  have hc' := build_correlation_matrix_ok (B := B) (D := D) (identity_matrix D) rfl rfl
    snapshots hne hB hs center_trajectory pod_basis
  rw [hc] at hc'
  have hcm : c.correlation_matrix.el = correlation_entries (identity_matrix D)
      (working_snapshots center_trajectory snapshots (mean_of snapshots B D))
      snapshots.length := by
    rw [Except.ok.inj hc']
  refine ⟨_, method_of_snapshots_ok (B := B) (D := D) cmath solver (identity_matrix D) rfl rfl
    snapshots hne hB hs n_pod_vectors center_trajectory pod_basis c hc ⟨h1, h2, h3⟩ hreal
    (finiteFactors_of_pos cmath _ _ _ h1 hpos hsqrt), ?_⟩
  intro i j hi hj
  have hi' : i < snapshots.length := lt_of_lt_of_le hi (min_le_left _ _)
  have hj' : j < snapshots.length := lt_of_lt_of_le hj (min_le_left _ _)
  have hmin : min snapshots.length n_pod_vectors ≤ snapshots.length := min_le_left _ _
  have hri : snapshots.length - min snapshots.length n_pod_vectors
      ≤ snapshots.length - 1 - i := by omega
  have hrj : snapshots.length - min snapshots.length n_pod_vectors
      ≤ snapshots.length - 1 - j := by omega
  have hli : snapshots.length - 1 - i < snapshots.length := by omega
  have hlj : snapshots.length - 1 - j < snapshots.length := by omega
  have hvec : ∀ k, k < min snapshots.length n_pod_vectors →
      (pod_vectors_of cmath (solver c.correlation_matrix c.identity)
        (working_snapshots center_trajectory snapshots (mean_of snapshots B D)) B D
        (min snapshots.length n_pod_vectors)).getD k []
      = pod_vector cmath ((solver c.correlation_matrix c.identity).eigenvectors.getD
          (snapshots.length - 1 - k) [])
        (cmath.sqrt ((solver c.correlation_matrix c.identity).eigenvalues.getD
          (snapshots.length - 1 - k) (0, 0)).1)
        (working_snapshots center_trajectory snapshots (mean_of snapshots B D)) B D := by
    intro k hk
    have hk' : k < snapshots.length := lt_of_lt_of_le hk (min_le_left _ _)
    have hsv := getD_singular_values_of cmath (solver c.correlation_matrix c.identity) k
      (by rw [h1]; exact hk')
    rw [h1] at hsv
    rw [getD_pod_vectors_of _ _ _ _ _ _ _ hk, getD_reverse _ _ _ (by rw [h2]; exact hk'), h2, hsv]
  have hel : ∀ m, m < snapshots.length →
      (working_snapshots center_trajectory snapshots (mean_of snapshots B D)).length
        ≤ ((solver c.correlation_matrix c.identity).eigenvectors.getD m []).length := by
    intro m hm
    rw [hlen, getD_of_lt _ _ _ (by rw [h2]; exact hm), h3 _ (List.get_mem _ _ _)]
  simp only [hvec i hi, hvec j hj]
  rw [BlockVector.dot_shaped _ _ (Shaped.pod_vector cmath _ _ _ hw)
    (Shaped.pod_vector cmath _ _ _ hw)]
  congr 1
  rw [inner_pod_vector cmath hnan _ hw _ _ (hel _ hli) (hel _ hlj), hlen]
  have hinner : ∀ a, a < snapshots.length →
      ∑ b in Finset.range snapshots.length,
        (∑ blk in Finset.range B, ∑ d in Finset.range D,
          entry ((working_snapshots center_trajectory snapshots
            (mean_of snapshots B D)).getD a []) blk d
          * entry ((working_snapshots center_trajectory snapshots
            (mean_of snapshots B D)).getD b []) blk d)
        * ((solver c.correlation_matrix c.identity).eigenvectors.getD
            (snapshots.length - 1 - j) []).getD b 0
      = ((solver c.correlation_matrix c.identity).eigenvalues.getD
            (snapshots.length - 1 - j) (0, 0)).1
        * ((solver c.correlation_matrix c.identity).eigenvectors.getD
            (snapshots.length - 1 - j) []).getD a 0 := by
    intro a ha
    rw [← heig _ hrj hlj a ha]
    apply Finset.sum_congr rfl
    intro b hb
    have := correlation_entries_identity_matrix _ hw a b (by rw [hlen]; exact ha)
      (by rw [hlen]; exact Finset.mem_range.mp hb)
    rw [hlen] at this
    rw [hcm, this]
  rw [Finset.sum_congr rfl (fun a ha => by rw [hinner a (Finset.mem_range.mp ha)])]
  have hfact : ∀ a, ((solver c.correlation_matrix c.identity).eigenvectors.getD
        (snapshots.length - 1 - i) []).getD a 0
      * (((solver c.correlation_matrix c.identity).eigenvalues.getD
          (snapshots.length - 1 - j) (0, 0)).1
        * ((solver c.correlation_matrix c.identity).eigenvectors.getD
          (snapshots.length - 1 - j) []).getD a 0)
      = ((solver c.correlation_matrix c.identity).eigenvalues.getD
          (snapshots.length - 1 - j) (0, 0)).1
        * (((solver c.correlation_matrix c.identity).eigenvectors.getD
          (snapshots.length - 1 - i) []).getD a 0
          * ((solver c.correlation_matrix c.identity).eigenvectors.getD
          (snapshots.length - 1 - j) []).getD a 0) := fun a => by ring
  simp only [hfact]
  rw [← Finset.mul_sum, horth _ _ hri hli hrj hlj]
  by_cases hij : i = j
  · subst hij
    have hne0 : cmath.sqrt ((solver c.correlation_matrix c.identity).eigenvalues.getD
        (snapshots.length - 1 - i) (0, 0)).1 ≠ 0 := by
      intro h0
      have := hsqrt _ hri hli
      rw [h0, mul_zero] at this
      exact absurd this.symm (ne_of_gt (hpos _ hri hli))
    rw [if_pos rfl, if_pos rfl, mul_one]
    have key : ∀ σ ev : K, σ * σ = ev → σ ≠ 0 → 1 / σ * (1 / σ) * ev = 1 := by
      intro σ ev h hσ
      rw [← h]
      field_simp
    exact key _ _ (hsqrt _ hri hli) hne0
  · have hne' : snapshots.length - 1 - i ≠ snapshots.length - 1 - j := by omega
    rw [if_neg hne', if_neg hij, mul_zero, mul_zero]

/-- Witness for C6: the snapshots `[1, 0]` and `[0, 2]` give the correlation matrix
`diag(1, 4)`; both POD vectors are retained and they are orthonormal. -/
theorem method_of_snapshots_orthonormal_witness :
    ∃ b, method_of_snapshots cmath_exact diagonal_solver (identity_matrix 2)
        [[[1, 0]], [[0, 2]]] 2 false empty_basis = .ok b
      ∧ ∀ i j, i < 2 → j < 2 →
          BlockVector.dot (b.vectors.getD i []) (b.vectors.getD j [])
            = .ok (if i = j then 1 else 0) :=
  method_of_snapshots_orthonormal (B := 1) (D := 2) cmath_exact diagonal_solver
    [[[1, 0]], [[0, 2]]] (by simp) (by decide) (by simp [Shaped]) 2 false empty_basis
    diagonal_example diagonal_example_built (diagonal_solver_sized _ _)
    (diagonal_solver_isReal _ _) (fun _ => rfl)
    (by
      show ∀ m, 2 - min 2 2 ≤ m → m < 2 → (0 : ℚ) <
        ((diagonal_solver diagonal_example.correlation_matrix
          diagonal_example.identity).eigenvalues.getD m ((0 : ℚ), (0 : ℚ))).1
      rw [diagonal_example_eigenvalues]
      intro m _ hm
      interval_cases m <;> norm_num)
    (by
      show ∀ m, 2 - min 2 2 ≤ m → m < 2 →
        cmath_exact.sqrt ((diagonal_solver diagonal_example.correlation_matrix
            diagonal_example.identity).eigenvalues.getD m ((0 : ℚ), (0 : ℚ))).1
          * cmath_exact.sqrt ((diagonal_solver diagonal_example.correlation_matrix
            diagonal_example.identity).eigenvalues.getD m ((0 : ℚ), (0 : ℚ))).1
          = ((diagonal_solver diagonal_example.correlation_matrix
            diagonal_example.identity).eigenvalues.getD m ((0 : ℚ), (0 : ℚ))).1
      rw [diagonal_example_eigenvalues]
      intro m _ hm
      interval_cases m <;> norm_num [cmath_exact])
    (by
      show ∀ m, 2 - min 2 2 ≤ m → m < 2 → ∀ i, i < 2 →
        ∑ j in Finset.range 2, diagonal_example.correlation_matrix.el i j
            * ((diagonal_solver diagonal_example.correlation_matrix
                diagonal_example.identity).eigenvectors.getD m []).getD j (0 : ℚ)
          = ((diagonal_solver diagonal_example.correlation_matrix
              diagonal_example.identity).eigenvalues.getD m ((0 : ℚ), (0 : ℚ))).1
            * ((diagonal_solver diagonal_example.correlation_matrix
                diagonal_example.identity).eigenvectors.getD m []).getD i (0 : ℚ)
      rw [diagonal_example_eigenvalues, diagonal_example_eigenvectors]
      obtain ⟨h00, h01, h10, h11⟩ := diagonal_example_entries
      intro m _ hm i hi
      interval_cases m <;> interval_cases i <;>
        simp [Finset.sum_range_succ, h00, h01, h10, h11])
    (by
      show ∀ m n, 2 - min 2 2 ≤ m → m < 2 → 2 - min 2 2 ≤ n → n < 2 →
        ∑ i in Finset.range 2,
            ((diagonal_solver diagonal_example.correlation_matrix
                diagonal_example.identity).eigenvectors.getD m []).getD i (0 : ℚ)
            * ((diagonal_solver diagonal_example.correlation_matrix
                diagonal_example.identity).eigenvectors.getD n []).getD i (0 : ℚ)
          = if m = n then 1 else 0
      rw [diagonal_example_eigenvectors]
      intro m n _ hm _ hn
      interval_cases m <;> interval_cases n <;> simp [Finset.sum_range_succ])

end OrderedClaims

/-! ## Failure, shape, positivity, degenerate input and projection -/

section MoreLemmas
variable {K : Type} [Field K]

theorem mapM_error {α β : Type} (f : α → Except Exc β) (e : Exc) (l : List α)
    (hall : ∀ x ∈ l, (∃ y, f x = .ok y) ∨ f x = .error e)
    (hex : ∃ x ∈ l, f x = .error e) : l.mapM f = .error e := by
  induction l with
  | nil =>
    obtain ⟨x, hx, _⟩ := hex
    simp at hx
  | cons a l ih =>
    rw [List.mapM_cons]
    rcases hall a (List.mem_cons_self a l) with ⟨y, hy⟩ | ha
    · obtain ⟨x, hx, hfx⟩ := hex
      have hxl : x ∈ l := by
        rcases List.mem_cons.mp hx with rfl | h
        · rw [hy] at hfx; cases hfx
        · exact h
      rw [hy, ih (fun z hz => hall z (List.mem_cons_of_mem a hz)) ⟨x, hxl, hfx⟩]
      rfl
    · rw [ha]
      rfl

theorem compute_singular_values_error [DecidableEq K] (cmath : CMath K)
    (eigenvalues : List (K × K)) (hcomplex : ∃ ev ∈ eigenvalues, ev.2 ≠ 0) :
    compute_singular_values cmath eigenvalues eigenvalues.length
      = .error .ExcInternalError := by
  unfold compute_singular_values
  apply mapM_error
  · intro i hi
    have h3 : i < eigenvalues.length := by simpa using hi
    simp only [index_ok _ i h3, bind, Except.bind]
    by_cases h : (eigenvalues.get ⟨i, h3⟩).2 = 0
    · left
      exact ⟨cmath.sqrt (eigenvalues.get ⟨i, h3⟩).1, by rw [if_pos h]; rfl⟩
    · right
      rw [if_neg h]
  · obtain ⟨ev, hev, hne⟩ := hcomplex
    obtain ⟨i, hi, rfl⟩ := List.getElem_of_mem hev
    refine ⟨i, by simpa using hi, ?_⟩
    simp only [index_ok _ i hi, bind, Except.bind, List.get_eq_getElem]
    rw [if_neg hne]

theorem method_of_snapshots_error [DecidableEq K] (cmath : CMath K)
    (solver : EigenSolver K) (mass_matrix : SparseMatrix K)
    (snapshots : List (BlockVector K))
    (n_pod_vectors : Nat) (center_trajectory : Bool) (pod_basis : BlockPODBasis K)
    (c : Correlated K)
    (hc : build_correlation_matrix mass_matrix snapshots center_trajectory pod_basis = .ok c)
    (hlen : (solver c.correlation_matrix c.identity).eigenvalues.length = snapshots.length)
    (hcomplex : ∃ ev ∈ (solver c.correlation_matrix c.identity).eigenvalues, ev.2 ≠ 0) :
    method_of_snapshots cmath solver mass_matrix snapshots n_pod_vectors center_trajectory
      pod_basis = .error .ExcInternalError := by
  have h := compute_singular_values_error cmath _ hcomplex
  rw [hlen] at h
  unfold method_of_snapshots
  simp only [hc, bind, Except.bind, build_pod_vectors, h]

end MoreLemmas

section MoreClaims
variable {K : Type} [Field K] [DecidableEq K]

/-- For `N ≥ 1` snapshots of one shape, a mass matrix of matching size and an eigensolver that
returns `N` eigenpairs, `method_of_snapshots` fails with `ExcInternalError` if and only if one
of the `N` eigenvalues has a non-zero imaginary part. -/
theorem method_of_snapshots_internal_error_iff {B D : Nat} (cmath : CMath K)
    (solver : EigenSolver K) (mass_matrix : SparseMatrix K)
    (hm : mass_matrix.m = D) (hn : mass_matrix.n = D) (snapshots : List (BlockVector K))
    (hne : snapshots ≠ []) (hB : 0 < B) (hs : ∀ s ∈ snapshots, Shaped B D s)
    (n_pod_vectors : Nat) (center_trajectory : Bool) (pod_basis : BlockPODBasis K)
    (c : Correlated K)
    (hc : build_correlation_matrix mass_matrix snapshots center_trajectory pod_basis = .ok c)
    (hsized : (solver c.correlation_matrix c.identity).Sized snapshots.length) :
    method_of_snapshots cmath solver mass_matrix snapshots n_pod_vectors
        center_trajectory pod_basis = .error .ExcInternalError
      ↔ ∃ ev ∈ (solver c.correlation_matrix c.identity).eigenvalues, ev.2 ≠ 0 := by
  refine ⟨?_, method_of_snapshots_error cmath solver mass_matrix snapshots
    n_pod_vectors center_trajectory pod_basis c hc hsized.1⟩
  intro he
  by_contra hno
  have hreal : ∀ ev ∈ (solver c.correlation_matrix c.identity).eigenvalues, ev.2 = 0 := by
    intro ev hev
    by_contra hne'
    exact hno ⟨ev, hev, hne'⟩
  by_cases hfinite : FiniteFactors cmath
      (singular_values_of cmath (solver c.correlation_matrix c.identity))
      (min snapshots.length n_pod_vectors)
  · rw [method_of_snapshots_ok cmath solver mass_matrix hm hn snapshots hne hB hs
      n_pod_vectors center_trajectory pod_basis c hc hsized hreal hfinite] at he
    cases he
  · unfold FiniteFactors at hfinite
    push_neg at hfinite
    obtain ⟨k, hk, hnan, hzero⟩ := hfinite
    rw [method_of_snapshots_not_finite cmath solver mass_matrix hm hn snapshots hne hB hs
      n_pod_vectors center_trajectory pod_basis c hc hsized hreal k hk hnan hzero] at he
    cases he

/-- C13, the code at the failing input: the single snapshot `[3]` with centring, the identity as
mass matrix and `r = 1`.  The correlation matrix is `(0)`, its only eigenvalue is the real
number `0`, the singular value is `0`, and the normalisation loop multiplies by `1.0/0`: the
build fails with `ExcNumberNotFinite`. -/
theorem real_zero_eigenvalue_not_finite :
    ∃ c, build_correlation_matrix (identity_matrix 1) [[[3]]] true empty_basis = .ok c
      ∧ (diagonal_solver c.correlation_matrix c.identity).eigenvalues = [((0 : ℚ), (0 : ℚ))]
      ∧ method_of_snapshots cmath_exact diagonal_solver (identity_matrix 1) [[[3]]] 1 true
          empty_basis = .error .ExcNumberNotFinite := by
  have hev : (diagonal_solver
      (⟨1, 1, correlation_entries (identity_matrix 1)
        (working_snapshots true [[[3]]] (mean_of [[[3]]] 1 1)) 1⟩ : LAPACKFullMatrix ℚ)
      ⟨1, 1, identity_entries 1⟩).eigenvalues = [((0 : ℚ), (0 : ℚ))] := by
    simp [diagonal_solver, correlation_entries, gram, working_snapshots, mean_of, accumulate,
      BlockVector.axpy, Vector.axpy, BlockVector.zero, BlockVector.inner, Vector.inner,
      SparseMatrix.apply, identity_matrix, List.range_succ]
  refine ⟨_, build_correlation_matrix_ok (B := 1) (D := 1) (identity_matrix 1) rfl rfl
    [[[3]]] (by simp) (by decide) (by simp [Shaped]) true empty_basis, hev, ?_⟩
  exact method_of_snapshots_not_finite (B := 1) (D := 1) cmath_exact diagonal_solver
    (identity_matrix 1) rfl rfl [[[3]]] (by simp) (by decide) (by simp [Shaped]) 1 true
    empty_basis _
    (build_correlation_matrix_ok (B := 1) (D := 1) (identity_matrix 1) rfl rfl
      [[[3]]] (by simp) (by decide) (by simp [Shaped]) true empty_basis)
    (diagonal_solver_sized _ _) (diagonal_solver_isReal _ _) 0 (by decide) rfl
    (by
      unfold singular_values_of
      simp only [List.length_cons, List.length_nil]
      rw [hev]
      simp [cmath_exact])

end MoreClaims

section ShapeLemmas
variable {K : Type} [Field K]

theorem Vector.add_error (this : Vector K) (a : K) (V : Vector K)
    (h : this.length ≠ V.length) : Vector.add this a V = .error .ExcDimensionMismatch := by
  simp [Vector.add, h]

theorem BlockVector.add_block_error {B D : Nat} (this : BlockVector K) (a : K) (V : BlockVector K)
    (h1 : Shaped B D this) (hlen : V.length = B) (hbad : ∃ b ∈ V, b.length ≠ D) :
    BlockVector.add this a V = .error .ExcDimensionMismatch := by
  unfold BlockVector.add
  rw [if_pos (by rw [h1.1, hlen])]
  apply mapM_error
  · intro p _
    by_cases h : p.1.length = p.2.length
    · left
      exact ⟨_, Vector.add_ok p.1 a p.2 h⟩
    · right
      exact Vector.add_error p.1 a p.2 h
  · obtain ⟨b, hb, hne⟩ := hbad
    obtain ⟨i, hi, rfl⟩ := List.getElem_of_mem hb
    have hi' : i < this.length := by rw [h1.1, ← hlen]; exact hi
    refine ⟨(this[i], V[i]), ?_, ?_⟩
    · rw [List.mem_iff_getElem]
      exact ⟨i, by simp [hi, hi'], by simp⟩
    · apply Vector.add_error
      rw [h1.2 _ (List.getElem_mem _)]
      exact fun h => hne h.symm

theorem foldlM_error {α β : Type} (f : β → α → Except Exc β) (l : List α) (b : β) (a : α)
    (e : Exc) (h : f b a = .error e) : (a :: l).foldlM f b = .error e := by
  rw [List.foldlM_cons, h]
  rfl

theorem load_snapshot_error {B D : Nat} (w : K) (st : LoadState K)
    (block_vector : BlockVector K) (hinit : st.pod_basis_initialized = true)
    (hnb : st.n_blocks = B) (hmean : Shaped B D st.pod_basis.mean_vector)
    (hbad : ¬ Shaped B D block_vector) :
    ∃ e, load_snapshot w st block_vector = .error e := by
  unfold load_snapshot
  simp only [hinit, Bool.not_true, Bool.false_eq_true, if_false, pure, Except.pure, bind,
    Except.bind, hnb]
  by_cases hlen : block_vector.length = B
  · rw [if_pos hlen]
    have hex : ∃ b ∈ block_vector, b.length ≠ D := by
      by_contra hno
      apply hbad
      refine ⟨hlen, fun b hb => ?_⟩
      by_contra hne
      exact hno ⟨b, hb, hne⟩
    rw [BlockVector.add_block_error _ w _ hmean hlen hex]
    exact ⟨_, rfl⟩
  · rw [if_neg hlen]
    exact ⟨_, rfl⟩

theorem foldlM_load_snapshot_error {B D : Nat} (w : K) (snapshots : List (BlockVector K))
    (st : LoadState K) (hinit : st.pod_basis_initialized = true)
    (hnb : st.n_blocks = B) (hmean : Shaped B D st.pod_basis.mean_vector)
    (hbad : ∃ s ∈ snapshots, ¬ Shaped B D s) :
    ∃ e, snapshots.foldlM (load_snapshot w) st = .error e := by
  induction snapshots generalizing st with
  | nil =>
    obtain ⟨s, hs, _⟩ := hbad
    simp at hs
  | cons s l ih =>
    by_cases hsh : Shaped B D s
    · rw [List.foldlM_cons, load_snapshot_initialized w st s hinit hnb hmean hsh]
      obtain ⟨x, hx, hxbad⟩ := hbad
      have hxl : x ∈ l := by
        rcases List.mem_cons.mp hx with rfl | h
        · exact absurd hsh hxbad
        · exact h
      exact ih { st with
                 pod_basis := { st.pod_basis with
                                mean_vector := BlockVector.axpy st.pod_basis.mean_vector w s }
                 snapshots := st.snapshots ++ [s] } hinit hnb (hmean.axpy w hsh)
        ⟨x, hxl, hxbad⟩
    · obtain ⟨e, he⟩ := load_snapshot_error w st s hinit hnb hmean hsh
      exact ⟨e, foldlM_error _ l st s e he⟩

theorem load_snapshot_first_error (w : K) (st : LoadState K)
    (block_vector : BlockVector K) (hinit : st.pod_basis_initialized = false)
    (hbad : ¬ Shaped block_vector.length (block_vector.getD 0 []).length block_vector) :
    ∃ e, load_snapshot w st block_vector = .error e := by
  unfold load_snapshot
  simp only [hinit, Bool.not_false, if_true]
  by_cases h0 : 0 < block_vector.length
  · have hg : block_vector.getD 0 [] = block_vector.get ⟨0, h0⟩ := getD_of_lt _ 0 [] h0
    simp only [if_pos h0, BlockVector.block, index_ok _ 0 h0, bind, Except.bind, pure,
      Except.pure, BlockPODBasis.reinit, if_true]
    have hex : ∃ b ∈ block_vector, b.length ≠ (block_vector.get ⟨0, h0⟩).length := by
      by_contra hno
      apply hbad
      refine ⟨rfl, fun b hb => ?_⟩
      by_contra hne
      rw [hg] at hne
      exact hno ⟨b, hb, hne⟩
    rw [BlockVector.add_block_error _ w _ (Shaped.zero _ _) rfl hex]
    exact ⟨_, rfl⟩
  · simp only [if_neg h0, bind, Except.bind]
    exact ⟨_, rfl⟩

/-- The loop over the snapshot files fails when a snapshot does not have the block count and
block size of the first one. -/
theorem foldlM_load_snapshot_mismatch (w : K) (first : BlockVector K)
    (rest : List (BlockVector K)) (pod_basis : BlockPODBasis K)
    (hbad : ∃ s ∈ first :: rest, ¬ Shaped first.length (first.getD 0 []).length s) :
    ∃ e, (first :: rest).foldlM (load_snapshot w)
      { pod_basis := pod_basis, snapshots := [], pod_basis_initialized := false,
        n_dofs_per_block := 0, n_blocks := 0 } = .error e := by
  by_cases hsh : Shaped first.length (first.getD 0 []).length first
  · by_cases h0 : 0 < first.length
    · rw [List.foldlM_cons, load_snapshot_first w _ first rfl h0 hsh]
      obtain ⟨x, hx, hxbad⟩ := hbad
      have hxl : x ∈ rest := by
        rcases List.mem_cons.mp hx with rfl | h
        · exact absurd hsh hxbad
        · exact h
      exact foldlM_load_snapshot_error w rest _ rfl rfl
        ((Shaped.zero _ _).axpy w hsh) ⟨x, hxl, hxbad⟩
    · have hstep : load_snapshot w
          { pod_basis := pod_basis, snapshots := [], pod_basis_initialized := false,
            n_dofs_per_block := 0, n_blocks := 0 } first = .error .ExcInternalError := by
        unfold load_snapshot
        simp [h0, bind, Except.bind]
      exact ⟨_, foldlM_error _ rest _ first _ hstep⟩
  · obtain ⟨e, he⟩ := load_snapshot_first_error w
      { pod_basis := pod_basis, snapshots := [], pod_basis_initialized := false,
        n_dofs_per_block := 0, n_blocks := 0 } first rfl hsh
    exact ⟨e, foldlM_error _ rest _ first e he⟩

theorem map_length_of_shaped {B D : Nat} (s : BlockVector K) (h : Shaped B D s) :
    s.map List.length = List.replicate B D := by
  rw [List.eq_replicate_iff]
  refine ⟨by simpa using h.1, ?_⟩
  intro x hx
  obtain ⟨b, hb, rfl⟩ := List.mem_map.mp hx
  exact h.2 b hb

end ShapeLemmas

section ShapeClaims
variable {K : Type} [Field K] [DecidableEq K]

/-- C14: when the block count or the size of a block of some snapshot differs from that of the
first snapshot, `method_of_snapshots` fails and returns no basis, whatever the mass matrix, the
eigensolver, the requested rank and the centring flag are. -/
theorem method_of_snapshots_shape_mismatch (cmath : CMath K) (solver : EigenSolver K)
    (mass_matrix : SparseMatrix K) (first : BlockVector K) (rest : List (BlockVector K))
    (n_pod_vectors : Nat) (center_trajectory : Bool) (pod_basis : BlockPODBasis K)
    (hdiff : ∃ s ∈ first :: rest, s.map List.length ≠ first.map List.length) :
    ∃ e, method_of_snapshots cmath solver mass_matrix (first :: rest) n_pod_vectors
      center_trajectory pod_basis = .error e := by
  have hbad : ∃ s ∈ first :: rest, ¬ Shaped first.length (first.getD 0 []).length s := by
    by_contra hno
    obtain ⟨s, hs, hne⟩ := hdiff
    apply hne
    have hall : ∀ x ∈ first :: rest, Shaped first.length (first.getD 0 []).length x := by
      intro x hx
      by_contra hx'
      exact hno ⟨x, hx, hx'⟩
    rw [map_length_of_shaped s (hall s hs),
      map_length_of_shaped first (hall first (List.mem_cons_self _ _))]
  obtain ⟨e, he⟩ := foldlM_load_snapshot_mismatch
    (1 / (((first :: rest).length : Nat) : K)) first rest pod_basis hbad
  refine ⟨e, ?_⟩
  unfold method_of_snapshots build_correlation_matrix
  simp only [he, bind, Except.bind]

/-- Witness for C14: the second snapshot has three entries where the first has four. -/
theorem method_of_snapshots_shape_mismatch_witness :
    ∃ e, method_of_snapshots cmath_exact diagonal_solver (identity_matrix 4)
      [[[1, 0, 0, 0]], [[0, 1, 0]], [[0, 0, 1, 0]]] 2 true empty_basis = .error e :=
  method_of_snapshots_shape_mismatch cmath_exact diagonal_solver (identity_matrix 4)
    [[1, 0, 0, 0]] [[[0, 1, 0]], [[0, 0, 1, 0]]] 2 true empty_basis
    ⟨[[0, 1, 0]], by simp, by simp⟩

end ShapeClaims

section FormLemmas
variable {K : Type} [Field K]

theorem bilinear_expansion {ι : Type} (S : Finset ι) (N : Nat) (U V : Nat → ι → K)
    (e f : Nat → K) (s t : K) :
    ∑ x in S, (s * ∑ a in Finset.range N, e a * U a x) * (t * ∑ b in Finset.range N, f b * V b x)
      = s * t * ∑ a in Finset.range N, e a * ∑ b in Finset.range N,
          (∑ x in S, U a x * V b x) * f b := by
  have h1 : ∀ x, (s * ∑ a in Finset.range N, e a * U a x)
      * (t * ∑ b in Finset.range N, f b * V b x)
      = ∑ a in Finset.range N, ∑ b in Finset.range N,
          s * t * (e a * f b * (U a x * V b x)) := by
    intro x
    rw [mul_mul_mul_comm, Finset.sum_mul_sum, Finset.mul_sum]
    apply Finset.sum_congr rfl
    intro a _
    rw [Finset.mul_sum]
    apply Finset.sum_congr rfl
    intro b _
    ring
  have h2 : ∀ a, e a * ∑ b in Finset.range N, (∑ x in S, U a x * V b x) * f b
      = ∑ b in Finset.range N, ∑ x in S, e a * f b * (U a x * V b x) := by
    intro a
    rw [Finset.mul_sum]
    apply Finset.sum_congr rfl
    intro b _
    rw [Finset.sum_mul, Finset.mul_sum]
    apply Finset.sum_congr rfl
    intro x _
    ring
  simp only [h1]
  simp only [h2, Finset.mul_sum]
  rw [Finset.sum_comm]
  exact Finset.sum_congr rfl (fun _ _ => Finset.sum_comm)

theorem weighted_eq_sum_product (M : SparseMatrix K) (B : Nat) (u v : BlockVector K) :
    weighted M B u v
      = ∑ x in Finset.range B ×ˢ (Finset.range M.m ×ˢ Finset.range M.n),
          entry u x.1 x.2.1 * (M.el x.2.1 x.2.2 * entry v x.1 x.2.2) := by
  unfold weighted
  rw [Finset.sum_product]
  apply Finset.sum_congr rfl
  intro blk _
  rw [Finset.sum_product]

theorem getD_map_of_lt {α β : Type} (f : α → β) (l : List α) (i : Nat) (a0 : α) (b0 : β)
    (h : i < l.length) : (l.map f).getD i b0 = f (l.getD i a0) := by
  simp [List.getElem?_eq_getElem h]

theorem Shaped.map_apply {B D : Nat} (M : SparseMatrix K) (hm : M.m = D) {u : BlockVector K}
    (hu : Shaped B D u) : Shaped B D (u.map M.apply) := by
  constructor
  · simpa using hu.1
  · intro b hb
    obtain ⟨x, _, rfl⟩ := List.mem_map.mp hb
    rw [SparseMatrix.length_apply, hm]

theorem inner_map_apply {B D : Nat} (M : SparseMatrix K) (hm : M.m = D) (hn : M.n = D)
    (u v : BlockVector K) (hu : Shaped B D u) (hv : Shaped B D v) :
    BlockVector.inner (u.map M.apply) v = weighted M B v u := by
  rw [BlockVector.inner_eq_sum_entries _ _ (hu.map_apply M hm) hv]
  unfold weighted
  apply Finset.sum_congr rfl
  intro blk hblk
  have hblk' : blk < u.length := by rw [hu.1]; exact Finset.mem_range.mp hblk
  rw [hm, hn]
  apply Finset.sum_congr rfl
  intro d hd
  have hd' : d < M.m := by rw [hm]; exact Finset.mem_range.mp hd
  have : entry (u.map M.apply) blk d
      = ∑ e in Finset.range D, M.el d e * entry u blk e := by
    unfold entry
    rw [getD_map_of_lt M.apply u blk [] [] hblk', SparseMatrix.getD_apply M _ d hd', hn]
  rw [this, Finset.sum_mul, ]
  apply Finset.sum_congr rfl
  intro e _
  ring

theorem Shaped.getD {B D : Nat} (snapshots : List (BlockVector K))
    (hs : ∀ s ∈ snapshots, Shaped B D s) (a : Nat) (ha : a < snapshots.length) :
    Shaped B D (snapshots.getD a []) := by
  rw [getD_of_lt snapshots a [] ha]
  exact hs _ (List.get_mem _ _ _)

theorem gram_eq_weighted {B D : Nat} (M : SparseMatrix K) (hm : M.m = D) (hn : M.n = D)
    (snapshots : List (BlockVector K)) (hs : ∀ s ∈ snapshots, Shaped B D s) (a b : Nat)
    (ha : a < snapshots.length) (hb : b < snapshots.length) :
    gram M snapshots a b = weighted M B (snapshots.getD b []) (snapshots.getD a []) :=
  inner_map_apply M hm hn _ _ (Shaped.getD snapshots hs a ha) (Shaped.getD snapshots hs b hb)

theorem weighted_symm (M : SparseMatrix K) (hsymm : M.Symmetric) (B : Nat)
    (u v : BlockVector K) : weighted M B u v = weighted M B v u := by
  unfold weighted
  apply Finset.sum_congr rfl
  intro blk _
  rw [← hsymm.1, Finset.sum_comm]
  apply Finset.sum_congr rfl
  intro d hd
  apply Finset.sum_congr rfl
  intro e he
  rw [hsymm.2 e d (Finset.mem_range.mp he) (Finset.mem_range.mp hd)]
  ring

theorem correlation_entries_eq_weighted {B D : Nat} (M : SparseMatrix K) (hm : M.m = D)
    (hn : M.n = D) (hsymm : M.Symmetric) (snapshots : List (BlockVector K))
    (hs : ∀ s ∈ snapshots, Shaped B D s) (a b : Nat)
    (ha : a < snapshots.length) (hb : b < snapshots.length) :
    correlation_entries M snapshots snapshots.length a b
      = weighted M B (snapshots.getD a []) (snapshots.getD b []) := by
  unfold correlation_entries
  rw [if_pos ⟨ha, hb⟩]
  split_ifs
  · rw [gram_eq_weighted M hm hn snapshots hs a b ha hb, weighted_symm M hsymm]
  · rw [gram_eq_weighted M hm hn snapshots hs b a hb ha]

theorem correlation_entries_eq_gram {B D : Nat} (M : SparseMatrix K) (hm : M.m = D)
    (hn : M.n = D) (hsymm : M.Symmetric) (snapshots : List (BlockVector K))
    (hs : ∀ s ∈ snapshots, Shaped B D s) (a b : Nat)
    (ha : a < snapshots.length) (hb : b < snapshots.length) :
    correlation_entries M snapshots snapshots.length a b = gram M snapshots a b := by
  rw [correlation_entries_eq_weighted M hm hn hsymm snapshots hs a b ha hb,
    gram_eq_weighted M hm hn snapshots hs a b ha hb, weighted_symm M hsymm]

theorem correlation_entries_symm (M : SparseMatrix K) (snapshots : List (BlockVector K))
    (n a b : Nat) :
    correlation_entries M snapshots n a b = correlation_entries M snapshots n b a := by
  unfold correlation_entries
  by_cases h : a < n ∧ b < n
  · have h' : b < n ∧ a < n := ⟨h.2, h.1⟩
    simp only [if_pos h, if_pos h']
    by_cases hab : a = b
    · subst hab; rfl
    · by_cases hlt : b ≤ a
      · have hnot : ¬ a ≤ b := by omega
        simp only [if_pos hlt, if_neg hnot]
      · have hle : a ≤ b := by omega
        simp only [if_neg hlt, if_pos hle]
  · have h' : ¬ (b < n ∧ a < n) := fun hc => h ⟨hc.2, hc.1⟩
    simp only [if_neg h, if_neg h']

theorem BlockVector.inner_eq_sum_blocks {B D : Nat} (u v : BlockVector K) (hu : Shaped B D u)
    (hv : Shaped B D v) :
    BlockVector.inner u v
      = ((List.range B).map (fun b => Vector.inner (u.getD b []) (v.getD b []))).sum := by
  unfold BlockVector.inner
  rw [sum_zipWith_range Vector.inner [] [] u v B hu.1 hv.1, sum_map_range]

end FormLemmas

section EntryLemmas
variable {K : Type} [Field K]

theorem identity_matrix_symmetric (n : Nat) : (identity_matrix n : SparseMatrix K).Symmetric := by
  refine ⟨rfl, fun i j _ _ => ?_⟩
  by_cases h : i = j
  · subst h; rfl
  · have h' : ¬ j = i := fun e => h e.symm
    simp [identity_matrix, h, h']

theorem getD_working_snapshots (center_trajectory : Bool) (snapshots : List (BlockVector K))
    (mean_vector : BlockVector K) (i : Nat) (hi : i < snapshots.length) :
    (working_snapshots center_trajectory snapshots mean_vector).getD i []
      = if center_trajectory then BlockVector.axpy (snapshots.getD i []) (-1) mean_vector
        else snapshots.getD i [] := by
  cases center_trajectory with
  | false => simp [working_snapshots]
  | true => simp [working_snapshots, List.getElem?_eq_getElem hi]

theorem entry_mean_of {B D : Nat} (snapshots : List (BlockVector K))
    (hs : ∀ s ∈ snapshots, Shaped B D s) (blk d : Nat) :
    entry (mean_of snapshots B D) blk d
      = (1 / (snapshots.length : K))
        * ∑ k in Finset.range snapshots.length, entry (snapshots.getD k []) blk d := by
  rw [mean_of, entry_accumulate _ _ _ (Shaped.zero B D) hs, entry_zero, zero_add]

theorem entry_centered {B D : Nat} (snapshots : List (BlockVector K))
    (hs : ∀ s ∈ snapshots, Shaped B D s) (i : Nat) (hi : i < snapshots.length) (blk d : Nat) :
    entry ((working_snapshots true snapshots (mean_of snapshots B D)).getD i []) blk d
      = entry (snapshots.getD i []) blk d
        - (1 / (snapshots.length : K))
          * ∑ k in Finset.range snapshots.length, entry (snapshots.getD k []) blk d := by
  have hmean : Shaped B D (mean_of snapshots B D) :=
    Shaped.accumulate _ snapshots _ (Shaped.zero B D) hs
  rw [getD_working_snapshots true snapshots _ i hi, if_pos rfl,
    entry_axpy _ _ _ (Shaped.getD snapshots hs i hi) hmean, entry_mean_of snapshots hs]
  ring

end EntryLemmas

section EntryClaims
variable {K : Type} [Field K] [DecidableEq K]

/-- C15: for `N ≥ 1` snapshots of one shape and a symmetric mass matrix `M` of matching size,
lines 33-88 build an `N × N` correlation matrix whose entry `(i, j)` is the sum over the blocks
`b` of `(M * w_i.block(b)) * w_j.block(b)`, where the working snapshot `w_i` is `snapshot_i`
without centring and `snapshot_i - mean` (the mean being the average of the snapshots) with
centring. -/
theorem build_correlation_matrix_entries {B D : Nat} (mass_matrix : SparseMatrix K)
    (hm : mass_matrix.m = D) (hn : mass_matrix.n = D) (hsymm : mass_matrix.Symmetric)
    (snapshots : List (BlockVector K)) (hne : snapshots ≠ []) (hB : 0 < B)
    (hs : ∀ s ∈ snapshots, Shaped B D s) (center_trajectory : Bool)
    (pod_basis : BlockPODBasis K) :
    ∃ c, build_correlation_matrix mass_matrix snapshots center_trajectory pod_basis = .ok c
      ∧ c.correlation_matrix.m = snapshots.length ∧ c.correlation_matrix.n = snapshots.length
      ∧ (∀ i j, i < snapshots.length → j < snapshots.length →
          c.correlation_matrix.el i j = ((List.range B).map (fun b =>
            Vector.inner (mass_matrix.apply ((c.snapshots.getD i []).getD b []))
              ((c.snapshots.getD j []).getD b []))).sum)
      ∧ (center_trajectory = false → c.snapshots = snapshots)
      ∧ (center_trajectory = true → c.snapshots.length = snapshots.length
          ∧ ∀ i, i < snapshots.length → Shaped B D (c.snapshots.getD i [])
            ∧ ∀ blk d, entry (c.snapshots.getD i []) blk d
              = entry (snapshots.getD i []) blk d
                - (1 / (snapshots.length : K))
                  * ∑ k in Finset.range snapshots.length,
                      entry (snapshots.getD k []) blk d) := by
  have hmean : Shaped B D (mean_of snapshots B D) :=
    Shaped.accumulate _ snapshots _ (Shaped.zero B D) hs
  have hw := Shaped.working_snapshots center_trajectory snapshots _ hmean hs
  have hlen := length_working_snapshots center_trajectory snapshots (mean_of snapshots B D)
  refine ⟨_, build_correlation_matrix_ok mass_matrix hm hn snapshots hne hB hs
    center_trajectory pod_basis, rfl, rfl, ?_, ?_, ?_⟩
  · intro i j hi hj
    have hi' : i < (working_snapshots center_trajectory snapshots
        (mean_of snapshots B D)).length := by rw [hlen]; exact hi
    have hj' : j < (working_snapshots center_trajectory snapshots
        (mean_of snapshots B D)).length := by rw [hlen]; exact hj
    have h := correlation_entries_eq_gram mass_matrix hm hn hsymm _ hw i j hi' hj'
    rw [hlen] at h
    show correlation_entries mass_matrix _ snapshots.length i j = _
    rw [h, gram, BlockVector.inner_eq_sum_blocks _ _
      ((Shaped.getD _ hw i hi').map_apply mass_matrix hm) (Shaped.getD _ hw j hj')]
    congr 1
    apply List.map_congr_left
    intro b hb
    have hb' : b < ((working_snapshots center_trajectory snapshots
        (mean_of snapshots B D)).getD i []).length := by
      rw [(Shaped.getD _ hw i hi').1]; simpa using hb
    rw [getD_map_of_lt mass_matrix.apply _ b [] [] hb']
  · intro hcenter
    simp [hcenter, working_snapshots]
  · intro hcenter
    subst hcenter
    refine ⟨hlen, fun i hi => ⟨Shaped.getD _ hw i (by rw [hlen]; exact hi), fun blk d => ?_⟩⟩
    exact entry_centered snapshots hs i hi blk d

/-- Witness for C15: the snapshots `[1,0,0,0]`, `[0,1,0,0]`, `[0,0,1,0]` with the identity as
mass matrix and no centring give the `3 × 3` identity as correlation matrix. -/
theorem build_correlation_matrix_entries_witness :
    ∃ c, build_correlation_matrix (identity_matrix 4 : SparseMatrix ℚ)
        [[[1, 0, 0, 0]], [[0, 1, 0, 0]], [[0, 0, 1, 0]]] false empty_basis = .ok c
      ∧ c.correlation_matrix.m = 3 ∧ c.correlation_matrix.n = 3
      ∧ ∀ i j, i < 3 → j < 3 → c.correlation_matrix.el i j = if i = j then 1 else 0 := by
  obtain ⟨c, hc, hm, hn, hel, hw, _⟩ :=
    build_correlation_matrix_entries (B := 1) (D := 4) (identity_matrix 4 : SparseMatrix ℚ)
      rfl rfl (identity_matrix_symmetric 4) [[[1, 0, 0, 0]], [[0, 1, 0, 0]], [[0, 0, 1, 0]]]
      (by simp) (by decide) (by simp [Shaped]) false empty_basis
  refine ⟨c, hc, hm, hn, ?_⟩
  intro i j hi hj
  rw [hel i j hi hj, hw rfl]
  interval_cases i <;> interval_cases j <;>
    simp [Vector.inner, SparseMatrix.apply, identity_matrix, List.range_succ]

end EntryClaims

section QuadraticLemmas
variable {K : Type} [Field K]

theorem quadratic_form_eq {D : Nat} (M : SparseMatrix K) (hm : M.m = D) (hn : M.n = D)
    (B N : Nat) (W : Nat → BlockVector K) (x y : Nat → K) :
    ∑ a in Finset.range N, x a * ∑ b in Finset.range N, weighted M B (W a) (W b) * y b
      = ∑ blk in Finset.range B,
          Vector.inner
            ((List.range D).map (fun d => ∑ a in Finset.range N, x a * entry (W a) blk d))
            (M.apply
              ((List.range D).map (fun d => ∑ b in Finset.range N, y b * entry (W b) blk d))) := by
  have hz : ∀ (u : Nat → K) (blk d : Nat), d < D →
      ((List.range D).map (fun d => ∑ a in Finset.range N, u a * entry (W a) blk d)).getD d 0
        = ∑ a in Finset.range N, u a * entry (W a) blk d := by
    intro u blk d hd
    rw [getD_of_lt _ d 0 (by simpa using hd)]
    simp
  have hrhs : ∀ blk, Vector.inner
      ((List.range D).map (fun d => ∑ a in Finset.range N, x a * entry (W a) blk d))
      (M.apply ((List.range D).map (fun d => ∑ b in Finset.range N, y b * entry (W b) blk d)))
      = ∑ d in Finset.range M.m, ∑ e in Finset.range M.n,
          (1 * ∑ a in Finset.range N, x a * entry (W a) blk d)
          * (1 * ∑ b in Finset.range N, y b * (M.el d e * entry (W b) blk e)) := by
    intro blk
    rw [Vector.inner_apply _ _ M (by simp [hm])]
    apply Finset.sum_congr rfl
    intro d hd
    apply Finset.sum_congr rfl
    intro e he
    rw [hz x blk d (by rw [← hm]; exact Finset.mem_range.mp hd),
      hz y blk e (by rw [← hn]; exact Finset.mem_range.mp he), one_mul, one_mul, Finset.mul_sum]
    congr 1
    apply Finset.sum_congr rfl
    intro b _
    ring
  have hexp := bilinear_expansion (Finset.range B ×ˢ (Finset.range M.m ×ˢ Finset.range M.n)) N
    (fun a p => entry (W a) p.1 p.2.1) (fun b p => M.el p.2.1 p.2.2 * entry (W b) p.1 p.2.2)
    x y 1 1
  simp only [one_mul] at hexp
  simp only [hrhs, one_mul]
  rw [Finset.sum_product] at hexp
  simp only [Finset.sum_product] at hexp
  rw [hexp]
  rfl

end QuadraticLemmas

section OrderedLemmas
variable {K : Type} [LinearOrderedField K]

theorem Vector.inner_self_nonneg (y : Vector K) : 0 ≤ Vector.inner y y := by
  unfold Vector.inner
  induction y with
  | nil => simp
  | cons a l ih =>
    simp only [List.zipWith_cons_cons, List.sum_cons]
    exact add_nonneg (mul_self_nonneg a) ih

theorem identity_matrix_positiveSemidefinite (n : Nat) :
    (identity_matrix n : SparseMatrix K).PositiveSemidefinite := by
  intro y hy
  rw [apply_identity_matrix n y hy]
  exact Vector.inner_self_nonneg y

theorem quadratic_form_nonneg {D : Nat} (M : SparseMatrix K) (hm : M.m = D) (hn : M.n = D)
    (hpsd : M.PositiveSemidefinite) (B N : Nat) (W : Nat → BlockVector K) (x : Nat → K) :
    0 ≤ ∑ a in Finset.range N, x a * ∑ b in Finset.range N, weighted M B (W a) (W b) * x b := by
  rw [quadratic_form_eq M hm hn B N W x x]
  apply Finset.sum_nonneg
  intro blk _
  apply hpsd
  simp [hn]

end OrderedLemmas

section PositiveClaims
variable {K : Type} [LinearOrderedField K]

/-- C16: for `N ≥ 1` snapshots of one shape and a mass matrix of matching size the correlation
matrix `C` built by lines 33-88 is symmetric, whatever the mass matrix is; when the mass matrix
is symmetric positive semi-definite, `x * (C * x) ≥ 0` for every vector `x` of `N` entries, so
every eigenvalue `λ` of `C` (with an eigenvector that is not zero) is non-negative, and a square
root function that is exact on the non-negative numbers gives a singular value
`sqrt(λ) ≥ 0` with `sqrt(λ)² = λ`. -/
theorem build_correlation_matrix_positive {B D : Nat} (cmath : CMath K)
    (hsqrt : ∀ x, 0 ≤ x → 0 ≤ cmath.sqrt x ∧ cmath.sqrt x * cmath.sqrt x = x)
    (mass_matrix : SparseMatrix K) (hm : mass_matrix.m = D) (hn : mass_matrix.n = D)
    (snapshots : List (BlockVector K)) (hne : snapshots ≠ []) (hB : 0 < B)
    (hs : ∀ s ∈ snapshots, Shaped B D s) (center_trajectory : Bool)
    (pod_basis : BlockPODBasis K) :
    ∃ c, build_correlation_matrix mass_matrix snapshots center_trajectory pod_basis = .ok c
      ∧ (∀ i j, c.correlation_matrix.el i j = c.correlation_matrix.el j i)
      ∧ (mass_matrix.Symmetric → mass_matrix.PositiveSemidefinite →
          (∀ x : Vector K, x.length = snapshots.length →
            0 ≤ ∑ i in Finset.range snapshots.length, ∑ j in Finset.range snapshots.length,
              x.getD i 0 * c.correlation_matrix.el i j * x.getD j 0)
          ∧ ∀ (ev : K) (e : Vector K), e.length = snapshots.length →
              (∃ i, i < snapshots.length ∧ e.getD i 0 ≠ 0) →
              (∀ i, i < snapshots.length →
                ∑ j in Finset.range snapshots.length, c.correlation_matrix.el i j * e.getD j 0
                  = ev * e.getD i 0) →
              0 ≤ ev ∧ 0 ≤ cmath.sqrt ev ∧ cmath.sqrt ev * cmath.sqrt ev = ev) := by
  have hmean : Shaped B D (mean_of snapshots B D) :=
    Shaped.accumulate _ snapshots _ (Shaped.zero B D) hs
  have hw := Shaped.working_snapshots center_trajectory snapshots _ hmean hs
  have hlen := length_working_snapshots center_trajectory snapshots (mean_of snapshots B D)
  refine ⟨_, build_correlation_matrix_ok mass_matrix hm hn snapshots hne hB hs
    center_trajectory pod_basis, fun i j => correlation_entries_symm _ _ _ i j, ?_⟩
  intro hsymm hpsd
  have hform : ∀ x : Vector K,
      ∑ i in Finset.range snapshots.length, ∑ j in Finset.range snapshots.length,
        x.getD i 0 * correlation_entries mass_matrix
          (working_snapshots center_trajectory snapshots (mean_of snapshots B D))
          snapshots.length i j * x.getD j 0
      = ∑ a in Finset.range snapshots.length, x.getD a 0
          * ∑ b in Finset.range snapshots.length,
            weighted mass_matrix B
              ((working_snapshots center_trajectory snapshots (mean_of snapshots B D)).getD a [])
              ((working_snapshots center_trajectory snapshots (mean_of snapshots B D)).getD b [])
            * x.getD b 0 := by
    intro x
    apply Finset.sum_congr rfl
    intro i hi
    rw [Finset.mul_sum]
    apply Finset.sum_congr rfl
    intro j hj
    have h := correlation_entries_eq_weighted mass_matrix hm hn hsymm _ hw i j
      (by rw [hlen]; exact Finset.mem_range.mp hi) (by rw [hlen]; exact Finset.mem_range.mp hj)
    rw [hlen] at h
    rw [h]
    ring
  have hnonneg : ∀ x : Vector K,
      0 ≤ ∑ i in Finset.range snapshots.length, ∑ j in Finset.range snapshots.length,
        x.getD i 0 * correlation_entries mass_matrix
          (working_snapshots center_trajectory snapshots (mean_of snapshots B D))
          snapshots.length i j * x.getD j 0 := by
    intro x
    rw [hform x]
    exact quadratic_form_nonneg mass_matrix hm hn hpsd B snapshots.length
      (fun a => (working_snapshots center_trajectory snapshots
        (mean_of snapshots B D)).getD a []) (fun a => x.getD a 0)
  refine ⟨fun x _ => hnonneg x, ?_⟩
  intro ev e _ hnz heig
  have hev : 0 ≤ ev := by
    have hq := hnonneg e
    have hsum : ∑ i in Finset.range snapshots.length, ∑ j in Finset.range snapshots.length,
        e.getD i 0 * correlation_entries mass_matrix
          (working_snapshots center_trajectory snapshots (mean_of snapshots B D))
          snapshots.length i j * e.getD j 0
        = ev * ∑ i in Finset.range snapshots.length, e.getD i 0 * e.getD i 0 := by
      rw [Finset.mul_sum]
      apply Finset.sum_congr rfl
      intro i hi
      have := heig i (Finset.mem_range.mp hi)
      calc ∑ j in Finset.range snapshots.length, e.getD i 0 * correlation_entries mass_matrix
            (working_snapshots center_trajectory snapshots (mean_of snapshots B D))
            snapshots.length i j * e.getD j 0
          = e.getD i 0 * ∑ j in Finset.range snapshots.length, correlation_entries mass_matrix
            (working_snapshots center_trajectory snapshots (mean_of snapshots B D))
            snapshots.length i j * e.getD j 0 := by
            rw [Finset.mul_sum]
            apply Finset.sum_congr rfl
            intro j _
            ring
        _ = ev * (e.getD i 0 * e.getD i 0) := by
            rw [show (∑ j in Finset.range snapshots.length, correlation_entries mass_matrix
              (working_snapshots center_trajectory snapshots (mean_of snapshots B D))
              snapshots.length i j * e.getD j 0) = ev * e.getD i 0 from this]
            ring
    rw [hsum] at hq
    obtain ⟨i0, hi0, hne0⟩ := hnz
    have hpos : 0 < ∑ i in Finset.range snapshots.length, e.getD i 0 * e.getD i 0 := by
      apply lt_of_lt_of_le (mul_self_pos.mpr hne0)
      exact Finset.single_le_sum (f := fun i => e.getD i 0 * e.getD i 0)
        (fun i _ => mul_self_nonneg _) (Finset.mem_range.mpr hi0)
    by_contra hneg
    have := mul_neg_of_neg_of_pos (lt_of_not_ge hneg) hpos
    exact absurd hq (not_le.mpr this)
  exact ⟨hev, hsqrt ev hev⟩

/-- Witness for C16: one real snapshot `[1]` and the `1 × 1` identity, with the real square
root. -/
theorem build_correlation_matrix_positive_witness :
    ∃ c, build_correlation_matrix (identity_matrix 1 : SparseMatrix ℝ) [[[1]]] false
        empty_basis = .ok c
      ∧ (∀ i j, c.correlation_matrix.el i j = c.correlation_matrix.el j i)
      ∧ (∀ x : Vector ℝ, x.length = 1 →
          0 ≤ ∑ i in Finset.range 1, ∑ j in Finset.range 1,
            x.getD i 0 * c.correlation_matrix.el i j * x.getD j 0) := by
  obtain ⟨c, hc, hsym, h⟩ :=
    build_correlation_matrix_positive (B := 1) (D := 1) ⟨Real.sqrt, fun _ => false⟩
      (fun x hx => ⟨Real.sqrt_nonneg x, Real.mul_self_sqrt hx⟩)
      (identity_matrix 1) rfl rfl [[[1]]] (by simp) (by decide) (by simp [Shaped]) false
      empty_basis
  exact ⟨c, hc, hsym, (h (identity_matrix_symmetric 1)
    (identity_matrix_positiveSemidefinite 1)).1⟩

end PositiveClaims

section DegenerateLemmas

/-- The correlation matrix of the un-centred snapshots `[1]`, `[1]`, `[-1]`, `[-1]` under the
identity: `u * uᵀ` with `u = (1, 1, -1, -1)`. -/
theorem hadamard_uncentred_entries :
    ∀ a b, a < 4 → b < 4 →
      correlation_entries (identity_matrix 1 : SparseMatrix ℚ)
        (working_snapshots false [[[1]], [[1]], [[-1]], [[-1]]]
          (mean_of [[[1]], [[1]], [[-1]], [[-1]]] 1 1)) 4 a b
      = ([1, 1, -1, -1] : List ℚ).getD a 0 * ([1, 1, -1, -1] : List ℚ).getD b 0 := by
  intro a b ha hb
  interval_cases a <;> interval_cases b <;>
    simp [correlation_entries, gram, working_snapshots, BlockVector.inner, Vector.inner,
      SparseMatrix.apply, identity_matrix, List.range_succ]

end DegenerateLemmas

section DegenerateClaims
variable {K : Type} [Field K] [DecidableEq K]

/-- For a symmetric mass matrix and `N ≥ 1` snapshots of one shape among which the snapshots at
two distinct positions `i` and `j` are identical, with or without centring, the correlation
matrix `C` built by lines 33-88 satisfies `C (e_i - e_j) = 0`: every row `a` has
`Σ_b C(a, b) * (e_i - e_j)(b) = 0`, and `e_i - e_j` is not the zero vector, so `0` is an
eigenvalue of `C`. -/
theorem identical_snapshots_kernel {B D : Nat} (mass_matrix : SparseMatrix K)
    (hm : mass_matrix.m = D) (hn : mass_matrix.n = D) (hsymm : mass_matrix.Symmetric)
    (snapshots : List (BlockVector K))
    (hne : snapshots ≠ []) (hB : 0 < B) (hs : ∀ s ∈ snapshots, Shaped B D s)
    (center_trajectory : Bool) (pod_basis : BlockPODBasis K)
    (i j : Nat) (hi : i < snapshots.length) (hj : j < snapshots.length) (hij : i ≠ j)
    (hsame : snapshots.getD i [] = snapshots.getD j []) :
    ∃ c, build_correlation_matrix mass_matrix snapshots center_trajectory pod_basis = .ok c
      ∧ (∀ a, a < snapshots.length →
          ∑ b in Finset.range snapshots.length, c.correlation_matrix.el a b
            * ((if b = i then 1 else 0) - (if b = j then 1 else 0)) = 0)
      ∧ (∃ b, b < snapshots.length
          ∧ ((if b = i then 1 else 0) - (if b = j then 1 else 0) : K) ≠ 0) := by
  have hmean : Shaped B D (mean_of snapshots B D) :=
    Shaped.accumulate _ snapshots _ (Shaped.zero B D) hs
  have hw := Shaped.working_snapshots center_trajectory snapshots _ hmean hs
  have hlen := length_working_snapshots center_trajectory snapshots (mean_of snapshots B D)
  have hc := build_correlation_matrix_ok mass_matrix hm hn snapshots hne hB hs
    center_trajectory pod_basis
  refine ⟨_, hc, ?_, ⟨i, hi, by simp [hij]⟩⟩
  intro a ha
  have hwsame : (working_snapshots center_trajectory snapshots (mean_of snapshots B D)).getD i []
      = (working_snapshots center_trajectory snapshots (mean_of snapshots B D)).getD j [] := by
    rw [getD_working_snapshots _ _ _ i hi, getD_working_snapshots _ _ _ j hj, hsame]
  have hcol : correlation_entries mass_matrix
        (working_snapshots center_trajectory snapshots (mean_of snapshots B D))
        snapshots.length a i
      = correlation_entries mass_matrix
        (working_snapshots center_trajectory snapshots (mean_of snapshots B D))
        snapshots.length a j := by
    have h1 := correlation_entries_eq_weighted mass_matrix hm hn hsymm _ hw a i
      (by rw [hlen]; exact ha) (by rw [hlen]; exact hi)
    have h2 := correlation_entries_eq_weighted mass_matrix hm hn hsymm _ hw a j
      (by rw [hlen]; exact ha) (by rw [hlen]; exact hj)
    rw [hlen] at h1 h2
    rw [h1, h2, hwsame]
  show ∑ b in Finset.range snapshots.length, correlation_entries mass_matrix
        (working_snapshots center_trajectory snapshots (mean_of snapshots B D))
        snapshots.length a b
      * ((if b = i then 1 else 0) - (if b = j then 1 else 0)) = 0
  simp only [mul_sub, Finset.sum_sub_distrib, mul_ite, mul_one, mul_zero,
    Finset.sum_ite_eq', Finset.mem_range, if_pos hi, if_pos hj, hcol, sub_self]

/-- C17, the code at the failing input: the two identical snapshots `[3]`, `[3]` with
centring, the identity as mass matrix and `r = 2` (or `r = 1`).  The mean is `[3]`, both
centred snapshots are `[0]`, the correlation matrix `C` is the zero matrix, `C (e_0 - e_1) = 0`,
and both eigenvalues are `0`.  The retained singular value is `0`, and the normalisation loop
multiplies by `1.0/0`: the build fails with `ExcNumberNotFinite`.  The same happens without
centring: for the snapshots `[1]`, `[1]`, `[-1]`, `[-1]`, the first two of which are identical,
`C = u * uᵀ` with `u = (1, 1, -1, -1)` satisfies `C (e_0 - e_1) = 0`, the exact eigenvalues
are `0`, `0`, `0`, `4`, and the build fails with `r = 4`, which retains a mode with the
eigenvalue `0`; with `r = 1` only the eigenvalue `4` is retained and a basis is returned. -/
theorem identical_snapshots_not_finite :
    (∃ c, build_correlation_matrix (identity_matrix 1 : SparseMatrix ℚ)
        [[[3]], [[3]]] true empty_basis = .ok c
      ∧ (∀ a, a < 2 →
          ∑ b in Finset.range 2, c.correlation_matrix.el a b
            * ((if b = 0 then 1 else 0) - (if b = 1 then 1 else 0)) = 0)
      ∧ (diagonal_solver c.correlation_matrix c.identity).eigenvalues = [(0, 0), (0, 0)]
      ∧ method_of_snapshots cmath_exact diagonal_solver (identity_matrix 1)
          [[[3]], [[3]]] 2 true empty_basis = .error .ExcNumberNotFinite
      ∧ method_of_snapshots cmath_exact diagonal_solver (identity_matrix 1)
          [[[3]], [[3]]] 1 true empty_basis = .error .ExcNumberNotFinite)
    ∧ ∃ c, build_correlation_matrix (identity_matrix 1 : SparseMatrix ℚ)
        [[[1]], [[1]], [[-1]], [[-1]]] false empty_basis = .ok c
      ∧ (∀ a, a < 4 →
          ∑ b in Finset.range 4, c.correlation_matrix.el a b
            * ((if b = 0 then 1 else 0) - (if b = 1 then 1 else 0)) = 0)
      ∧ (hadamard_solver c.correlation_matrix c.identity).eigenvalues
          = [(0, 0), (0, 0), (0, 0), (4, 0)]
      ∧ method_of_snapshots cmath_exact hadamard_solver (identity_matrix 1)
          [[[1]], [[1]], [[-1]], [[-1]]] 4 false empty_basis = .error .ExcNumberNotFinite
      ∧ ∃ b, method_of_snapshots cmath_exact hadamard_solver (identity_matrix 1)
          [[[1]], [[1]], [[-1]], [[-1]]] 1 false empty_basis = .ok b := by
  constructor
  · obtain ⟨c, hc, hker, _⟩ := identical_snapshots_kernel (B := 1) (D := 1)
      (identity_matrix 1 : SparseMatrix ℚ) rfl rfl (identity_matrix_symmetric 1)
      [[[3]], [[3]]] (by simp) (by decide) (by simp [Shaped]) true
      empty_basis 0 1 (by simp) (by simp) (by decide) (by simp)
    have hc' := build_correlation_matrix_ok (B := 1) (D := 1)
      (identity_matrix 1 : SparseMatrix ℚ) rfl rfl [[[3]], [[3]]] (by simp) (by decide)
      (by simp [Shaped]) true empty_basis
    rw [hc] at hc'
    obtain rfl := Except.ok.inj hc'
    have hev : (diagonal_solver
        (⟨2, 2, correlation_entries (identity_matrix 1)
          (working_snapshots true [[[3]], [[3]]] (mean_of [[[3]], [[3]]] 1 1)) 2⟩ :
            LAPACKFullMatrix ℚ)
        ⟨2, 2, identity_entries 2⟩).eigenvalues = [((0 : ℚ), (0 : ℚ)), (0, 0)] := by
      simp [diagonal_solver, correlation_entries, gram, working_snapshots, mean_of, accumulate,
        BlockVector.axpy, Vector.axpy, BlockVector.zero, BlockVector.inner, Vector.inner,
        SparseMatrix.apply, identity_matrix, List.range_succ]
      norm_num
    have hfail : ∀ r, 0 < r → method_of_snapshots cmath_exact diagonal_solver
        (identity_matrix 1) [[[3]], [[3]]] r true empty_basis
        = .error .ExcNumberNotFinite := by
      intro r hr
      exact method_of_snapshots_not_finite (B := 1) (D := 1) cmath_exact diagonal_solver
        (identity_matrix 1) rfl rfl [[[3]], [[3]]] (by simp) (by decide)
        (by simp [Shaped]) r true empty_basis _ hc (diagonal_solver_sized _ _)
        (diagonal_solver_isReal _ _) 0
        (by
          simp only [List.length_cons, List.length_nil]
          exact lt_min (by decide) hr)
        rfl
        (by
          unfold singular_values_of
          simp only [List.length_cons, List.length_nil]
          rw [hev]
          simp [cmath_exact])
    exact ⟨_, hc, hker, hev, hfail 2 (by decide), hfail 1 (by decide)⟩
  obtain ⟨c, hc, hker, _⟩ := identical_snapshots_kernel (B := 1) (D := 1)
    (identity_matrix 1 : SparseMatrix ℚ) rfl rfl (identity_matrix_symmetric 1)
    [[[1]], [[1]], [[-1]], [[-1]]] (by simp) (by decide) (by simp [Shaped]) false
    empty_basis 0 1 (by simp) (by simp) (by decide) (by simp)
  have hc' := build_correlation_matrix_ok (B := 1) (D := 1) (identity_matrix 1 : SparseMatrix ℚ)
    rfl rfl [[[1]], [[1]], [[-1]], [[-1]]] (by simp) (by decide) (by simp [Shaped]) false
    empty_basis
  have h00 := hadamard_uncentred_entries 0 0 (by decide) (by decide)
  have hev : (hadamard_solver c.correlation_matrix c.identity).eigenvalues
      = [(0, 0), (0, 0), (0, 0), (4, 0)] := by
    rw [hc] at hc'
    rw [Except.ok.inj hc']
    simp only [List.length_cons, List.length_nil] at h00 ⊢
    simp only [hadamard_solver, h00]
    norm_num
  have hsized : (hadamard_solver c.correlation_matrix c.identity).Sized
      ([[[1]], [[1]], [[-1]], [[-1]]] : List (BlockVector ℚ)).length := by
    simp [EigenSolution.Sized, hadamard_solver]
  have hreal : (hadamard_solver c.correlation_matrix c.identity).IsReal := by
    simp [EigenSolution.IsReal, hadamard_solver]
  refine ⟨c, hc, hker, hev, ?_, ?_⟩
  · exact method_of_snapshots_not_finite (B := 1) (D := 1) cmath_exact hadamard_solver
      (identity_matrix 1) rfl rfl [[[1]], [[1]], [[-1]], [[-1]]] (by simp) (by decide)
      (by simp [Shaped]) 4 false empty_basis c hc hsized hreal 1 (by decide) rfl
      (by
        unfold singular_values_of
        rw [hev]
        simp [cmath_exact])
  · refine ⟨_, method_of_snapshots_ok (B := 1) (D := 1) cmath_exact hadamard_solver
      (identity_matrix 1) rfl rfl [[[1]], [[1]], [[-1]], [[-1]]] (by simp) (by decide)
      (by simp [Shaped]) 1 false empty_basis c hc hsized hreal ?_⟩
    intro k hk _
    have hk' : k < 1 := lt_of_lt_of_le hk (min_le_right _ _)
    interval_cases k
    unfold singular_values_of
    rw [hev]
    simp [cmath_exact]

end DegenerateClaims

section CompleteLemmas
variable {K : Type} [Field K]

end CompleteLemmas

section CenteredLemmas

end CenteredLemmas

section CenteredClaims
variable {K : Type} [Field K] [DecidableEq K]

end CenteredClaims

section MassLemmas
variable {K : Type} [Field K]

theorem create_reduced_matrix_all_blocks_ok {B D : Nat} (pod_vectors : List (BlockVector K))
    (hne : pod_vectors ≠ []) (hB : 0 < B) (hs : ∀ v ∈ pod_vectors, Shaped B D v)
    (full_matrix : SparseMatrix K) (hm : full_matrix.m = D) (hn : full_matrix.n = D) :
    create_reduced_matrix_all_blocks pod_vectors full_matrix = .ok
      ⟨pod_vectors.length, pod_vectors.length,
        reduced_entries pod_vectors full_matrix (List.range B)⟩ := by
  have h0 : 0 < pod_vectors.length := List.length_pos.mpr hne
  have hs0 : (pod_vectors.get ⟨0, h0⟩).length = B := (hs _ (List.get_mem _ _ _)).1
  unfold create_reduced_matrix_all_blocks
  simp only [vector_at_ok pod_vectors 0 h0, bind, Except.bind, foldl_push_back, hs0]
  exact create_reduced_matrix_ok pod_vectors hne hB hs full_matrix hm hn (List.range B)
    (fun dim_n h => List.mem_range.mp h)

theorem reduced_entries_eq_weighted {B D : Nat} (pod_vectors : List (BlockVector K))
    (hs : ∀ v ∈ pod_vectors, Shaped B D v) (M : SparseMatrix K) (hm : M.m = D)
    (i j : Nat) (hi : i < pod_vectors.length) (hj : j < pod_vectors.length) :
    reduced_entries pod_vectors M (List.range B) i j
      = weighted M B (pod_vectors.getD i []) (pod_vectors.getD j []) := by
  unfold reduced_entries weighted
  rw [if_pos ⟨hi, hj⟩, sum_map_range]
  apply Finset.sum_congr rfl
  intro blk hblk
  unfold projected_entry
  rw [Vector.inner_apply _ _ M (by
    rw [Shaped.length_block pod_vectors hs i blk hi (Finset.mem_range.mp hblk), hm])]
  rfl

theorem weighted_pod_vector {B D : Nat} (cmath : CMath K) (hnan : ∀ x, cmath.isnan x = false)
    (M : SparseMatrix K) (snapshots : List (BlockVector K))
    (hs : ∀ s ∈ snapshots, Shaped B D s)
    (e f : Vector K) (he : snapshots.length ≤ e.length) (hf : snapshots.length ≤ f.length)
    (σ τ : K) :
    weighted M B (pod_vector cmath e σ snapshots B D) (pod_vector cmath f τ snapshots B D)
      = (1 / σ) * (1 / τ) * ∑ a in Finset.range snapshots.length, e.getD a 0
          * ∑ b in Finset.range snapshots.length,
            weighted M B (snapshots.getD a []) (snapshots.getD b []) * f.getD b 0 := by
  rw [weighted_eq_sum_product]
  simp only [entry_pod_vector cmath _ _ _ hs he (hnan σ),
    entry_pod_vector cmath _ _ _ hs hf (hnan τ), hnan, Bool.false_eq_true, if_false]
  have h := bilinear_expansion (Finset.range B ×ˢ (Finset.range M.m ×ˢ Finset.range M.n))
    snapshots.length (fun a x => entry (snapshots.getD a []) x.1 x.2.1)
    (fun b x => M.el x.2.1 x.2.2 * entry (snapshots.getD b []) x.1 x.2.2)
    (fun a => e.getD a 0) (fun b => f.getD b 0) (1 / σ) (1 / τ)
  simp only [← weighted_eq_sum_product] at h
  rw [← h]
  apply Finset.sum_congr rfl
  intro x _
  simp only [Finset.mul_sum]
  congr 1
  funext b
  ring

end MassLemmas

section QuarterLemmas

/-- The correlation matrix of the centred snapshots `[1]`, `[1]`, `[-1]`, `[-1]` (their mean is
zero) under `quarter_matrix`: `(1/4) * u * uᵀ` with `u = (1, 1, -1, -1)`. -/
theorem quarter_example_entries :
    ∀ a b, a < 4 → b < 4 →
      correlation_entries quarter_matrix
        (working_snapshots true [[[1]], [[1]], [[-1]], [[-1]]]
          (mean_of [[[1]], [[1]], [[-1]], [[-1]]] 1 1)) 4 a b
      = 1 / 4 * (([1, 1, -1, -1] : List ℚ).getD a 0 * ([1, 1, -1, -1] : List ℚ).getD b 0) := by
  intro a b ha hb
  interval_cases a <;> interval_cases b <;>
    simp [correlation_entries, gram, working_snapshots, mean_of, accumulate, BlockVector.axpy,
      Vector.axpy, BlockVector.zero, BlockVector.inner, Vector.inner, SparseMatrix.apply,
      quarter_matrix, List.range_succ]

theorem quarter_matrix_symmetric : quarter_matrix.Symmetric :=
  ⟨rfl, fun _ _ _ _ => rfl⟩

end QuarterLemmas

section MassClaims
variable {K : Type} [LinearOrderedField K] [DecidableEq K]

/-- C18: for a symmetric mass matrix `M`, a requested rank `r ≥ 1`, no NaN, and an eigensolver
whose retained eigenpairs (solver indices `N - min N r ≤ m < N`) satisfy `C e_m = λ_m e_m` for
the correlation matrix `C` built by the code, are orthonormal, and have `λ_m > 0` with
`sqrt(λ_m)² = λ_m`, the three-argument `create_reduced_matrix` applied to the POD vectors
returned by `method_of_snapshots` and to `M` returns the `min N r × min N r` identity
matrix. -/
theorem method_of_snapshots_mass_orthonormal {B D : Nat} (cmath : CMath K)
    (solver : EigenSolver K) (mass_matrix : SparseMatrix K)
    (hm : mass_matrix.m = D) (hn : mass_matrix.n = D) (hsymm : mass_matrix.Symmetric)
    (snapshots : List (BlockVector K))
    (hne : snapshots ≠ []) (hB : 0 < B) (hs : ∀ s ∈ snapshots, Shaped B D s)
    (n_pod_vectors : Nat) (hr : 0 < n_pod_vectors) (center_trajectory : Bool)
    (pod_basis : BlockPODBasis K) (c : Correlated K)
    (hc : build_correlation_matrix mass_matrix snapshots center_trajectory pod_basis = .ok c)
    (hsized : (solver c.correlation_matrix c.identity).Sized snapshots.length)
    (hreal : (solver c.correlation_matrix c.identity).IsReal)
    (hnan : ∀ x, cmath.isnan x = false)
    (hpos : ∀ m, snapshots.length - min snapshots.length n_pod_vectors ≤ m →
      m < snapshots.length →
      0 < ((solver c.correlation_matrix c.identity).eigenvalues.getD m (0, 0)).1)
    (hsqrt : ∀ m, snapshots.length - min snapshots.length n_pod_vectors ≤ m →
      m < snapshots.length →
      cmath.sqrt ((solver c.correlation_matrix c.identity).eigenvalues.getD m (0, 0)).1
        * cmath.sqrt ((solver c.correlation_matrix c.identity).eigenvalues.getD m (0, 0)).1
        = ((solver c.correlation_matrix c.identity).eigenvalues.getD m (0, 0)).1)
    (heig : ∀ m, snapshots.length - min snapshots.length n_pod_vectors ≤ m →
      m < snapshots.length → ∀ i, i < snapshots.length →
      ∑ j in Finset.range snapshots.length, c.correlation_matrix.el i j
          * ((solver c.correlation_matrix c.identity).eigenvectors.getD m []).getD j 0
        = ((solver c.correlation_matrix c.identity).eigenvalues.getD m (0, 0)).1
          * ((solver c.correlation_matrix c.identity).eigenvectors.getD m []).getD i 0)
    (horth : ∀ m n, snapshots.length - min snapshots.length n_pod_vectors ≤ m →
      m < snapshots.length → snapshots.length - min snapshots.length n_pod_vectors ≤ n →
      n < snapshots.length →
      ∑ i in Finset.range snapshots.length,
          ((solver c.correlation_matrix c.identity).eigenvectors.getD m []).getD i 0
          * ((solver c.correlation_matrix c.identity).eigenvectors.getD n []).getD i 0
        = if m = n then 1 else 0) :
    ∃ b, method_of_snapshots cmath solver mass_matrix snapshots n_pod_vectors
        center_trajectory pod_basis = .ok b
      ∧ ∃ R, create_reduced_matrix_all_blocks b.vectors mass_matrix = .ok R
        ∧ R.m = min snapshots.length n_pod_vectors
        ∧ R.n = min snapshots.length n_pod_vectors
        ∧ ∀ i j, i < min snapshots.length n_pod_vectors →
            j < min snapshots.length n_pod_vectors →
            R.el i j = if i = j then 1 else 0 := by
  obtain ⟨h1, h2, h3⟩ := hsized
  have hmean : Shaped B D (mean_of snapshots B D) :=
    Shaped.accumulate _ snapshots _ (Shaped.zero B D) hs
  have hw := Shaped.working_snapshots center_trajectory snapshots _ hmean hs
  have hlen := length_working_snapshots center_trajectory snapshots (mean_of snapshots B D)
  have hN : 0 < snapshots.length := List.length_pos.mpr hne
  have hc' := build_correlation_matrix_ok mass_matrix hm hn snapshots hne hB hs
    center_trajectory pod_basis
  rw [hc] at hc'
  have hcm : c.correlation_matrix.el = correlation_entries mass_matrix
      (working_snapshots center_trajectory snapshots (mean_of snapshots B D))
      snapshots.length := by
    rw [Except.ok.inj hc']
  have hvs : ∀ v ∈ pod_vectors_of cmath (solver c.correlation_matrix c.identity)
      (working_snapshots center_trajectory snapshots (mean_of snapshots B D)) B D
      (min snapshots.length n_pod_vectors), Shaped B D v := by
    intro v hv
    obtain ⟨k, _, rfl⟩ := List.mem_map.mp hv
    exact Shaped.pod_vector cmath _ _ _ hw
  have hvlen := length_pod_vectors_of cmath (solver c.correlation_matrix c.identity)
    (working_snapshots center_trajectory snapshots (mean_of snapshots B D)) B D
    (min snapshots.length n_pod_vectors)
  have hvne : pod_vectors_of cmath (solver c.correlation_matrix c.identity)
      (working_snapshots center_trajectory snapshots (mean_of snapshots B D)) B D
      (min snapshots.length n_pod_vectors) ≠ [] := by
    intro h
    rw [h] at hvlen
    have : 0 < min snapshots.length n_pod_vectors := lt_min hN hr
    simp at hvlen
    omega
  refine ⟨_, method_of_snapshots_ok cmath solver mass_matrix hm hn snapshots hne hB hs
    n_pod_vectors center_trajectory pod_basis c hc ⟨h1, h2, h3⟩ hreal
    (finiteFactors_of_pos cmath _ _ _ h1 hpos hsqrt), _,
    create_reduced_matrix_all_blocks_ok _ hvne hB hvs mass_matrix hm hn, hvlen, hvlen, ?_⟩
  intro i j hi hj
  have hi' : i < snapshots.length := lt_of_lt_of_le hi (min_le_left _ _)
  have hj' : j < snapshots.length := lt_of_lt_of_le hj (min_le_left _ _)
  have hmin : min snapshots.length n_pod_vectors ≤ snapshots.length := min_le_left _ _
  have hri : snapshots.length - min snapshots.length n_pod_vectors
      ≤ snapshots.length - 1 - i := by omega
  have hrj : snapshots.length - min snapshots.length n_pod_vectors
      ≤ snapshots.length - 1 - j := by omega
  have hli : snapshots.length - 1 - i < snapshots.length := by omega
  have hlj : snapshots.length - 1 - j < snapshots.length := by omega
  have hvec : ∀ k, k < min snapshots.length n_pod_vectors →
      (pod_vectors_of cmath (solver c.correlation_matrix c.identity)
        (working_snapshots center_trajectory snapshots (mean_of snapshots B D)) B D
        (min snapshots.length n_pod_vectors)).getD k []
      = pod_vector cmath ((solver c.correlation_matrix c.identity).eigenvectors.getD
          (snapshots.length - 1 - k) [])
        (cmath.sqrt ((solver c.correlation_matrix c.identity).eigenvalues.getD
          (snapshots.length - 1 - k) (0, 0)).1)
        (working_snapshots center_trajectory snapshots (mean_of snapshots B D)) B D := by
    intro k hk
    have hk' : k < snapshots.length := lt_of_lt_of_le hk (min_le_left _ _)
    have hsv := getD_singular_values_of cmath (solver c.correlation_matrix c.identity) k
      (by rw [h1]; exact hk')
    rw [h1] at hsv
    rw [getD_pod_vectors_of _ _ _ _ _ _ _ hk, getD_reverse _ _ _ (by rw [h2]; exact hk'), h2, hsv]
  have hel : ∀ m, m < snapshots.length →
      (working_snapshots center_trajectory snapshots (mean_of snapshots B D)).length
        ≤ ((solver c.correlation_matrix c.identity).eigenvectors.getD m []).length := by
    intro m hm
    rw [hlen, getD_of_lt _ _ _ (by rw [h2]; exact hm), h3 _ (List.get_mem _ _ _)]
  show reduced_entries _ mass_matrix (List.range B) i j = _
  rw [reduced_entries_eq_weighted _ hvs mass_matrix hm i j (by rw [hvlen]; exact hi)
    (by rw [hvlen]; exact hj), hvec i hi, hvec j hj,
    weighted_pod_vector cmath hnan mass_matrix _ hw _ _ (hel _ hli) (hel _ hlj), hlen]
  have hinner : ∀ a, a < snapshots.length →
      ∑ b in Finset.range snapshots.length,
        weighted mass_matrix B
          ((working_snapshots center_trajectory snapshots (mean_of snapshots B D)).getD a [])
          ((working_snapshots center_trajectory snapshots (mean_of snapshots B D)).getD b [])
        * ((solver c.correlation_matrix c.identity).eigenvectors.getD
            (snapshots.length - 1 - j) []).getD b 0
      = ((solver c.correlation_matrix c.identity).eigenvalues.getD
            (snapshots.length - 1 - j) (0, 0)).1
        * ((solver c.correlation_matrix c.identity).eigenvectors.getD
            (snapshots.length - 1 - j) []).getD a 0 := by
    intro a ha
    rw [← heig _ hrj hlj a ha]
    apply Finset.sum_congr rfl
    intro b hb
    have := correlation_entries_eq_weighted mass_matrix hm hn hsymm _ hw a b
      (by rw [hlen]; exact ha) (by rw [hlen]; exact Finset.mem_range.mp hb)
    rw [hlen] at this
    rw [hcm, this]
  rw [Finset.sum_congr rfl (fun a ha => by rw [hinner a (Finset.mem_range.mp ha)])]
  have hfact : ∀ a, ((solver c.correlation_matrix c.identity).eigenvectors.getD
        (snapshots.length - 1 - i) []).getD a 0
      * (((solver c.correlation_matrix c.identity).eigenvalues.getD
          (snapshots.length - 1 - j) (0, 0)).1
        * ((solver c.correlation_matrix c.identity).eigenvectors.getD
          (snapshots.length - 1 - j) []).getD a 0)
      = ((solver c.correlation_matrix c.identity).eigenvalues.getD
          (snapshots.length - 1 - j) (0, 0)).1
        * (((solver c.correlation_matrix c.identity).eigenvectors.getD
          (snapshots.length - 1 - i) []).getD a 0
          * ((solver c.correlation_matrix c.identity).eigenvectors.getD
          (snapshots.length - 1 - j) []).getD a 0) := fun a => by ring
  simp only [hfact]
  rw [← Finset.mul_sum, horth _ _ hri hli hrj hlj]
  by_cases hij : i = j
  · subst hij
    have hne0 : cmath.sqrt ((solver c.correlation_matrix c.identity).eigenvalues.getD
        (snapshots.length - 1 - i) (0, 0)).1 ≠ 0 := by
      intro h0
      have := hsqrt _ hri hli
      rw [h0, mul_zero] at this
      exact absurd this.symm (ne_of_gt (hpos _ hri hli))
    rw [if_pos rfl, if_pos rfl, mul_one]
    have key : ∀ σ ev : K, σ * σ = ev → σ ≠ 0 → 1 / σ * (1 / σ) * ev = 1 := by
      intro σ ev h hσ
      rw [← h]
      field_simp
    exact key _ _ (hsqrt _ hri hli) hne0
  · have hne' : snapshots.length - 1 - i ≠ snapshots.length - 1 - j := by omega
    rw [if_neg hne', if_neg hij, mul_zero, mul_zero]

/-- Witness for C18: the centred snapshots `[1]`, `[1]`, `[-1]`, `[-1]` with the mass matrix
`(1/4)` and `r = 1`; the retained eigenvalue is `1`, the POD vector is `[2]`, and the reduced
mass matrix is `(1)`. -/
theorem method_of_snapshots_mass_orthonormal_witness :
    ∃ b, method_of_snapshots cmath_exact hadamard_solver quarter_matrix
        [[[1]], [[1]], [[-1]], [[-1]]] 1 true empty_basis = .ok b
      ∧ ∃ R, create_reduced_matrix_all_blocks b.vectors quarter_matrix = .ok R
        ∧ R.m = 1 ∧ R.n = 1
        ∧ ∀ i j, i < 1 → j < 1 → R.el i j = if i = j then 1 else 0 :=
  method_of_snapshots_mass_orthonormal (B := 1) (D := 1) cmath_exact hadamard_solver
    quarter_matrix rfl rfl quarter_matrix_symmetric
    [[[1]], [[1]], [[-1]], [[-1]]] (by simp) (by decide) (by simp [Shaped]) 1 (by decide) true
    empty_basis _
    (build_correlation_matrix_ok (B := 1) (D := 1) quarter_matrix rfl rfl
      [[[1]], [[1]], [[-1]], [[-1]]] (by simp) (by decide) (by simp [Shaped]) true empty_basis)
    (by simp [EigenSolution.Sized, hadamard_solver])
    (by simp [EigenSolution.IsReal, hadamard_solver])
    (fun _ => rfl)
    (by
      intro m hm1 hm2
      simp only [List.length_cons, List.length_nil] at hm1 hm2 ⊢
      have hm3 : m = 3 := by
        have : (3 : Nat) ≤ m := hm1
        omega
      subst hm3
      simp only [hadamard_solver, quarter_example_entries 0 0 (by decide) (by decide)]
      norm_num)
    (by
      intro m hm1 hm2
      simp only [List.length_cons, List.length_nil] at hm1 hm2 ⊢
      have hm3 : m = 3 := by
        have : (3 : Nat) ≤ m := hm1
        omega
      subst hm3
      simp only [hadamard_solver, quarter_example_entries 0 0 (by decide) (by decide)]
      norm_num [cmath_exact])
    (by
      intro m hm1 hm2 i hi
      simp only [List.length_cons, List.length_nil] at hm1 hm2 hi ⊢
      have hm3 : m = 3 := by
        have : (3 : Nat) ≤ m := hm1
        omega
      subst hm3
      rw [Finset.sum_congr rfl (fun j hj => by
        rw [quarter_example_entries i j hi (Finset.mem_range.mp hj)])]
      simp only [hadamard_solver, quarter_example_entries 0 0 (by decide) (by decide)]
      interval_cases i <;> simp [Finset.sum_range_succ] <;> norm_num)
    (by
      intro m n hm1 hm2 hn1 hn2
      simp only [List.length_cons, List.length_nil] at hm1 hm2 hn1 hn2 ⊢
      have hm3 : m = 3 := by
        have : (3 : Nat) ≤ m := hm1
        omega
      have hn3 : n = 3 := by
        have : (3 : Nat) ≤ n := hn1
        omega
      subst hm3 hn3
      simp only [hadamard_solver]
      simp [Finset.sum_range_succ]
      norm_num)

end MassClaims

section ReconstructionLemmas
variable {K : Type} [Field K]

end ReconstructionLemmas

section OrderedReconstruction
variable {K : Type} [LinearOrderedField K]

end OrderedReconstruction

section HadamardLemmas

end HadamardLemmas

section ReconstructionClaims
variable {K : Type} [LinearOrderedField K] [DecidableEq K]

end ReconstructionClaims

section BasisLemmas
variable {K : Type} [Field K]

theorem list_ext_getD (l₁ l₂ : List K) (n : Nat) (h₁ : l₁.length = n) (h₂ : l₂.length = n)
    (h : ∀ i, i < n → l₁.getD i 0 = l₂.getD i 0) : l₁ = l₂ := by
  apply List.ext_getElem
  · rw [h₁, h₂]
  · intro i hi₁ hi₂
    have := h i (by rw [← h₁]; exact hi₁)
    simpa [List.getElem?_eq_getElem hi₁, List.getElem?_eq_getElem hi₂] using this

theorem getD_set (l : List K) (i k : Nat) (x : K) (hi : i < l.length) :
    (l.set i x).getD k 0 = if k = i then x else l.getD k 0 := by
  by_cases hki : k = i
  · subst hki
    simp [hi]
  · have hik : ¬ i = k := fun e => hki e.symm
    simp [List.getElem?_set, hki, hik]

theorem PODBasis.vector_of_some (this : PODBasis K) (j : Nat) (v : Vector K)
    (h : this.vectors (j : Int) = some v) : this.vector j = v := by
  simp [PODBasis.vector, h]

theorem PODBasis.length_vector {n : Nat} (this : PODBasis K) (hsized : this.Sized n) (j : Nat)
    (hj : j < this.get_num_pod_vectors) : (this.vector j).length = n := by
  obtain ⟨v, hv, hl⟩ := hsized j hj
  rw [this.vector_of_some j v hv, hl]

theorem PODBasis.project_load_vector_ok {n : Nat} (this : PODBasis K) (hsized : this.Sized n)
    (load_vector : Vector K) (hv : load_vector.length = n) (pod_load_vector : Vector K) :
    this.project_load_vector load_vector pod_load_vector = .ok
      (this, (List.range this.get_num_pod_vectors).map
        (fun k => Vector.inner (this.vector k) load_vector)) := by
  obtain ⟨st, h1, h2, h3, h4⟩ := foldlM_range_inv
    (PODBasis.project_load_entry load_vector)
    (fun i (st : PODBasis K × Vector K) =>
      st.1 = this ∧ st.2.length = this.get_num_pod_vectors
      ∧ ∀ k, st.2.getD k 0 = if k < i then Vector.inner (this.vector k) load_vector else 0)
    this.get_num_pod_vectors (this, List.replicate this.get_num_pod_vectors 0)
    ⟨rfl, by simp, fun k => by
      by_cases hk : k < this.get_num_pod_vectors
      · simp [List.getElem?_replicate, hk]
      · simp [List.getElem?_replicate, hk]⟩
    (by
      intro i st hi ⟨hb, hl, hg⟩
      obtain ⟨u, hu, hul⟩ := hsized i hi
      have hi' : i < st.2.length := by rw [hl]; exact hi
      have hsub : map_subscript this.vectors (i : Int) [] = (this.vectors, u) := by
        simp [map_subscript, hu]
      refine ⟨(this, st.2.set i (Vector.inner u load_vector)), ?_, rfl, by simpa using hl, ?_⟩
      · unfold PODBasis.project_load_entry
        simp only [hb, hsub, Vector.dot_ok u load_vector (by rw [hul, hv]), index_ok _ i hi',
          bind, Except.bind, pure, Except.pure]
      · intro k
        show (st.2.set i (Vector.inner u load_vector)).getD k 0 = _
        rw [getD_set _ _ _ _ hi', hg k]
        have hvi := this.vector_of_some i u hu
        by_cases hki : k = i
        · subst hki
          simp [hvi]
        · by_cases hlt : k < i
          · have : k < i + 1 := by omega
            simp [hki, hlt, this]
          · have : ¬ k < i + 1 := by omega
            simp [hki, hlt, this])
  unfold PODBasis.project_load_vector
  rw [h1]
  congr 1
  apply Prod.ext h2
  apply list_ext_getD _ _ this.get_num_pod_vectors h3 (by simp)
  intro k hk
  rw [h4 k, if_pos hk, getD_of_lt _ k 0 (by simpa using hk)]
  simp

theorem PODBasis.project_to_fe_ok {n : Nat} (this : PODBasis K)
    (hr : 0 < this.get_num_pod_vectors) (hsized : this.Sized n)
    (pod_vector : Vector K) (hc : pod_vector.length = this.get_num_pod_vectors)
    (fe_vector : Vector K) :
    this.project_to_fe pod_vector fe_vector = .ok
      ((List.range n).map (fun d => ∑ k in Finset.range this.get_num_pod_vectors,
        pod_vector.getD k 0 * (this.vector k).getD d 0)) := by
  obtain ⟨u0, hu0, hl0⟩ := hsized 0 hr
  have h0 : this.vectors 0 = some u0 := by simpa using hu0
  obtain ⟨fe, h1, h2, h3⟩ := foldlM_range_inv (this.add_pod_vector pod_vector)
    (fun i (fe : Vector K) =>
      fe.length = n
      ∧ ∀ d, fe.getD d 0
          = ∑ k in Finset.range i, pod_vector.getD k 0 * (this.vector k).getD d 0)
    this.get_num_pod_vectors (List.replicate n 0)
    ⟨by simp, fun d => by
      by_cases hd : d < n
      · simp [List.getElem?_replicate, hd]
      · simp [List.getElem?_replicate, hd]⟩
    (by
      intro i fe hi ⟨hl, hg⟩
      obtain ⟨u, hu, hul⟩ := hsized i hi
      have hi' : i < pod_vector.length := by rw [hc]; exact hi
      refine ⟨Vector.axpy fe (pod_vector.get ⟨i, hi'⟩) u, ?_, ?_, ?_⟩
      · unfold PODBasis.add_pod_vector
        simp only [index_ok _ i hi', map_at, hu, bind, Except.bind]
        exact Vector.add_ok _ _ _ (by rw [hl, hul])
      · rw [Vector.length_axpy _ _ _ (by rw [hl, hul]), hl]
      · intro d
        rw [Vector.getD_axpy _ _ _ (by rw [hl, hul]), hg d, Finset.sum_range_succ,
          this.vector_of_some i u hu, getD_of_lt pod_vector i 0 hi'])
  unfold PODBasis.project_to_fe
  simp only [map_at, h0, bind, Except.bind, hl0]
  rw [h1]
  congr 1
  apply list_ext_getD _ _ n h2 (by simp)
  intro d hd
  rw [h3 d, getD_of_lt _ d 0 (by simpa using hd)]
  simp

theorem PODBasis.inner_combination {n : Nat} (this : PODBasis K) (hsized : this.Sized n)
    (horth : ∀ i j, i < this.get_num_pod_vectors → j < this.get_num_pod_vectors →
      Vector.inner (this.vector i) (this.vector j) = if i = j then 1 else 0)
    (a v : Vector K) (hv : v.length = n)
    (hcomb : ∀ d, d < n → v.getD d 0
      = ∑ k in Finset.range this.get_num_pod_vectors, a.getD k 0 * (this.vector k).getD d 0)
    (k : Nat) (hk : k < this.get_num_pod_vectors) :
    Vector.inner (this.vector k) v = a.getD k 0 := by
  rw [Vector.inner_eq_sum _ _ n (this.length_vector hsized k hk) hv]
  calc ∑ d in Finset.range n, (this.vector k).getD d 0 * v.getD d 0
      = ∑ d in Finset.range n, ∑ j in Finset.range this.get_num_pod_vectors,
          a.getD j 0 * ((this.vector k).getD d 0 * (this.vector j).getD d 0) := by
        apply Finset.sum_congr rfl
        intro d hd
        rw [hcomb d (Finset.mem_range.mp hd), Finset.mul_sum]
        apply Finset.sum_congr rfl
        intro j _
        ring
    _ = ∑ j in Finset.range this.get_num_pod_vectors,
          a.getD j 0 * Vector.inner (this.vector k) (this.vector j) := by
        rw [Finset.sum_comm]
        apply Finset.sum_congr rfl
        intro j hj
        rw [Vector.inner_eq_sum _ _ n (this.length_vector hsized k hk)
          (this.length_vector hsized j (Finset.mem_range.mp hj)), Finset.mul_sum]
    _ = ∑ j in Finset.range this.get_num_pod_vectors,
          a.getD j 0 * (if k = j then 1 else 0) := by
        apply Finset.sum_congr rfl
        intro j hj
        rw [horth k j hk (Finset.mem_range.mp hj)]
    _ = a.getD k 0 := by
        simp [hk]

end BasisLemmas

section BasisClaims
variable {K : Type} [Field K]

/-- C11: for a `PODBasis` with `r ≥ 1` vectors of `n` entries each, stored under the keys
`0, ..., r-1`, that are orthonormal in the unweighted scalar product:
`project_to_fe` maps every coefficient vector `c` of length `r` to the vector
`Σ_k c[k] * vectors[k]`, and `project_load_vector` maps that vector back to `c`;
`project_load_vector` maps every vector `v = Σ_k a[k] * vectors[k]` of the span to the
coefficients `vectors[k] * v`, and `project_to_fe` maps these back to `v`.  Neither call
changes the basis. -/
theorem project_round_trip {n : Nat} (this : PODBasis K)
    (hr : 0 < this.get_num_pod_vectors) (hsized : this.Sized n)
    (horth : ∀ i j, i < this.get_num_pod_vectors → j < this.get_num_pod_vectors →
      Vector.inner (this.vector i) (this.vector j) = if i = j then 1 else 0) :
    (∀ c : Vector K, c.length = this.get_num_pod_vectors →
      ∀ fe_vector pod_load_vector : Vector K,
        ∃ fe, this.project_to_fe c fe_vector = .ok fe
          ∧ fe.length = n
          ∧ (∀ d, d < n → fe.getD d 0
              = ∑ k in Finset.range this.get_num_pod_vectors,
                  c.getD k 0 * (this.vector k).getD d 0)
          ∧ this.project_load_vector fe pod_load_vector = .ok (this, c))
    ∧ (∀ v a : Vector K, v.length = n → a.length = this.get_num_pod_vectors →
        (∀ d, d < n → v.getD d 0
          = ∑ k in Finset.range this.get_num_pod_vectors,
              a.getD k 0 * (this.vector k).getD d 0) →
        ∀ pod_load_vector fe_vector : Vector K,
          ∃ c, this.project_load_vector v pod_load_vector = .ok (this, c)
            ∧ c.length = this.get_num_pod_vectors
            ∧ (∀ k, k < this.get_num_pod_vectors →
                c.getD k 0 = Vector.inner (this.vector k) v)
            ∧ this.project_to_fe c fe_vector = .ok v) := by
  have hget : ∀ (f : Nat → K) (m k : Nat), k < m → ((List.range m).map f).getD k 0 = f k := by
    intro f m k hk
    rw [getD_of_lt _ k 0 (by simpa using hk)]
    simp
  constructor
  · intro c hc fe_vector pod_load_vector
    have hfe : ∀ d, d < n →
        ((List.range n).map (fun d => ∑ k in Finset.range this.get_num_pod_vectors,
          c.getD k 0 * (this.vector k).getD d 0)).getD d 0
        = ∑ k in Finset.range this.get_num_pod_vectors,
            c.getD k 0 * (this.vector k).getD d 0 := fun d hd => hget _ n d hd
    refine ⟨_, this.project_to_fe_ok hr hsized c hc fe_vector, by simp, hfe, ?_⟩
    rw [this.project_load_vector_ok hsized _ (by simp) pod_load_vector]
    congr 2
    apply list_ext_getD _ _ this.get_num_pod_vectors (by simp) hc
    intro k hk
    rw [hget _ _ k hk]
    exact this.inner_combination hsized horth c _ (by simp) hfe k hk
  · intro v a hv ha hcomb pod_load_vector fe_vector
    have hc : ∀ k, k < this.get_num_pod_vectors →
        ((List.range this.get_num_pod_vectors).map
          (fun k => Vector.inner (this.vector k) v)).getD k 0
        = Vector.inner (this.vector k) v := fun k hk => hget _ _ k hk
    refine ⟨_, this.project_load_vector_ok hsized v hv pod_load_vector, by simp, hc, ?_⟩
    rw [this.project_to_fe_ok hr hsized _ (by simp) fe_vector]
    congr 1
    apply list_ext_getD _ _ n (by simp) hv
    intro d hd
    rw [hget _ n d hd, hcomb d hd]
    apply Finset.sum_congr rfl
    intro k hk
    rw [hc k (Finset.mem_range.mp hk),
      this.inner_combination hsized horth a v hv hcomb k (Finset.mem_range.mp hk)]

/-- Witness for C11: the basis of the unit vectors `(1, 0, 0)` and `(0, 1, 0)`; the
coefficients `(3, 5)` are mapped to a vector and back. -/
theorem project_round_trip_witness :
    ∃ fe, unit_basis.project_to_fe [3, 5] [] = .ok fe
      ∧ unit_basis.project_load_vector fe [] = .ok (unit_basis, [3, 5]) := by
  obtain ⟨fe, h1, _, _, h2⟩ := (project_round_trip (n := 3) unit_basis (by decide)
    (by
      intro j hj
      have hj' : j < 2 := hj
      interval_cases j <;> simp [unit_basis])
    (by
      intro i j hi hj
      have hi' : i < 2 := hi
      have hj' : j < 2 := hj
      interval_cases i <;> interval_cases j <;>
        simp [PODBasis.vector, unit_basis, Vector.inner])).1 [3, 5] rfl [] []
  exact ⟨fe, h1, h2⟩

end BasisClaims

end POD
